import Mathlib

/-!
# TList: a circular doubly-linked list

A verification development for `include/TList.h`.

The C++ container is a ring of heap nodes linked through raw `prev` / `next`
pointers, owned by an object holding `head` and `size`.  The embedding keeps
that shape:

* the free store is a memory of node cells addressed by natural numbers; `new`
  returns an address never used before, `delete` kills the cell;
* a pointer is an optional address, `none` being `nullptr`;
* a member function is a function of the memory and of the data members of
  `*this`, and its outcome is that it returns, or throws one of the standard
  exceptions, both with the memory and the object as they then are, or that it
  faults: a read, write or `delete` through a null or dead pointer, which is
  undefined behaviour in C++;
* `size_t` and `int` arithmetic wraps as on a 64-bit target.

The data-model invariants (closed ring, `head` at index 0, size within
capacity) are the predicate `Ring`; `Holds m l xs` says that the list `l` is
well formed in memory `m` and holds the values `xs` in index order.
-/

namespace TListImpl

/-! ## Memory, nodes and pointers -/

/-- The standard exceptions `TList.h` throws. -/
inductive Exc where
  | out_of_range
  | overflow_error
  | underflow_error
  | invalid_argument
  | runtime_error
  deriving DecidableEq, Repr

/-- A pointer to a node: `none` is `nullptr`, `some a` the address `a`. -/
abbrev Ptr := Option Nat

/-- The class `TListNode`: a value and the two links. -/
structure TListNode (T : Type) where
  value : T
  prev : Ptr
  next : Ptr
  deriving DecidableEq, Repr

/-- The free store: cell `a` holds a live node, or `none` once deleted.
Addresses at or beyond the length have never been allocated. -/
abbrev Mem (T : Type) := List (Option (TListNode T))

/-- The node stored at address `a`, if that cell is live. -/
def Mem.read {T : Type} (m : Mem T) (a : Nat) : Option (TListNode T) :=
  (m[a]?).getD none

/-- Overwrite the cell at address `a`. -/
def Mem.write {T : Type} (m : Mem T) (a : Nat) (nd : TListNode T) : Mem T :=
  m.set a (some nd)

/-- The address `new TListNode(...)` returns: the first never-used one. -/
def newPtr {T : Type} (m : Mem T) : Ptr := some m.length

/-- The memory after `new TListNode(val, p, n)`. -/
def newMem {T : Type} (m : Mem T) (val : T) (p n : Ptr) : Mem T :=
  m ++ [some ⟨val, p, n⟩]

/-- The statement `delete p`: a no-op on `nullptr`, a fault on a dead cell. -/
def delete {T : Type} (m : Mem T) (p : Ptr) : Option (Mem T) :=
  match p with
  | none => some m
  | some a =>
    match m.read a with
    | none => none
    | some _ => some (m.set a none)

/-- The call `p->GetValue()`; `none` is a fault. -/
def GetValue {T : Type} (m : Mem T) (p : Ptr) : Option T :=
  match p with
  | none => none
  | some a => (m.read a).map TListNode.value

/-- The call `p->GetValueRef()`: the reference is the address of the node whose
value slot it designates. -/
def GetValueRef {T : Type} (m : Mem T) (p : Ptr) : Option Nat :=
  match p with
  | none => none
  | some a => (m.read a).map (fun _ => a)

/-- The call `p->GetPrev()`. -/
def GetPrev {T : Type} (m : Mem T) (p : Ptr) : Option Ptr :=
  match p with
  | none => none
  | some a => (m.read a).map TListNode.prev

/-- The call `p->GetNext()`. -/
def GetNext {T : Type} (m : Mem T) (p : Ptr) : Option Ptr :=
  match p with
  | none => none
  | some a => (m.read a).map TListNode.next

/-- The call `p->SetPrev(q)`. -/
def SetPrev {T : Type} (m : Mem T) (p : Ptr) (q : Ptr) : Option (Mem T) :=
  match p with
  | none => none
  | some a =>
    match m.read a with
    | none => none
    | some nd => some (m.write a ⟨nd.value, q, nd.next⟩)

/-- The call `p->SetNext(q)`. -/
def SetNext {T : Type} (m : Mem T) (p : Ptr) (q : Ptr) : Option (Mem T) :=
  match p with
  | none => none
  | some a =>
    match m.read a with
    | none => none
    | some nd => some (m.write a ⟨nd.value, nd.prev, q⟩)

/-! ## The list object and the outcome of a member call -/

/-- The data members of `TList<T>`: `head` and `size`. -/
structure TList where
  head : Ptr
  size : Nat
  deriving DecidableEq, Repr

/-- Outcome of a member function: it returns `a`, or throws `e`, both with the
memory and the object as they then are, or it faults. -/
inductive Res (T : Type) (α : Type) where
  | ok (a : α) (m : Mem T) (l : TList)
  | throw (e : Exc) (m : Mem T) (l : TList)
  | fault
  deriving DecidableEq

/-- A straight-line block of pointer operations: a fault inside is a fault of
the call. -/
def Res.ofOption {T α : Type} : Option (α × Mem T × TList) → Res T α
  | none => Res.fault
  | some (a, m, l) => Res.ok a m l

/-- The value a call returned, if it returned. -/
def Res.val? {T α : Type} : Res T α → Option α
  | Res.ok a _ _ => some a
  | _ => none

/-- The exception a call threw, if it threw. -/
def Res.exc? {T α : Type} : Res T α → Option Exc
  | Res.throw e _ _ => some e
  | _ => none

/-- The memory a call left behind. -/
def Res.mem? {T α : Type} : Res T α → Option (Mem T)
  | Res.ok _ m _ => some m
  | Res.throw _ m _ => some m
  | Res.fault => none

/-- The object a call left behind. -/
def Res.obj? {T α : Type} : Res T α → Option TList
  | Res.ok _ _ l => some l
  | Res.throw _ _ l => some l
  | Res.fault => none

/-! ## Machine integers -/

/-- `static const size_t MAX_SIZE = 10000`. -/
def MAX_SIZE : Nat := 10000

/-- Number of values of `size_t` (64 bits). -/
def SIZE_MOD : Nat := 18446744073709551616

/-- `++size` on a `size_t`. -/
def incSize (n : Nat) : Nat := (n + 1) % SIZE_MOD

/-- `--size` on a `size_t`. -/
def decSize (n : Nat) : Nat := (n + SIZE_MOD - 1) % SIZE_MOD

/-- `static_cast<int>(size)`: reduction modulo 2^32 into the signed range. -/
def castInt (n : Nat) : Int :=
  if n % 4294967296 < 2147483648 then ((n % 4294967296 : Nat) : Int)
  else ((n % 4294967296 : Nat) : Int) - 4294967296

/-! ## Member functions -/

/-- The default constructor `TList()`. -/
def empty : TList := ⟨none, 0⟩

/-- `GetSize()`. -/
def GetSize (l : TList) : Nat := l.size

/-- `IsEmpty()`. -/
def IsEmpty (l : TList) : Bool := l.size == 0

/-- `IsFull()`. -/
def IsFull (l : TList) : Bool := l.size ≥ MAX_SIZE

/-- `void AddStart(const T& value)`. -/
def AddStart {T : Type} (m : Mem T) (l : TList) (value : T) : Res T Unit :=
  if IsFull l then Res.throw Exc.overflow_error m l
  else
    let newNode := newPtr m
    let m0 := newMem m value none none
    if IsEmpty l then
      Res.ofOption (do
        let head := newNode
        let m1 ← SetNext m0 head head
        let m2 ← SetPrev m1 head head
        pure ((), m2, ⟨head, incSize l.size⟩))
    else
      Res.ofOption (do
        let tail ← GetPrev m0 l.head
        let m1 ← SetNext m0 newNode l.head
        let m2 ← SetPrev m1 newNode tail
        let m3 ← SetNext m2 tail newNode
        let m4 ← SetPrev m3 l.head newNode
        pure ((), m4, ⟨newNode, incSize l.size⟩))

/-- `void AddEnd(const T& value)`. -/
def AddEnd {T : Type} (m : Mem T) (l : TList) (value : T) : Res T Unit :=
  if IsFull l then Res.throw Exc.overflow_error m l
  else if IsEmpty l then AddStart m l value
  else
    Res.ofOption (do
      let tail ← GetPrev m l.head
      let newNode := newPtr m
      let m0 := newMem m value tail l.head
      let m1 ← SetNext m0 tail newNode
      let m2 ← SetPrev m1 l.head newNode
      pure ((), m2, ⟨l.head, incSize l.size⟩))

/-- The loop `for (int i = 0; i < index; ++i) current = current->GetNext();`
run for `k` iterations from `current`. -/
def walkNext {T : Type} (m : Mem T) : Nat → Ptr → Option Ptr
  | 0, current => some current
  | k + 1, current =>
    match GetNext m current with
    | none => none
    | some nx => walkNext m k nx

/-- `T& operator[](int index)`: the reference returned is the address of the
node whose value it designates. -/
def indexRef {T : Type} (m : Mem T) (l : TList) (index : Int) : Res T Nat :=
  if index < 0 ∨ index ≥ castInt l.size then Res.throw Exc.out_of_range m l
  else
    Res.ofOption (do
      let current ← walkNext m index.toNat l.head
      let r ← GetValueRef m current
      pure (r, m, l))

/-- What a `const T&` returned by a function designates: the value slot of the
node at an address, or a temporary object.  A temporary bound to the returned
reference is destroyed when the `return` statement completes, so the caller
gets a reference to an object that no longer exists; the value the temporary
held is recorded. -/
inductive ConstRef (T : Type) where
  | node (a : Nat)
  | temporary (v : T)
  deriving DecidableEq, Repr

/-- Reading through a `const T&`; `none` is a read of a dead object. -/
def ConstRef.get {T : Type} (m : Mem T) : ConstRef T → Option T
  | ConstRef.node a => (m.read a).map TListNode.value
  | ConstRef.temporary _ => none

/-- `const T& operator[](int index) const`.  Its `return current->GetValue();`
binds the returned reference to the temporary `T` that `GetValue()` returns by
value. -/
def indexConst {T : Type} (m : Mem T) (l : TList) (index : Int) : Res T (ConstRef T) :=
  if index < 0 ∨ index ≥ castInt l.size then Res.throw Exc.out_of_range m l
  else
    Res.ofOption (do
      let current ← walkNext m index.toNat l.head
      let v ← GetValue m current
      pure (ConstRef.temporary v, m, l))

/-- The value of the expression `list[index]` on a non-const list: the mutable
`operator[]`, then a read through the reference it returned. -/
def readAt {T : Type} (m : Mem T) (l : TList) (index : Int) : Res T T :=
  match indexRef m l index with
  | Res.ok a m1 l1 =>
    match GetValue m1 (some a) with
    | some v => Res.ok v m1 l1
    | none => Res.fault
  | Res.throw e m1 l1 => Res.throw e m1 l1
  | Res.fault => Res.fault

/-- `T RemoveStart()`. -/
def RemoveStart {T : Type} (m : Mem T) (l : TList) : Res T T :=
  if IsEmpty l then Res.throw Exc.underflow_error m l
  else
    Res.ofOption (do
      let value ← GetValue m l.head
      if l.size = 1 then do
        let m1 ← delete m l.head
        pure (value, m1, ⟨none, decSize l.size⟩)
      else do
        let newHead ← GetNext m l.head
        let tail ← GetPrev m l.head
        let m1 ← SetNext m tail newHead
        let m2 ← SetPrev m1 newHead tail
        let m3 ← delete m2 l.head
        pure (value, m3, ⟨newHead, decSize l.size⟩))

/-- `T RemoveEnd()`. -/
def RemoveEnd {T : Type} (m : Mem T) (l : TList) : Res T T :=
  if IsEmpty l then Res.throw Exc.underflow_error m l
  else if l.size = 1 then RemoveStart m l
  else
    Res.ofOption (do
      let tail ← GetPrev m l.head
      let newTail ← GetPrev m tail
      let value ← GetValue m tail
      let m1 ← SetNext m newTail l.head
      let m2 ← SetPrev m1 l.head newTail
      let m3 ← delete m2 tail
      pure (value, m3, ⟨l.head, decSize l.size⟩))

/-- `void Add(const T& value, int index)`. -/
def Add {T : Type} (m : Mem T) (l : TList) (value : T) (index : Int) : Res T Unit :=
  if index < 0 ∨ index > castInt l.size then Res.throw Exc.out_of_range m l
  else if IsFull l then Res.throw Exc.overflow_error m l
  else if index = 0 then AddStart m l value
  else if index = castInt l.size then AddEnd m l value
  else
    Res.ofOption (do
      let current ← walkNext m index.toNat l.head
      let cprev ← GetPrev m current
      let newNode := newPtr m
      let m0 := newMem m value cprev current
      let cprev1 ← GetPrev m0 current
      let m1 ← SetNext m0 cprev1 newNode
      let m2 ← SetPrev m1 current newNode
      pure ((), m2, ⟨l.head, incSize l.size⟩))

/-- `T Remove(int index)`. -/
def Remove {T : Type} (m : Mem T) (l : TList) (index : Int) : Res T T :=
  if index < 0 ∨ index ≥ castInt l.size then Res.throw Exc.out_of_range m l
  else if index = 0 then RemoveStart m l
  else if index = castInt l.size - 1 then RemoveEnd m l
  else
    Res.ofOption (do
      let current ← walkNext m index.toNat l.head
      let value ← GetValue m current
      let prevNode ← GetPrev m current
      let nextNode ← GetNext m current
      let m1 ← SetNext m prevNode nextNode
      let m2 ← SetPrev m1 nextNode prevNode
      let m3 ← delete m2 current
      pure (value, m3, ⟨l.head, decSize l.size⟩))

/-- The data members of `TList<T>::Iterator`. -/
structure Iterator where
  current : Ptr
  start : Ptr
  position : Nat
  total : Nat
  deriving DecidableEq, Repr

/-- The constructor `Iterator(node, pos, totalSize)`. -/
def Iterator.ctor (node : Ptr) (pos : Nat) (totalSize : Nat) : Iterator :=
  ⟨node, node, pos, totalSize⟩

/-- `Iterator::GetNode()`. -/
def Iterator.GetNode (it : Iterator) : Ptr := it.current

/-- `Iterator begin()`. -/
def TList.begin (l : TList) : Iterator := Iterator.ctor l.head 0 l.size

/-- `Iterator end()`. -/
def TList.«end» (l : TList) : Iterator := Iterator.ctor l.head l.size l.size

/-- `void insertAfter(Iterator it, const T& value)`. -/
def insertAfter {T : Type} (m : Mem T) (l : TList) (it : Iterator) (value : T) :
    Res T Unit :=
  if IsFull l then Res.throw Exc.overflow_error m l
  else if it.GetNode = none then AddEnd m l value
  else
    Res.ofOption (do
      let node := it.GetNode
      let nextNode ← GetNext m node
      let newNode := newPtr m
      let m0 := newMem m value node nextNode
      let m1 ← SetNext m0 node newNode
      let m2 ← SetPrev m1 nextNode newNode
      pure ((), m2, ⟨l.head, incSize l.size⟩))

/-- The loop of `operator==`, with `k` iterations left. -/
def eqLoop {T : Type} [DecidableEq T] (m : Mem T) : Nat → Ptr → Ptr → Option Bool
  | 0, _, _ => some true
  | k + 1, thisCurrent, otherCurrent =>
    match GetValue m thisCurrent, GetValue m otherCurrent with
    | some x, some y =>
      if x ≠ y then some false
      else
        match GetNext m thisCurrent, GetNext m otherCurrent with
        | some tnx, some onx => eqLoop m k tnx onx
        | _, _ => none
    | _, _ => none

/-- `bool operator==(const TList& other) const`; `none` is a fault.  The
element comparison is the `!=` of `T`. -/
def opEq {T : Type} [DecidableEq T] (m : Mem T) (l other : TList) : Option Bool :=
  if l.size ≠ other.size then some false
  else if l.size = 0 then some true
  else eqLoop m l.size l.head other.head

/-- `bool operator!=(const TList& other) const`. -/
def opNe {T : Type} [DecidableEq T] (m : Mem T) (l other : TList) : Option Bool :=
  (opEq m l other).map (fun b => !b)

/-- The loop of the copy constructor, with `k` iterations left: `self` is the
list under construction and `current` walks the nodes of the source. -/
def copyLoop {T : Type} : Nat → Mem T → TList → Ptr → Res T Unit
  | 0, m, self, _ => Res.ok () m self
  | k + 1, m, self, current =>
    match GetValue m current with
    | none => Res.fault
    | some v =>
      match AddEnd m self v with
      | Res.ok _ m1 self1 =>
        match GetNext m1 current with
        | none => Res.fault
        | some nx => copyLoop k m1 self1 nx
      | Res.throw e m1 self1 => Res.throw e m1 self1
      | Res.fault => Res.fault

/-- The copy constructor `TList(const TList& other)`: the object of the result
is the new list. -/
def copyCtor {T : Type} (m : Mem T) (other : TList) : Res T Unit :=
  if other.head ≠ none then copyLoop other.size m ⟨none, 0⟩ other.head
  else Res.ok () m ⟨none, 0⟩

/-- The move constructor `TList(TList&& other)`: the new list, and `other` as
it is left.  No memory is touched. -/
def moveCtor (other : TList) : TList × TList :=
  (⟨other.head, other.size⟩, ⟨none, 0⟩)

/-- The loop `while (size > 0) { RemoveStart(); }` run for at most `fuel`
iterations; `none` when the loop has not ended by then. -/
def clearLoop {T : Type} : Nat → Mem T → TList → Option (Res T Unit)
  | 0, m, l => if l.size > 0 then none else some (Res.ok () m l)
  | fuel + 1, m, l =>
    if l.size > 0 then
      match RemoveStart m l with
      | Res.ok _ m1 l1 => clearLoop fuel m1 l1
      | Res.throw e m1 l1 => some (Res.throw e m1 l1)
      | Res.fault => some Res.fault
    else some (Res.ok () m l)

/-- The loop `while (size > 0) { RemoveStart(); }`.  Each `RemoveStart` that
returns lowers `size`, so `l.size` iterations are enough on every memory and
object (`clearLoop_enough`) and the default is never taken. -/
def clear {T : Type} (m : Mem T) (l : TList) : Res T Unit :=
  (clearLoop l.size m l).getD Res.fault

/-- The move assignment `operator=(TList&& other)` for `this != &other`: the
object of the result is `*this`, the value returned is `other` as it is left. -/
def moveAssign {T : Type} (m : Mem T) (l other : TList) : Res T TList :=
  match clear m l with
  | Res.ok _ m1 _ => Res.ok ⟨none, 0⟩ m1 ⟨other.head, other.size⟩
  | Res.throw e m1 l1 => Res.throw e m1 l1
  | Res.fault => Res.fault

/-! ## Member functions: iterator-based removal, concatenation, sized construction -/

/-- `void remove(Iterator it)`. -/
def remove {T : Type} (m : Mem T) (l : TList) (it : Iterator) : Res T Unit :=
  if IsEmpty l then Res.throw Exc.underflow_error m l
  else if it.GetNode = none then Res.throw Exc.invalid_argument m l
  else if l.size = 1 then
    Res.ofOption (do
      let m1 ← delete m l.head
      pure ((), m1, ⟨none, decSize l.size⟩))
  else
    Res.ofOption (do
      let node := it.GetNode
      let prevNode ← GetPrev m node
      let nextNode ← GetNext m node
      let m1 ← SetNext m prevNode nextNode
      let m2 ← SetPrev m1 nextNode prevNode
      let head1 := if node = l.head then nextNode else l.head
      let m3 ← delete m2 node
      pure ((), m3, ⟨head1, decSize l.size⟩))

/-- The destructor `~TList()` run on a local list when an exception leaves its
scope: the memory after it, or `none` on a fault. -/
def destroy {T : Type} (m : Mem T) (l : TList) : Option (Mem T) :=
  match clear m l with
  | Res.ok _ m1 _ => some m1
  | Res.throw _ m1 _ => some m1
  | Res.fault => none

/-- `TList operator+(const TList& other) const`: the value returned is the new
list, the object of the result is `*this`.  When an exception leaves the
function the local `result` is destroyed. -/
def opPlus {T : Type} (m : Mem T) (l other : TList) : Res T TList :=
  match copyCtor m l with
  | Res.ok _ m1 result =>
    if (result.size + other.size) % SIZE_MOD > MAX_SIZE then
      match destroy m1 result with
      | some m2 => Res.throw Exc.overflow_error m2 l
      | none => Res.fault
    else if other.size > 0 then
      match copyLoop other.size m1 result other.head with
      | Res.ok _ m2 result2 => Res.ok result2 m2 l
      | Res.throw e m2 result2 =>
        match destroy m2 result2 with
        | some m3 => Res.throw e m3 l
        | none => Res.fault
      | Res.fault => Res.fault
    else Res.ok result m1 l
  | Res.throw e m1 _ => Res.throw e m1 l
  | Res.fault => Res.fault

/-- The loop `for (size_t i = 0; i < initialSize; ++i) AddEnd(T());` with `k`
iterations left. -/
def fillLoop {T : Type} [Inhabited T] : Nat → Mem T → TList → Res T Unit
  | 0, m, self => Res.ok () m self
  | k + 1, m, self =>
    match AddEnd m self (default : T) with
    | Res.ok _ m1 self1 => fillLoop k m1 self1
    | Res.throw e m1 self1 => Res.throw e m1 self1
    | Res.fault => Res.fault

/-- The constructor `TList(size_t initialSize)`: the object of the result is
the list under construction; `T()` is the default value of `T`. -/
def sizedCtor {T : Type} [Inhabited T] (m : Mem T) (initialSize : Nat) : Res T Unit :=
  if initialSize > MAX_SIZE then Res.throw Exc.out_of_range m ⟨none, 0⟩
  else fillLoop initialSize m ⟨none, 0⟩

/-! ## Stream output and input -/

/-- The loop of `operator<<`, with `k` iterations left and the loop variable at
`i`: `os` is the text written to the stream so far and `render` the `<<` of
`T`. -/
def outLoop {T : Type} (render : T → String) (m : Mem T) (size : Nat) :
    Nat → Nat → Ptr → String → Option String
  | 0, _, _, os => some os
  | k + 1, i, current, os =>
    match GetValue m current with
    | none => none
    | some v =>
      let os1 := os ++ render v
      let os2 := if i < decSize size then os1 ++ " <-> " else os1
      match GetNext m current with
      | none => none
      | some nx => outLoop render m size k (i + 1) nx os2

/-- `std::ostream& operator<<(std::ostream& os, const TList<T>& list)`: the
value returned is the text of the stream after the call, `os` the text before
it. -/
def opOut {T : Type} (render : T → String) (m : Mem T) (l : TList) (os : String) :
    Res T String :=
  if IsEmpty l then Res.ok (os ++ "[]") m l
  else
    match outLoop render m l.size l.size 0 l.head (os ++ "[") with
    | none => Res.fault
    | some os1 => Res.ok (os1 ++ "]") m l

/-- The loop `while (is >> value) { ... }` of `operator>>`.  The input is the
sequence of whitespace-separated tokens left in the stream, `some v` for a
token that `is >> value` parses as `v` and `none` for one it does not; the
extraction fails, and the loop ends, at a token that does not parse and at the
end of the input.  The value returned is the input left unread. -/
def readLoop {T : Type} : List (Option T) → Mem T → TList → Res T (List (Option T))
  | [], m, l => Res.ok [] m l
  | none :: rest, m, l => Res.ok (none :: rest) m l
  | some value :: rest, m, l =>
    if IsFull l then Res.throw Exc.overflow_error m l
    else
      match AddEnd m l value with
      | Res.ok _ m1 l1 => readLoop rest m1 l1
      | Res.throw e m1 l1 => Res.throw e m1 l1
      | Res.fault => Res.fault

/-- `std::istream& operator>>(std::istream& is, TList<T>& list)`. -/
def opIn {T : Type} (m : Mem T) (l : TList) (input : List (Option T)) :
    Res T (List (Option T)) :=
  match clear m l with
  | Res.ok _ m1 l1 => readLoop input m1 l1
  | Res.throw e m1 l1 => Res.throw e m1 l1
  | Res.fault => Res.fault

/-! ## Iterator operations -/

/-- Outcome of an iterator operation: it returns, throws, or faults (a read
through a dead pointer, a division by a zero `total`). -/
inductive Out (α : Type) where
  | ok (a : α)
  | throw (e : Exc)
  | fault
  deriving DecidableEq

/-- `T& Iterator::operator*()`: the reference returned is the address of the
node whose value it designates. -/
def Iterator.deref {T : Type} (m : Mem T) (it : Iterator) : Out Nat :=
  if it.current = none then Out.throw Exc.runtime_error
  else
    match GetValueRef m it.current with
    | none => Out.fault
    | some r => Out.ok r

/-- The value of the expression `*it` on a non-const iterator: the mutable
`operator*`, then a read through the reference it returned. -/
def Iterator.read {T : Type} (m : Mem T) (it : Iterator) : Out T :=
  match it.deref m with
  | Out.ok a =>
    match GetValue m (some a) with
    | some v => Out.ok v
    | none => Out.fault
  | Out.throw e => Out.throw e
  | Out.fault => Out.fault

/-- `Iterator& Iterator::operator++()`: the iterator after the call. -/
def Iterator.inc {T : Type} (m : Mem T) (it : Iterator) : Out Iterator :=
  if it.current = none then Out.throw Exc.runtime_error
  else
    match GetNext m it.current with
    | none => Out.fault
    | some nx =>
      if it.total = 0 then Out.fault
      else Out.ok ⟨nx, it.start, incSize it.position % it.total, it.total⟩

/-- `Iterator& Iterator::operator--()`: the iterator after the call. -/
def Iterator.dec {T : Type} (m : Mem T) (it : Iterator) : Out Iterator :=
  if it.current = none then Out.throw Exc.runtime_error
  else
    match GetPrev m it.current with
    | none => Out.fault
    | some pv =>
      if it.total = 0 then Out.fault
      else Out.ok ⟨pv, it.start, ((decSize it.position + it.total) % SIZE_MOD) % it.total,
        it.total⟩

/-- `bool Iterator::operator==(const Iterator& other) const`. -/
def Iterator.eq (it other : Iterator) : Bool :=
  it.current == other.current && it.position == other.position

/-- `bool Iterator::operator!=(const Iterator& other) const`. -/
def Iterator.ne (it other : Iterator) : Bool := !(it.eq other)

/-- The statement `++it;` executed `k` times. -/
def Iterator.advance {T : Type} (m : Mem T) : Nat → Iterator → Out Iterator
  | 0, it => Out.ok it
  | k + 1, it =>
    match it.inc m with
    | Out.ok it1 => Iterator.advance m k it1
    | Out.throw e => Out.throw e
    | Out.fault => Out.fault

/-- The statement `--it;` executed `k` times. -/
def Iterator.retreat {T : Type} (m : Mem T) : Nat → Iterator → Out Iterator
  | 0, it => Out.ok it
  | k + 1, it =>
    match it.dec m with
    | Out.ok it1 => Iterator.retreat m k it1
    | Out.throw e => Out.throw e
    | Out.fault => Out.fault

/-- The loop `for (it = begin(); it != end(); ++it) { }` with an empty body,
run for at most `fuel` tests of its condition from the iterator `it`: the
number of increments made when the condition fails, `none` when it has not
failed by then or an increment does not return. -/
def traverse {T : Type} (m : Mem T) (l : TList) : Nat → Iterator → Option Nat
  | 0, _ => none
  | fuel + 1, it =>
    if it.ne l.«end» then
      match it.inc m with
      | Out.ok it1 => (traverse m l fuel it1).map (· + 1)
      | _ => none
    else some 0

/-! ## Iterator member functions with the iterator as they leave it -/

/-- Outcome of a member function of `Iterator`: it returns `a`, or throws `e`,
both with the data members of the iterator as they then are, or it faults.
The member functions read the memory and write only the data members of the
iterator; no node and no list object is written. -/
inductive ItRes (α : Type) where
  | ok (a : α) (it : Iterator)
  | throw (e : Exc) (it : Iterator)
  | fault
  deriving DecidableEq

/-- `T& Iterator::operator*()`: the reference returned is the address of the
node whose value it designates. -/
def Iterator.opStar {T : Type} (m : Mem T) (it : Iterator) : ItRes Nat :=
  if it.current = none then ItRes.throw Exc.runtime_error it
  else
    match GetValueRef m it.current with
    | none => ItRes.fault
    | some r => ItRes.ok r it

/-- `const T& Iterator::operator*() const`.  Its `return current->GetValue();`
binds the returned reference to the temporary `T` that `GetValue()` returns by
value. -/
def Iterator.opStarConst {T : Type} (m : Mem T) (it : Iterator) : ItRes (ConstRef T) :=
  if it.current = none then ItRes.throw Exc.runtime_error it
  else
    match GetValue m it.current with
    | none => ItRes.fault
    | some v => ItRes.ok (ConstRef.temporary v) it

/-- `T* Iterator::operator->()`: the pointer returned is the address of the
node whose value it points to. -/
def Iterator.opArrow {T : Type} (m : Mem T) (it : Iterator) : ItRes Nat :=
  if it.current = none then ItRes.throw Exc.runtime_error it
  else
    match GetValueRef m it.current with
    | none => ItRes.fault
    | some r => ItRes.ok r it

/-- `Iterator& Iterator::operator++()`.  The remainder by a zero `total` is a
fault. -/
def Iterator.preInc {T : Type} (m : Mem T) (it : Iterator) : ItRes Unit :=
  if it.current = none then ItRes.throw Exc.runtime_error it
  else
    match GetNext m it.current with
    | none => ItRes.fault
    | some nx =>
      if it.total = 0 then ItRes.fault
      else ItRes.ok () ⟨nx, it.start, incSize it.position % it.total, it.total⟩

/-- `Iterator Iterator::operator++(int)`: the value returned is the copy made
before the increment. -/
def Iterator.postInc {T : Type} (m : Mem T) (it : Iterator) : ItRes Iterator :=
  let temp := it
  match it.preInc m with
  | ItRes.ok _ it1 => ItRes.ok temp it1
  | ItRes.throw e it1 => ItRes.throw e it1
  | ItRes.fault => ItRes.fault

/-- `Iterator& Iterator::operator--()`.  The remainder by a zero `total` is a
fault. -/
def Iterator.preDec {T : Type} (m : Mem T) (it : Iterator) : ItRes Unit :=
  if it.current = none then ItRes.throw Exc.runtime_error it
  else
    match GetPrev m it.current with
    | none => ItRes.fault
    | some pv =>
      if it.total = 0 then ItRes.fault
      else ItRes.ok ()
        ⟨pv, it.start, ((decSize it.position + it.total) % SIZE_MOD) % it.total, it.total⟩

/-- `Iterator Iterator::operator--(int)`: the value returned is the copy made
before the decrement. -/
def Iterator.postDec {T : Type} (m : Mem T) (it : Iterator) : ItRes Iterator :=
  let temp := it
  match it.preDec m with
  | ItRes.ok _ it1 => ItRes.ok temp it1
  | ItRes.throw e it1 => ItRes.throw e it1
  | ItRes.fault => ItRes.fault

/-- The copy assignment `operator=(const TList& other)` for `this != &other`:
the loop `while (size > 0) RemoveStart();`, then the loop of the copy
constructor on `*this`. -/
def copyAssign {T : Type} (m : Mem T) (l other : TList) : Res T Unit :=
  match clear m l with
  | Res.ok _ m1 l1 =>
    if other.head ≠ none then copyLoop other.size m1 l1 other.head
    else Res.ok () m1 l1
  | Res.throw e m1 l1 => Res.throw e m1 l1
  | Res.fault => Res.fault

/-! ## The ring invariant -/

/-- Address of the first node of `ns`, or `d` when there is none. -/
def firstAddr {T : Type} (ns : List (Nat × T)) (d : Nat) : Nat :=
  match ns with
  | [] => d
  | n :: _ => n.1

/-- Address of the last node of `ns`, or `d` when there is none. -/
def lastAddr {T : Type} (ns : List (Nat × T)) (d : Nat) : Nat :=
  ns.foldl (fun _ n => n.1) d

/-- A doubly-linked segment: the cells at the addresses of `ns` hold the values
of `ns`, each `next` is the address that follows (`q` after the last), each
`prev` the address that precedes (`p` before the first). -/
def seg {T : Type} (m : Mem T) : Nat → List (Nat × T) → Nat → Prop
  | _, [], _ => True
  | p, n :: ns, q =>
    m.read n.1 = some ⟨n.2, some p, some (firstAddr ns q)⟩ ∧ seg m n.1 ns q

/-- The addresses of `ns` form a closed ring in `m` carrying the values of `ns`
in order. -/
def Cyc {T : Type} (m : Mem T) (ns : List (Nat × T)) : Prop :=
  (ns.map Prod.fst).Nodup ∧ seg m (lastAddr ns 0) ns (firstAddr ns 0)

/-- The data-model invariants of the list `l` in memory `m`, with `ns` the
(address, value) pairs of its nodes in index order: `size` counts the nodes and
is within capacity, `head` is the node of index 0 and is null exactly for the
empty list, and the nodes form a closed ring. -/
def Ring {T : Type} (m : Mem T) (l : TList) (ns : List (Nat × T)) : Prop :=
  l.size = ns.length ∧ ns.length ≤ MAX_SIZE ∧
    l.head = (ns.head?).map Prod.fst ∧ Cyc m ns

/-- The list `l` is well formed in `m`, holding the values `xs` in index
order. -/
def Holds {T : Type} (m : Mem T) (l : TList) (xs : List T) : Prop :=
  ∃ ns : List (Nat × T), Ring m l ns ∧ ns.map Prod.snd = xs

/-- Two well-formed lists in one memory that share no node: `A` holds `xs` and
`B` holds `ys`. -/
def Holds2 {T : Type} (m : Mem T) (A : TList) (xs : List T) (B : TList) (ys : List T) :
    Prop :=
  ∃ nsA nsB : List (Nat × T), Ring m A nsA ∧ nsA.map Prod.snd = xs ∧
    Ring m B nsB ∧ nsB.map Prod.snd = ys ∧
    ∀ a ∈ nsA.map Prod.fst, a ∉ nsB.map Prod.fst

/-- Deciding `seg` on concrete data. -/
instance decSeg {T : Type} [DecidableEq T] (m : Mem T) :
    (p : Nat) → (ns : List (Nat × T)) → (q : Nat) → Decidable (seg m p ns q)
  | _, [], _ => isTrue trivial
  | _, n :: ns, q =>
    have := decSeg m n.1 ns q
    inferInstanceAs (Decidable (_ ∧ _))

/-- Deciding `Cyc` on concrete data. -/
instance decCyc {T : Type} [DecidableEq T] (m : Mem T) (ns : List (Nat × T)) :
    Decidable (Cyc m ns) :=
  inferInstanceAs (Decidable (_ ∧ _))

/-- Deciding `Ring` on concrete data. -/
instance decRing {T : Type} [DecidableEq T] (m : Mem T) (l : TList)
    (ns : List (Nat × T)) : Decidable (Ring m l ns) :=
  inferInstanceAs (Decidable (_ ∧ _ ∧ _ ∧ _))

/-! ## Memories reached by the pointer surgery -/

/-- The memory after a successful `SetNext` at address `a` (unchanged when the
cell is dead, where `SetNext` faults). -/
def updNext {T : Type} (m : Mem T) (a : Nat) (q : Ptr) : Mem T :=
  match m.read a with
  | none => m
  | some nd => m.write a ⟨nd.value, nd.prev, q⟩

/-- The memory after a successful `SetPrev` at address `a` (unchanged when the
cell is dead, where `SetPrev` faults). -/
def updPrev {T : Type} (m : Mem T) (a : Nat) (q : Ptr) : Mem T :=
  match m.read a with
  | none => m
  | some nd => m.write a ⟨nd.value, q, nd.next⟩

/-- The memory after a new node holding `v` has been linked between the
adjacent nodes `p` and `c`: allocation, then `p->SetNext`, then `c->SetPrev`. -/
def linkMem {T : Type} (m : Mem T) (p c : Nat) (v : T) : Mem T :=
  updPrev (updNext (newMem m v (some p) (some c)) p (some m.length)) c (some m.length)

/-- The memory after the node `c` with neighbours `p` and `q` has been
unlinked and deleted: `p->SetNext(q)`, then `q->SetPrev(p)`, then `delete c`. -/
def unlinkMem {T : Type} (m : Mem T) (p c q : Nat) : Mem T :=
  (updPrev (updNext m p (some q)) q (some p)).set c none

/-- The memory `m1` extends `m` and differs from it on the cells `m` had only
at addresses of `ns`. -/
def FrameOf {T : Type} (m m1 : Mem T) (ns : List (Nat × T)) : Prop :=
  m.length ≤ m1.length ∧
    ∀ b, b < m.length → b ∉ ns.map Prod.fst → m1.read b = m.read b

/-! ## Sequences of calls -/

/-- The calls `AddEnd(v0); AddEnd(v1); ...` in sequence, stopping at the first
that does not return. -/
def AddEndSeq {T : Type} (m : Mem T) (l : TList) : List T → Res T Unit
  | [] => Res.ok () m l
  | v :: vs =>
    match AddEnd m l v with
    | Res.ok _ m1 l1 => AddEndSeq m1 l1 vs
    | Res.throw e m1 l1 => Res.throw e m1 l1
    | Res.fault => Res.fault

/-- Memory and object after a call that returned or threw (a caller that
catches the exception goes on from there); `none` after a fault. -/
def Res.state? {T α : Type} : Res T α → Option (Mem T × TList)
  | Res.ok _ m l => some (m, l)
  | Res.throw _ m l => some (m, l)
  | Res.fault => none

/-- A call of one of the index- and end-based mutating member functions. -/
inductive Mutation (T : Type) where
  | addStart (v : T)
  | addEnd (v : T)
  | add (v : T) (index : Int)
  | removeStart
  | removeEnd
  | remove (index : Int)

/-- Run one mutating call on the list `l`. -/
def Mutation.run {T : Type} (c : Mutation T) (m : Mem T) (l : TList) :
    Option (Mem T × TList) :=
  match c with
  | Mutation.addStart v => (AddStart m l v).state?
  | Mutation.addEnd v => (AddEnd m l v).state?
  | Mutation.add v index => (Add m l v index).state?
  | Mutation.removeStart => (RemoveStart m l).state?
  | Mutation.removeEnd => (RemoveEnd m l).state?
  | Mutation.remove index => (Remove m l index).state?

/-- Run a sequence of mutating calls on one list, exceptions caught. -/
def mutate {T : Type} : List (Mutation T) → Mem T → TList → Option (Mem T × TList)
  | [], m, l => some (m, l)
  | c :: cs, m, l =>
    match c.run m l with
    | none => none
    | some (m1, l1) => mutate cs m1 l1

/-! ## Concrete lists -/

/-- The memory after `AddEnd(1); AddEnd(2); AddEnd(3)` on an empty list in an
empty memory. -/
def mem123 : Mem Nat :=
  [some ⟨1, some 2, some 1⟩, some ⟨2, some 0, some 2⟩, some ⟨3, some 1, some 0⟩]

/-- The list object after `AddEnd(1); AddEnd(2); AddEnd(3)`. -/
def list123 : TList := ⟨some 0, 3⟩

/-- The nodes of `list123` in index order. -/
def nodes123 : List (Nat × Nat) := [(0, 1), (1, 2), (2, 3)]

/-- The memory of `mem123` with a second list, holding the single value 7, at
address 3. -/
def mem123and7 : Mem Nat := mem123 ++ [some ⟨7, some 3, some 3⟩]

/-- The list object of the second list of `mem123and7`. -/
def list7 : TList := ⟨some 3, 1⟩

/-- The strings of `parts` written one after the other with `sep` between
consecutive ones. -/
def joinWith (sep : String) : List String → String
  | [] => ""
  | [a] => a
  | a :: b :: rest => a ++ sep ++ joinWith sep (b :: rest)

/-! ## Programs: sequences of public calls on several lists -/

/-- The state of a program: the free store and the list objects it has
constructed, named by their index. -/
structure World (T : Type) where
  mem : Mem T
  lists : List TList

/-- A call of a constructor, an assignment, a public member function or a
public operator of `TList`; list objects are named by their index in the
world, iterators are arbitrary values of the iterator type. -/
inductive Call (T : Type) where
  | defaultCtor
  | sizedCtor (count : Nat)
  | copyCtor (src : Nat)
  | moveCtor (src : Nat)
  | copyAssign (dst src : Nat)
  | moveAssign (dst src : Nat)
  | addStart (i : Nat) (v : T)
  | addEnd (i : Nat) (v : T)
  | add (i : Nat) (v : T) (index : Int)
  | removeStart (i : Nat)
  | removeEnd (i : Nat)
  | removeAt (i : Nat) (index : Int)
  | insertAfter (i : Nat) (it : Iterator) (v : T)
  | removeIt (i : Nat) (it : Iterator)
  | plus (i j : Nat)
  | parse (i : Nat) (input : List (Option T))

/-- The world after a member call on the object of index `i`, the exception
caught if it threw; `none` after a fault. -/
def World.member {T α : Type} (w : World T) (i : Nat) (r : Res T α) : Option (World T) :=
  match r with
  | Res.ok _ m1 l1 => some ⟨m1, w.lists.set i l1⟩
  | Res.throw _ m1 l1 => some ⟨m1, w.lists.set i l1⟩
  | Res.fault => none

/-- The world after a constructor call: a new object when it returned, none
when it threw. -/
def World.construct {T : Type} (w : World T) (r : Res T Unit) : Option (World T) :=
  match r with
  | Res.ok _ m1 l1 => some ⟨m1, w.lists ++ [l1]⟩
  | Res.throw _ m1 _ => some ⟨m1, w.lists⟩
  | Res.fault => none

/-- Run one call; `none` when it faults, names an object that does not exist,
or throws out of a `noexcept` function. -/
def stepCall {T : Type} [Inhabited T] (w : World T) : Call T → Option (World T)
  | Call.defaultCtor => some ⟨w.mem, w.lists ++ [empty]⟩
  | Call.sizedCtor count => w.construct (sizedCtor w.mem count)
  | Call.copyCtor src =>
    match w.lists[src]? with
    | some o => w.construct (copyCtor w.mem o)
    | none => none
  | Call.moveCtor src =>
    match w.lists[src]? with
    | some o => some ⟨w.mem, w.lists.set src (moveCtor o).2 ++ [(moveCtor o).1]⟩
    | none => none
  | Call.copyAssign dst src =>
    match w.lists[dst]?, w.lists[src]? with
    | some l, some o => if dst = src then some w else w.member dst (copyAssign w.mem l o)
    | _, _ => none
  | Call.moveAssign dst src =>
    match w.lists[dst]?, w.lists[src]? with
    | some l, some o =>
      if dst = src then some w
      else
        match moveAssign w.mem l o with
        | Res.ok o1 m1 l1 => some ⟨m1, (w.lists.set dst l1).set src o1⟩
        | Res.throw _ _ _ => none
        | Res.fault => none
    | _, _ => none
  | Call.addStart i v =>
    match w.lists[i]? with
    | some l => w.member i (AddStart w.mem l v)
    | none => none
  | Call.addEnd i v =>
    match w.lists[i]? with
    | some l => w.member i (AddEnd w.mem l v)
    | none => none
  | Call.add i v index =>
    match w.lists[i]? with
    | some l => w.member i (Add w.mem l v index)
    | none => none
  | Call.removeStart i =>
    match w.lists[i]? with
    | some l => w.member i (RemoveStart w.mem l)
    | none => none
  | Call.removeEnd i =>
    match w.lists[i]? with
    | some l => w.member i (RemoveEnd w.mem l)
    | none => none
  | Call.removeAt i index =>
    match w.lists[i]? with
    | some l => w.member i (Remove w.mem l index)
    | none => none
  | Call.insertAfter i it v =>
    match w.lists[i]? with
    | some l => w.member i (insertAfter w.mem l it v)
    | none => none
  | Call.removeIt i it =>
    match w.lists[i]? with
    | some l => w.member i (remove w.mem l it)
    | none => none
  | Call.plus i j =>
    match w.lists[i]?, w.lists[j]? with
    | some l, some o =>
      match opPlus w.mem l o with
      | Res.ok r m1 l1 => some ⟨m1, w.lists.set i l1 ++ [r]⟩
      | Res.throw _ m1 l1 => some ⟨m1, w.lists.set i l1⟩
      | Res.fault => none
    | _, _ => none
  | Call.parse i input =>
    match w.lists[i]? with
    | some l => w.member i (opIn w.mem l input)
    | none => none

/-- Run a sequence of calls from the world `w`. -/
def runCalls {T : Type} [Inhabited T] : List (Call T) → World T → Option (World T)
  | [], w => some w
  | c :: cs, w =>
    match stepCall w c with
    | some w1 => runCalls cs w1
    | none => none

/-! ## The ring invariant in terms of the links -/

/-- Ring well-formedness of the list `l` in memory `m`, stated on the links:
`head` is null exactly when `size` is 0; every node of the list (the node
reached from `head` by `p < size` steps of `next`) is reached again from itself
by exactly `size` steps of `next` and by no smaller positive number of steps,
its `next` node has it as `prev` and its `prev` node has it as `next`; and the
`prev` of `head` is the node of index `size - 1`. -/
def RingInv {T : Type} (m : Mem T) (l : TList) : Prop :=
  (l.head = none ↔ l.size = 0) ∧
  (∀ p, p < l.size → ∃ a b c,
    walkNext m p l.head = some (some a) ∧
    walkNext m l.size (some a) = some (some a) ∧
    (∀ k, 0 < k → k < l.size → walkNext m k (some a) ≠ some (some a)) ∧
    GetNext m (some a) = some (some b) ∧ GetPrev m (some b) = some (some a) ∧
    GetPrev m (some a) = some (some c) ∧ GetNext m (some c) = some (some a)) ∧
  (1 ≤ l.size → ∃ t, GetPrev m l.head = some (some t) ∧
    walkNext m (l.size - 1) l.head = some (some t))

/-- The outcome `r` of a call (memory and object after it, `none` after a
fault): the call did not fault and left a well-formed ring within capacity. -/
def Preserved {T : Type} (r : Option (Mem T × TList)) : Prop :=
  ∃ m1 l1, r = some (m1, l1) ∧ RingInv m1 l1 ∧ l1.size ≤ MAX_SIZE

/-! ## Memory lemmas -/

theorem read_eq_none_of_le {T : Type} (m : Mem T) (a : Nat) (h : m.length ≤ a) :
    m.read a = none := by
  simp [Mem.read, List.getElem?_eq_none h]

theorem lt_of_read_eq_some {T : Type} {m : Mem T} {a : Nat} {nd : TListNode T}
    (h : m.read a = some nd) : a < m.length := by
  by_contra hc
  rw [read_eq_none_of_le m a (Nat.le_of_not_lt hc)] at h
  exact Option.noConfusion h

theorem read_write {T : Type} (m : Mem T) (a b : Nat) (nd : TListNode T)
    (ha : a < m.length) :
    (m.write a nd).read b = if b = a then some nd else m.read b := by
  unfold Mem.read Mem.write
  by_cases hb : b = a
  · subst hb
    simp [List.getElem?_set, ha]
  · have hb' : ¬ a = b := fun h => hb h.symm
    simp [List.getElem?_set, hb, hb']

theorem read_free {T : Type} (m : Mem T) (a b : Nat) :
    Mem.read (m.set a none) b = if b = a then none else m.read b := by
  unfold Mem.read
  by_cases hb : b = a
  · subst hb
    by_cases hl : b < m.length
    · simp [List.getElem?_set, hl]
    · simp [List.getElem?_set, hl]
  · have hb' : ¬ a = b := fun h => hb h.symm
    simp [List.getElem?_set, hb, hb']

theorem read_newMem {T : Type} (m : Mem T) (v : T) (p n : Ptr) (b : Nat) :
    (newMem m v p n).read b = if b = m.length then some ⟨v, p, n⟩ else m.read b := by
  unfold Mem.read newMem
  by_cases hb : b = m.length
  · subst hb
    simp
  · rcases Nat.lt_or_gt_of_ne hb with h | h
    · simp [List.getElem?_append_left h, hb]
    · have h1 : m.length ≤ b := Nat.le_of_lt h
      have h2 : (m ++ [some (⟨v, p, n⟩ : TListNode T)]).length ≤ b := by
        simp; omega
      simp [List.getElem?_eq_none h2, List.getElem?_eq_none h1, hb]

theorem length_newMem {T : Type} (m : Mem T) (v : T) (p n : Ptr) :
    (newMem m v p n).length = m.length + 1 := by
  simp [newMem]

theorem length_updNext {T : Type} (m : Mem T) (a : Nat) (q : Ptr) :
    (updNext m a q).length = m.length := by
  unfold updNext
  split <;> simp [Mem.write]

theorem length_updPrev {T : Type} (m : Mem T) (a : Nat) (q : Ptr) :
    (updPrev m a q).length = m.length := by
  unfold updPrev
  split <;> simp [Mem.write]

theorem read_updNext {T : Type} (m : Mem T) (a b : Nat) (q : Ptr) :
    (updNext m a q).read b =
      if b = a then (m.read a).map (fun nd => ⟨nd.value, nd.prev, q⟩) else m.read b := by
  unfold updNext
  cases h : m.read a with
  | none =>
    by_cases hb : b = a
    · subst hb; simp [h]
    · simp [hb]
  | some nd =>
    simp only [read_write m a b _ (lt_of_read_eq_some h), Option.map_some']

theorem read_updPrev {T : Type} (m : Mem T) (a b : Nat) (q : Ptr) :
    (updPrev m a q).read b =
      if b = a then (m.read a).map (fun nd => ⟨nd.value, q, nd.next⟩) else m.read b := by
  unfold updPrev
  cases h : m.read a with
  | none =>
    by_cases hb : b = a
    · subst hb; simp [h]
    · simp [hb]
  | some nd =>
    simp only [read_write m a b _ (lt_of_read_eq_some h), Option.map_some']

theorem SetNext_eq {T : Type} (m : Mem T) (a : Nat) (q : Ptr) (nd : TListNode T)
    (h : m.read a = some nd) : SetNext m (some a) q = some (updNext m a q) := by
  simp [SetNext, updNext, h]

theorem SetPrev_eq {T : Type} (m : Mem T) (a : Nat) (q : Ptr) (nd : TListNode T)
    (h : m.read a = some nd) : SetPrev m (some a) q = some (updPrev m a q) := by
  simp [SetPrev, updPrev, h]

theorem delete_eq {T : Type} (m : Mem T) (a : Nat) (nd : TListNode T)
    (h : m.read a = some nd) : delete m (some a) = some (m.set a none) := by
  simp [delete, h]

/-! ## Segments and rings -/

theorem firstAddr_cons {T : Type} (n : Nat × T) (ns : List (Nat × T)) (d : Nat) :
    firstAddr (n :: ns) d = n.1 := rfl

theorem firstAddr_nil {T : Type} (d : Nat) : firstAddr ([] : List (Nat × T)) d = d := rfl

theorem lastAddr_nil {T : Type} (d : Nat) : lastAddr ([] : List (Nat × T)) d = d := rfl

theorem lastAddr_cons {T : Type} (n : Nat × T) (ns : List (Nat × T)) (d : Nat) :
    lastAddr (n :: ns) d = lastAddr ns n.1 := rfl

theorem lastAddr_append {T : Type} (xs ys : List (Nat × T)) (d : Nat) :
    lastAddr (xs ++ ys) d = lastAddr ys (lastAddr xs d) := by
  simp [lastAddr, List.foldl_append]

theorem firstAddr_append {T : Type} (xs ys : List (Nat × T)) (d : Nat) :
    firstAddr (xs ++ ys) d = firstAddr xs (firstAddr ys d) := by
  cases xs <;> rfl

theorem lastAddr_concat {T : Type} (xs : List (Nat × T)) (n : Nat × T) (d : Nat) :
    lastAddr (xs ++ [n]) d = n.1 := by
  simp [lastAddr, List.foldl_append]

theorem lastAddr_mem {T : Type} (ns : List (Nat × T)) (d : Nat) (h : ns ≠ []) :
    lastAddr ns d ∈ ns.map Prod.fst := by
  rcases List.eq_nil_or_concat ns with h0 | ⟨xs, n, rfl⟩
  · exact absurd h0 h
  · simp [lastAddr_concat]

theorem firstAddr_drop {T : Type} (ns : List (Nat × T)) (d : Nat) (i : Nat)
    (hi : i < ns.length) : firstAddr (ns.drop i) d = ns[i].1 := by
  induction ns generalizing i with
  | nil => simp at hi
  | cons n ns ih =>
    cases i with
    | zero => rfl
    | succ i =>
      simp only [List.drop_succ_cons, List.getElem_cons_succ]
      exact ih i (by simpa using hi)

theorem seg_frame {T : Type} {m m' : Mem T} {p q : Nat} {ns : List (Nat × T)}
    (h : seg m p ns q) (hf : ∀ a ∈ ns.map Prod.fst, m'.read a = m.read a) :
    seg m' p ns q := by
  induction ns generalizing p with
  | nil => trivial
  | cons n ns ih =>
    obtain ⟨h1, h2⟩ := h
    refine ⟨?_, ih h2 (fun a ha => hf a (by simp at ha ⊢; exact Or.inr ha))⟩
    rw [hf n.1 (by simp)]
    exact h1

theorem seg_live {T : Type} {m : Mem T} {p q : Nat} {ns : List (Nat × T)}
    (h : seg m p ns q) : ∀ a ∈ ns.map Prod.fst, a < m.length := by
  induction ns generalizing p with
  | nil => intro a ha; simp at ha
  | cons n ns ih =>
    obtain ⟨h1, h2⟩ := h
    intro a ha
    simp only [List.map_cons, List.mem_cons] at ha
    rcases ha with rfl | ha
    · exact lt_of_read_eq_some h1
    · exact ih h2 a ha

theorem seg_append {T : Type} (m : Mem T) (p q : Nat) (xs ys : List (Nat × T)) :
    seg m p (xs ++ ys) q ↔
      seg m p xs (firstAddr ys q) ∧ seg m (lastAddr xs p) ys q := by
  induction xs generalizing p with
  | nil => simp [seg, lastAddr_nil]
  | cons n xs ih =>
    show (m.read n.1 = some ⟨n.2, some p, some (firstAddr (xs ++ ys) q)⟩ ∧
        seg m n.1 (xs ++ ys) q) ↔
      (m.read n.1 = some ⟨n.2, some p, some (firstAddr xs (firstAddr ys q))⟩ ∧
        seg m n.1 xs (firstAddr ys q)) ∧ seg m (lastAddr xs n.1) ys q
    rw [ih, firstAddr_append, and_assoc]

theorem seg_get {T : Type} {m : Mem T} {p q : Nat} {ns : List (Nat × T)}
    (h : seg m p ns q) (i : Nat) (hi : i < ns.length) :
    ∃ pp qq, m.read ns[i].1 = some ⟨ns[i].2, pp, some qq⟩ ∧
      qq = firstAddr (ns.drop (i + 1)) q := by
  induction ns generalizing p i with
  | nil => simp at hi
  | cons n ns ih =>
    obtain ⟨h1, h2⟩ := h
    cases i with
    | zero => exact ⟨_, _, h1, rfl⟩
    | succ i =>
      simp only [List.getElem_cons_succ, List.drop_succ_cons]
      exact ih h2 i (by simpa using hi)

theorem seg_set_prev {T : Type} {m : Mem T} {p q : Nat} {n : Nat × T}
    {ns : List (Nat × T)} (h : seg m p (n :: ns) q) (hn : n.1 ∉ ns.map Prod.fst)
    (p' : Nat) : seg (updPrev m n.1 (some p')) p' (n :: ns) q := by
  obtain ⟨h1, h2⟩ := h
  refine ⟨by simp [read_updPrev, h1], seg_frame h2 ?_⟩
  intro a ha
  have : a ≠ n.1 := fun e => hn (e ▸ ha)
  simp [read_updPrev, this]

theorem seg_set_next {T : Type} {m : Mem T} {p q : Nat} {n : Nat × T}
    {ns : List (Nat × T)} (h : seg m p (ns ++ [n]) q) (hn : n.1 ∉ ns.map Prod.fst)
    (q' : Nat) : seg (updNext m n.1 (some q')) p (ns ++ [n]) q' := by
  rw [seg_append] at h ⊢
  obtain ⟨h1, h2, _⟩ := h
  refine ⟨seg_frame h1 ?_, ?_, trivial⟩
  · intro a ha
    have : a ≠ n.1 := fun e => hn (e ▸ ha)
    simp [read_updNext, this]
  · simp [read_updNext, h2, firstAddr_nil]

theorem Cyc_rotate {T : Type} (m : Mem T) (xs ys : List (Nat × T))
    (h : Cyc m (xs ++ ys)) : Cyc m (ys ++ xs) := by
  obtain ⟨hnd, hs⟩ := h
  refine ⟨?_, ?_⟩
  · rw [List.map_append] at hnd ⊢
    exact List.nodup_append_comm.mp hnd
  · cases xs with
    | nil => simpa using hs
    | cons x xs =>
      cases ys with
      | nil => simpa using hs
      | cons y ys =>
        rw [seg_append] at hs ⊢
        simp only [lastAddr_append, lastAddr_cons, firstAddr_append, firstAddr_cons,
          List.cons_append] at hs ⊢
        exact ⟨hs.2, hs.1⟩

theorem walkNext_seg {T : Type} {m : Mem T} {p q : Nat} {ns : List (Nat × T)}
    (h : seg m p ns q) (k : Nat) (hk : k ≤ ns.length) :
    walkNext m k (some (firstAddr ns q)) = some (some (firstAddr (ns.drop k) q)) := by
  induction ns generalizing p k with
  | nil =>
    have : k = 0 := by simpa using hk
    subst this
    rfl
  | cons n ns ih =>
    cases k with
    | zero => rfl
    | succ k =>
      obtain ⟨h1, h2⟩ := h
      simp only [walkNext, firstAddr_cons, GetNext, h1, Option.map_some', List.drop_succ_cons]
      exact ih h2 k (by simpa using hk)

theorem lastAddr_indep {T : Type} (ns : List (Nat × T)) (d d' : Nat) (h : ns ≠ []) :
    lastAddr ns d = lastAddr ns d' := by
  cases ns with
  | nil => exact absurd rfl h
  | cons n ns => rfl

theorem firstAddr_indep {T : Type} (ns : List (Nat × T)) (d d' : Nat) (h : ns ≠ []) :
    firstAddr ns d = firstAddr ns d' := by
  cases ns with
  | nil => exact absurd rfl h
  | cons n ns => rfl

theorem firstAddr_mem {T : Type} (ns : List (Nat × T)) (d : Nat) (h : ns ≠ []) :
    firstAddr ns d ∈ ns.map Prod.fst := by
  cases ns with
  | nil => exact absurd rfl h
  | cons n ns => simp [firstAddr_cons]

theorem seg_set_next_last {T : Type} {m : Mem T} {p q : Nat} {ns : List (Nat × T)}
    (h : seg m p ns q) (hnd : (ns.map Prod.fst).Nodup) (hne : ns ≠ []) (d q' : Nat) :
    seg (updNext m (lastAddr ns d) (some q')) p ns q' := by
  rcases List.eq_nil_or_concat ns with h0 | ⟨xs, n, hx⟩
  · exact absurd h0 hne
  · rw [List.concat_eq_append] at hx
    subst hx
    rw [lastAddr_concat]
    refine seg_set_next h ?_ q'
    rw [List.map_append, List.nodup_append] at hnd
    intro hmem
    exact hnd.2.2 hmem (by simp)

theorem seg_set_prev_first {T : Type} {m : Mem T} {p q : Nat} {ns : List (Nat × T)}
    (h : seg m p ns q) (hnd : (ns.map Prod.fst).Nodup) (hne : ns ≠ []) (d p' : Nat) :
    seg (updPrev m (firstAddr ns d) (some p')) p' ns q := by
  cases ns with
  | nil => exact absurd rfl hne
  | cons n ns =>
    rw [firstAddr_cons]
    refine seg_set_prev h ?_ p'
    rw [List.map_cons, List.nodup_cons] at hnd
    exact hnd.1

theorem length_linkMem {T : Type} (m : Mem T) (p c : Nat) (v : T) :
    (linkMem m p c v).length = m.length + 1 := by
  simp [linkMem, length_updPrev, length_updNext, length_newMem]

theorem read_linkMem_other {T : Type} (m : Mem T) (p c : Nat) (v : T) (b : Nat)
    (hp : b ≠ p) (hc : b ≠ c) (hn : b ≠ m.length) :
    (linkMem m p c v).read b = m.read b := by
  simp [linkMem, read_updPrev, read_updNext, read_newMem, hp, hc, hn]

theorem length_unlinkMem {T : Type} (m : Mem T) (p c q : Nat) :
    (unlinkMem m p c q).length = m.length := by
  simp [unlinkMem, length_updPrev, length_updNext]

theorem read_unlinkMem_other {T : Type} (m : Mem T) (p c q : Nat) (b : Nat)
    (hp : b ≠ p) (hc : b ≠ c) (hq : b ≠ q) :
    (unlinkMem m p c q).read b = m.read b := by
  simp [unlinkMem, read_free, read_updPrev, read_updNext, hp, hc, hq]

theorem read_unlinkMem_self {T : Type} (m : Mem T) (p c q : Nat) :
    (unlinkMem m p c q).read c = none := by
  simp [unlinkMem, read_free]

/-- Linking a fresh node in front of the first node of a ring gives the ring
with that node prepended. -/
theorem Cyc_link {T : Type} {m : Mem T} {ns : List (Nat × T)} (h : Cyc m ns)
    (hne : ns ≠ []) (v : T) :
    Cyc (linkMem m (lastAddr ns 0) (firstAddr ns 0) v) ((m.length, v) :: ns) := by
  obtain ⟨hnd, hs⟩ := h
  have hlive := seg_live hs
  have hfresh : m.length ∉ ns.map Prod.fst := fun hm => Nat.lt_irrefl _ (hlive _ hm)
  have hp : lastAddr ns 0 ≠ m.length :=
    fun e => hfresh (e ▸ lastAddr_mem ns 0 hne)
  have hc : firstAddr ns 0 ≠ m.length :=
    fun e => hfresh (e ▸ firstAddr_mem ns 0 hne)
  have h0 : seg (newMem m v (some (lastAddr ns 0)) (some (firstAddr ns 0)))
      (lastAddr ns 0) ns (firstAddr ns 0) := by
    refine seg_frame hs ?_
    intro a ha
    have : a ≠ m.length := fun e => hfresh (e ▸ ha)
    simp [read_newMem, this]
  have h1 := seg_set_next_last h0 hnd hne 0 m.length
  have h2 := seg_set_prev_first h1 hnd hne 0 m.length
  refine ⟨?_, ?_⟩
  · rw [List.map_cons, List.nodup_cons]
    exact ⟨hfresh, hnd⟩
  · refine ⟨?_, h2⟩
    have e1 : lastAddr ((m.length, v) :: ns) 0 = lastAddr ns 0 := by
      rw [lastAddr_cons]
      exact lastAddr_indep ns _ _ hne
    have e2 : firstAddr ns (firstAddr ((m.length, v) :: ns) 0) = firstAddr ns 0 :=
      firstAddr_indep ns _ _ hne
    rw [e1, e2]
    simp [linkMem, read_updPrev, read_updNext, read_newMem, Ne.symm hp, Ne.symm hc]

/-- Unlinking and deleting the first node of a ring of two or more nodes
gives the ring of the remaining nodes. -/
theorem Cyc_unlink {T : Type} {m : Mem T} {c : Nat × T} {ns : List (Nat × T)}
    (h : Cyc m (c :: ns)) (hne : ns ≠ []) :
    Cyc (unlinkMem m (lastAddr ns 0) c.1 (firstAddr ns 0)) ns := by
  obtain ⟨hnd, hs⟩ := h
  rw [List.map_cons, List.nodup_cons] at hnd
  obtain ⟨hc, hnd⟩ := hnd
  obtain ⟨_, hs⟩ := hs
  have h1 := seg_set_next_last hs hnd hne 0 (firstAddr ns 0)
  have h2 := seg_set_prev_first h1 hnd hne 0 (lastAddr ns 0)
  refine ⟨hnd, seg_frame h2 ?_⟩
  intro a ha
  have : a ≠ c.1 := fun e => hc (e ▸ ha)
  simp [unlinkMem, read_free, this]

/-! ## Machine integers within capacity -/

theorem castInt_eq {n : Nat} (h : n ≤ MAX_SIZE) : castInt n = (n : Int) := by
  unfold castInt
  unfold MAX_SIZE at h
  have h1 : n % 4294967296 = n := Nat.mod_eq_of_lt (by omega)
  rw [h1, if_pos (by omega)]

theorem incSize_eq {n : Nat} (h : n ≤ MAX_SIZE) : incSize n = n + 1 := by
  unfold incSize SIZE_MOD
  unfold MAX_SIZE at h
  omega

theorem decSize_eq {n : Nat} (h : n ≤ MAX_SIZE) (h0 : 0 < n) : decSize n = n - 1 := by
  unfold decSize SIZE_MOD
  unfold MAX_SIZE at h
  omega

/-! ## Reading a ring -/

theorem Ring_read {T : Type} {m : Mem T} {l : TList} {ns : List (Nat × T)}
    (h : Ring m l ns) (k : Nat) (hk : k < ns.length) :
    walkNext m k l.head = some (some ns[k].1) ∧
      ∃ pp qq, m.read ns[k].1 = some ⟨ns[k].2, pp, qq⟩ := by
  obtain ⟨_, _, hh, _, hs⟩ := h
  have hne : ns ≠ [] := by
    intro e; subst e; simp at hk
  constructor
  · have hw := walkNext_seg hs k (Nat.le_of_lt hk)
    rw [firstAddr_drop ns _ k hk] at hw
    rw [← hw, hh]
    cases ns with
    | nil => exact absurd rfl hne
    | cons n ns => rfl
  · obtain ⟨pp, qq, hr, _⟩ := seg_get hs k hk
    exact ⟨pp, some qq, hr⟩

theorem indexConst_Ring {T : Type} {m : Mem T} {l : TList} {ns : List (Nat × T)}
    (h : Ring m l ns) (k : Nat) (hk : k < ns.length) :
    indexConst m l (k : Int) = Res.ok (ConstRef.temporary ns[k].2) m l := by
  obtain ⟨hw, pp, qq, hr⟩ := Ring_read h k hk
  have hc : castInt l.size = (ns.length : Int) := by
    rw [h.1]; exact castInt_eq h.2.1
  have hcond : ¬ ((k : Int) < 0 ∨ (k : Int) ≥ castInt l.size) := by
    rw [hc]; omega
  simp [indexConst, hcond, hw, GetValue, hr, Res.ofOption]

theorem indexRef_Ring {T : Type} {m : Mem T} {l : TList} {ns : List (Nat × T)}
    (h : Ring m l ns) (k : Nat) (hk : k < ns.length) :
    indexRef m l (k : Int) = Res.ok ns[k].1 m l := by
  obtain ⟨hw, pp, qq, hr⟩ := Ring_read h k hk
  have hc : castInt l.size = (ns.length : Int) := by
    rw [h.1]; exact castInt_eq h.2.1
  have hcond : ¬ ((k : Int) < 0 ∨ (k : Int) ≥ castInt l.size) := by
    rw [hc]; omega
  simp [indexRef, hcond, hw, GetValueRef, hr, Res.ofOption]

theorem readAt_Ring {T : Type} {m : Mem T} {l : TList} {ns : List (Nat × T)}
    (h : Ring m l ns) (k : Nat) (hk : k < ns.length) :
    readAt m l (k : Int) = Res.ok ns[k].2 m l := by
  obtain ⟨_, pp, qq, hr⟩ := Ring_read h k hk
  simp [readAt, indexRef_Ring h k hk, GetValue, hr]

theorem index_out_of_range {T : Type} {m : Mem T} {l : TList} {ns : List (Nat × T)}
    (h : Ring m l ns) (i : Int) (hi : i < 0 ∨ i ≥ (ns.length : Int)) :
    readAt m l i = Res.throw Exc.out_of_range m l ∧
      indexRef m l i = Res.throw Exc.out_of_range m l ∧
      indexConst m l i = Res.throw Exc.out_of_range m l := by
  have hc : castInt l.size = (ns.length : Int) := by
    rw [h.1]; exact castInt_eq h.2.1
  have hcond : i < 0 ∨ i ≥ castInt l.size := by
    rw [hc]; exact hi
  simp [readAt, indexConst, indexRef, hcond]

/-! ## Symbolic execution of the setters -/

theorem mem_ext {T : Type} {m m' : Mem T} (hl : m.length = m'.length)
    (hr : ∀ b, m.read b = m'.read b) : m = m' := by
  apply List.ext_getElem hl
  intro b h1 h2
  have := hr b
  simpa [Mem.read, List.getElem?_eq_getElem h1, List.getElem?_eq_getElem h2] using this

theorem isSome_read_updNext {T : Type} (m : Mem T) (a b : Nat) (q : Ptr) :
    ((updNext m a q).read b).isSome = (m.read b).isSome := by
  rw [read_updNext]
  by_cases hb : b = a
  · subst hb; cases m.read b <;> simp
  · simp [hb]

theorem isSome_read_updPrev {T : Type} (m : Mem T) (a b : Nat) (q : Ptr) :
    ((updPrev m a q).read b).isSome = (m.read b).isSome := by
  rw [read_updPrev]
  by_cases hb : b = a
  · subst hb; cases m.read b <;> simp
  · simp [hb]

theorem isSome_read_newMem {T : Type} (m : Mem T) (v : T) (p n : Ptr) (b : Nat)
    (h : (m.read b).isSome) : ((newMem m v p n).read b).isSome := by
  rw [read_newMem]
  split
  · rfl
  · exact h

theorem SetNext_live {T : Type} (m : Mem T) (a : Nat) (q : Ptr)
    (h : (m.read a).isSome) : SetNext m (some a) q = some (updNext m a q) := by
  obtain ⟨nd, hnd⟩ := Option.isSome_iff_exists.mp h
  exact SetNext_eq m a q nd hnd

theorem SetPrev_live {T : Type} (m : Mem T) (a : Nat) (q : Ptr)
    (h : (m.read a).isSome) : SetPrev m (some a) q = some (updPrev m a q) := by
  obtain ⟨nd, hnd⟩ := Option.isSome_iff_exists.mp h
  exact SetPrev_eq m a q nd hnd

theorem delete_live {T : Type} (m : Mem T) (a : Nat)
    (h : (m.read a).isSome) : delete m (some a) = some (m.set a none) := by
  obtain ⟨nd, hnd⟩ := Option.isSome_iff_exists.mp h
  exact delete_eq m a nd hnd

theorem seg_isSome {T : Type} {m : Mem T} {p q : Nat} {ns : List (Nat × T)}
    (h : seg m p ns q) : ∀ a ∈ ns.map Prod.fst, (m.read a).isSome := by
  induction ns generalizing p with
  | nil => intro a ha; simp at ha
  | cons n ns ih =>
    obtain ⟨h1, h2⟩ := h
    intro a ha
    simp only [List.map_cons, List.mem_cons] at ha
    rcases ha with rfl | ha
    · simp [h1]
    · exact ih h2 a ha

/-- Allocating a node with null links and setting its links afterwards, as
`AddStart` does, is allocating it with the links in place. -/
theorem newMem_then_set {T : Type} (m : Mem T) (v : T) (p c : Ptr) :
    updPrev (updNext (newMem m v none none) m.length c) m.length p = newMem m v p c := by
  apply mem_ext
  · simp [length_updPrev, length_updNext, length_newMem]
  · intro b
    by_cases hb : b = m.length
    · subst hb
      simp [read_updPrev, read_updNext, read_newMem]
    · simp [read_updPrev, read_updNext, read_newMem, hb]

/-! ## Insertion at the two ends -/

theorem Ring_nil_iff {T : Type} (m : Mem T) (l : TList) :
    Ring m l ([] : List (Nat × T)) ↔ l = ⟨none, 0⟩ := by
  cases l with
  | mk hd sz =>
    simp [Ring, Cyc, seg, MAX_SIZE]
    exact And.comm

theorem Ring_cons_facts {T : Type} {m : Mem T} {l : TList} {c : Nat × T}
    {ns : List (Nat × T)} (h : Ring m l (c :: ns)) :
    l.size = ns.length + 1 ∧ l.head = some c.1 ∧
      m.read c.1 = some ⟨c.2, some (lastAddr (c :: ns) 0), some (firstAddr ns c.1)⟩ ∧
      (m.read (lastAddr (c :: ns) 0)).isSome := by
  obtain ⟨h1, _, h3, _, hs⟩ := h
  refine ⟨by simpa using h1, by simpa using h3, hs.1, ?_⟩
  exact seg_isSome hs _ (lastAddr_mem _ _ (by simp))

theorem AddStart_Ring {T : Type} {m : Mem T} {l : TList} {ns : List (Nat × T)}
    (h : Ring m l ns) (hlt : ns.length < MAX_SIZE) (v : T) :
    ∃ m1, AddStart m l v = Res.ok () m1 ⟨some m.length, l.size + 1⟩ ∧
      Ring m1 ⟨some m.length, l.size + 1⟩ ((m.length, v) :: ns) ∧ FrameOf m m1 ns := by
  have hfull : IsFull l = false := by
    simp [IsFull, h.1]; exact hlt
  have hinc : incSize l.size = l.size + 1 := incSize_eq (by rw [h.1]; exact h.2.1)
  cases ns with
  | nil =>
    have hl := (Ring_nil_iff m l).mp h
    subst hl
    refine ⟨newMem m v (some m.length) (some m.length), ?_, ?_, ?_⟩
    · have e := newMem_then_set m v (some m.length) (some m.length)
      simp [AddStart, hfull, IsEmpty, newPtr, SetNext_live, SetPrev_live, read_newMem,
        isSome_read_updNext, Res.ofOption, e, incSize, SIZE_MOD]
    · refine ⟨rfl, by simp [MAX_SIZE], rfl, by simp, ?_, trivial⟩
      simp [read_newMem, lastAddr, firstAddr]
    · exact ⟨by simp [length_newMem], fun b hb _ => by simp [read_newMem, Nat.ne_of_lt hb]⟩
  | cons c ns =>
    obtain ⟨hsz, hhd, hrc, hlast⟩ := Ring_cons_facts h
    have hcl : c.1 < m.length := lt_of_read_eq_some hrc
    have hll : lastAddr (c :: ns) 0 < m.length :=
      seg_live h.2.2.2.2 _ (lastAddr_mem _ _ (by simp))
    have hempty : IsEmpty l = false := by simp [IsEmpty, hsz]
    refine ⟨linkMem m (lastAddr (c :: ns) 0) c.1 v, ?_, ?_, ?_⟩
    · have e := newMem_then_set m v (some (lastAddr (c :: ns) 0)) (some c.1)
      have hr0 : (newMem m v none none).read c.1 = m.read c.1 := by
        simp [read_newMem, Nat.ne_of_lt hcl]
      have s1 : SetNext (newMem m v none none) (some m.length) (some c.1) =
          some (updNext (newMem m v none none) m.length (some c.1)) :=
        SetNext_live _ _ _ (by simp [read_newMem])
      have s2 : SetPrev (updNext (newMem m v none none) m.length (some c.1)) (some m.length)
          (some (lastAddr (c :: ns) 0)) =
          some (newMem m v (some (lastAddr (c :: ns) 0)) (some c.1)) := by
        rw [SetPrev_live _ _ _ (by simp [isSome_read_updNext, read_newMem]), e]
      have s3 := SetNext_live (newMem m v (some (lastAddr (c :: ns) 0)) (some c.1))
        (lastAddr (c :: ns) 0) (some m.length) (isSome_read_newMem _ _ _ _ _ hlast)
      have s4 := SetPrev_live (updNext (newMem m v (some (lastAddr (c :: ns) 0)) (some c.1))
        (lastAddr (c :: ns) 0) (some m.length)) c.1 (some m.length) (by
          rw [isSome_read_updNext]
          exact isSome_read_newMem _ _ _ _ _ (by simp [hrc]))
      simp [AddStart, hfull, hempty, newPtr, hhd, GetPrev, hr0, hrc, s1, s2, s3, s4,
        Res.ofOption, hinc, linkMem]
    · refine ⟨by simp [hsz], hlt, rfl, ?_⟩
      exact Cyc_link h.2.2.2 (by simp) v
    · refine ⟨by simp [length_linkMem], fun b hb hn => ?_⟩
      apply read_linkMem_other
      · exact fun e => hn (e ▸ lastAddr_mem _ _ (by simp))
      · exact fun e => hn (e ▸ by simp)
      · exact Nat.ne_of_lt hb

theorem AddEnd_Ring {T : Type} {m : Mem T} {l : TList} {ns : List (Nat × T)}
    (h : Ring m l ns) (hlt : ns.length < MAX_SIZE) (v : T) :
    ∃ m1 l1, AddEnd m l v = Res.ok () m1 l1 ∧ l1.size = l.size + 1 ∧
      Ring m1 l1 (ns ++ [(m.length, v)]) ∧ FrameOf m m1 ns := by
  have hfull : IsFull l = false := by
    simp [IsFull, h.1]; exact hlt
  have hinc : incSize l.size = l.size + 1 := incSize_eq (by rw [h.1]; exact h.2.1)
  cases ns with
  | nil =>
    obtain ⟨m1, h1, h2, h3⟩ := AddStart_Ring h hlt v
    have hempty : IsEmpty l = true := by simp [IsEmpty, h.1]
    exact ⟨m1, _, by simp [AddEnd, hfull, hempty, h1], rfl, h2, h3⟩
  | cons c ns =>
    obtain ⟨hsz, hhd, hrc, hlast⟩ := Ring_cons_facts h
    have hempty : IsEmpty l = false := by simp [IsEmpty, hsz]
    refine ⟨linkMem m (lastAddr (c :: ns) 0) c.1 v, ⟨l.head, l.size + 1⟩, ?_, rfl, ?_, ?_⟩
    · have s3 := SetNext_live (newMem m v (some (lastAddr (c :: ns) 0)) (some c.1))
        (lastAddr (c :: ns) 0) (some m.length) (isSome_read_newMem _ _ _ _ _ hlast)
      have s4 := SetPrev_live (updNext (newMem m v (some (lastAddr (c :: ns) 0)) (some c.1))
        (lastAddr (c :: ns) 0) (some m.length)) c.1 (some m.length) (by
          rw [isSome_read_updNext]
          exact isSome_read_newMem _ _ _ _ _ (by simp [hrc]))
      simp [AddEnd, hfull, hempty, newPtr, hhd, GetPrev, hrc, s3, s4, Res.ofOption, hinc,
        linkMem]
    · refine ⟨by simp [hsz], by simpa using hlt, by simp [hhd], ?_⟩
      have := Cyc_link h.2.2.2 (by simp) v
      exact Cyc_rotate _ [(m.length, v)] (c :: ns) this
    · refine ⟨by simp [length_linkMem], fun b hb hn => ?_⟩
      apply read_linkMem_other
      · exact fun e => hn (e ▸ lastAddr_mem _ _ (by simp))
      · exact fun e => hn (e ▸ by simp)
      · exact Nat.ne_of_lt hb

/-! ## The two pointer surgeries, executed -/

theorem head?_eq_firstAddr {T : Type} (ns : List (Nat × T)) (d : Nat) (h : ns ≠ []) :
    (ns.head?).map Prod.fst = some (firstAddr ns d) := by
  cases ns with
  | nil => exact absurd rfl h
  | cons n ns => rfl

/-- What the cells at the two ends of a ring hold. -/
theorem Cyc_ends {T : Type} {m : Mem T} {ns : List (Nat × T)} (h : Cyc m ns)
    (hne : ns ≠ []) :
    GetPrev m (some (firstAddr ns 0)) = some (some (lastAddr ns 0)) ∧
      GetNext m (some (lastAddr ns 0)) = some (some (firstAddr ns 0)) ∧
      (m.read (firstAddr ns 0)).isSome ∧ (m.read (lastAddr ns 0)).isSome := by
  obtain ⟨_, hs⟩ := h
  refine ⟨?_, ?_, seg_isSome hs _ (firstAddr_mem ns 0 hne),
    seg_isSome hs _ (lastAddr_mem ns 0 hne)⟩
  · cases ns with
    | nil => exact absurd rfl hne
    | cons n ns => simp [GetPrev, firstAddr_cons, hs.1]
  · rcases List.eq_nil_or_concat ns with h0 | ⟨xs, n, hx⟩
    · exact absurd h0 hne
    · rw [List.concat_eq_append] at hx
      subst hx
      rw [seg_append] at hs
      have := hs.2.1
      simp [GetNext, lastAddr_concat, this, firstAddr_nil]

/-- The three statements that link a new node in front of the first node of a
ring run without fault and produce `linkMem`. -/
theorem link_exec {T : Type} {m : Mem T} {ns : List (Nat × T)} (h : Cyc m ns)
    (hne : ns ≠ []) (v : T) :
    SetNext (newMem m v (some (lastAddr ns 0)) (some (firstAddr ns 0)))
        (some (lastAddr ns 0)) (some m.length) =
      some (updNext (newMem m v (some (lastAddr ns 0)) (some (firstAddr ns 0)))
        (lastAddr ns 0) (some m.length)) ∧
    SetPrev (updNext (newMem m v (some (lastAddr ns 0)) (some (firstAddr ns 0)))
        (lastAddr ns 0) (some m.length)) (some (firstAddr ns 0)) (some m.length) =
      some (linkMem m (lastAddr ns 0) (firstAddr ns 0) v) := by
  obtain ⟨_, _, hf, hl⟩ := Cyc_ends h hne
  constructor
  · exact SetNext_live _ _ _ (isSome_read_newMem _ _ _ _ _ hl)
  · refine SetPrev_live _ _ _ ?_
    rw [isSome_read_updNext]
    exact isSome_read_newMem _ _ _ _ _ hf

/-- The three statements that unlink and delete the first node of a ring of
two or more nodes run without fault and produce `unlinkMem`. -/
theorem unlink_exec {T : Type} {m : Mem T} {c : Nat × T} {ns : List (Nat × T)}
    (h : Cyc m (c :: ns)) (hne : ns ≠ []) :
    m.read c.1 = some ⟨c.2, some (lastAddr ns 0), some (firstAddr ns 0)⟩ ∧
    SetNext m (some (lastAddr ns 0)) (some (firstAddr ns 0)) =
      some (updNext m (lastAddr ns 0) (some (firstAddr ns 0))) ∧
    SetPrev (updNext m (lastAddr ns 0) (some (firstAddr ns 0))) (some (firstAddr ns 0))
        (some (lastAddr ns 0)) =
      some (updPrev (updNext m (lastAddr ns 0) (some (firstAddr ns 0))) (firstAddr ns 0)
        (some (lastAddr ns 0))) ∧
    delete (updPrev (updNext m (lastAddr ns 0) (some (firstAddr ns 0))) (firstAddr ns 0)
        (some (lastAddr ns 0))) (some c.1) =
      some (unlinkMem m (lastAddr ns 0) c.1 (firstAddr ns 0)) := by
  obtain ⟨_, hs⟩ := h
  have hc := hs.1
  have hsome := seg_isSome hs.2
  have e1 : lastAddr (c :: ns) 0 = lastAddr ns 0 := by
    rw [lastAddr_cons]; exact lastAddr_indep ns _ _ hne
  have e2 : firstAddr ns (firstAddr (c :: ns) 0) = firstAddr ns 0 :=
    firstAddr_indep ns _ _ hne
  rw [e1, e2] at hc
  refine ⟨hc, ?_, ?_, ?_⟩
  · exact SetNext_live _ _ _ (hsome _ (lastAddr_mem ns 0 hne))
  · refine SetPrev_live _ _ _ ?_
    rw [isSome_read_updNext]
    exact hsome _ (firstAddr_mem ns 0 hne)
  · refine delete_live _ _ ?_
    rw [isSome_read_updPrev, isSome_read_updNext]
    simp [hc]

theorem FrameOf_link {T : Type} (m : Mem T) (ns : List (Nat × T)) (p c : Nat) (v : T)
    (hp : p ∈ ns.map Prod.fst) (hc : c ∈ ns.map Prod.fst) :
    FrameOf m (linkMem m p c v) ns := by
  refine ⟨by simp [length_linkMem], fun b hb hn => ?_⟩
  apply read_linkMem_other
  · exact fun e => hn (e ▸ hp)
  · exact fun e => hn (e ▸ hc)
  · exact Nat.ne_of_lt hb

theorem FrameOf_unlink {T : Type} (m : Mem T) (ns : List (Nat × T)) (p c q : Nat)
    (hp : p ∈ ns.map Prod.fst) (hc : c ∈ ns.map Prod.fst) (hq : q ∈ ns.map Prod.fst) :
    FrameOf m (unlinkMem m p c q) ns := by
  refine ⟨by simp [length_unlinkMem], fun b _ hn => ?_⟩
  apply read_unlinkMem_other
  · exact fun e => hn (e ▸ hp)
  · exact fun e => hn (e ▸ hc)
  · exact fun e => hn (e ▸ hq)

/-! ## Removal at the two ends -/

theorem RemoveStart_Ring {T : Type} {m : Mem T} {l : TList} {c : Nat × T}
    {ns : List (Nat × T)} (h : Ring m l (c :: ns)) :
    ∃ m1 l1, RemoveStart m l = Res.ok c.2 m1 l1 ∧ l1.size + 1 = l.size ∧
      Ring m1 l1 ns ∧ FrameOf m m1 (c :: ns) ∧ m1.read c.1 = none := by
  obtain ⟨hsz, hhd, hrc, _⟩ := Ring_cons_facts h
  have hcap : l.size ≤ MAX_SIZE := by rw [h.1]; exact h.2.1
  have hempty : IsEmpty l = false := by simp [IsEmpty, hsz]
  have hdec : decSize l.size = ns.length := by
    rw [decSize_eq hcap (by omega), hsz]; rfl
  have hcapns : ns.length ≤ MAX_SIZE := by
    have := h.2.1
    simp at this
    omega
  by_cases hne : ns = []
  · subst hne
    have hs1 : l.size = 1 := by simpa using hsz
    refine ⟨m.set c.1 none, ⟨none, 0⟩, ?_, by simp [hs1], (Ring_nil_iff _ _).mpr rfl, ?_, ?_⟩
    · have hd := delete_live m c.1 (by simp [hrc])
      simp [RemoveStart, hempty, hhd, GetValue, hrc, hs1, hd, Res.ofOption, decSize,
        SIZE_MOD]
    · exact ⟨by simp, fun b _ hn => by
        have : b ≠ c.1 := fun e => hn (e ▸ by simp)
        simp [read_free, this]⟩
    · simp [read_free]
  · obtain ⟨hc, s1, s2, s3⟩ := unlink_exec h.2.2.2 hne
    have hs1 : ¬ l.size = 1 := by
      have : ns.length ≠ 0 := fun e => hne (List.length_eq_zero.mp e)
      omega
    refine ⟨unlinkMem m (lastAddr ns 0) c.1 (firstAddr ns 0),
      ⟨some (firstAddr ns 0), ns.length⟩, ?_, by simp [hsz], ?_, ?_, ?_⟩
    · simp [RemoveStart, hempty, hhd, GetValue, GetNext, GetPrev, hc, hs1, s1, s2, s3,
        Res.ofOption, hdec]
    · exact ⟨rfl, hcapns, (head?_eq_firstAddr ns 0 hne).symm,
        Cyc_unlink h.2.2.2 hne⟩
    · apply FrameOf_unlink
      · simp only [List.map_cons, List.mem_cons]
        exact Or.inr (lastAddr_mem ns 0 hne)
      · simp
      · simp only [List.map_cons, List.mem_cons]
        exact Or.inr (firstAddr_mem ns 0 hne)
    · exact read_unlinkMem_self _ _ _ _

theorem RemoveEnd_Ring {T : Type} {m : Mem T} {l : TList} {c : Nat × T}
    {ns : List (Nat × T)} (h : Ring m l (ns ++ [c])) :
    ∃ m1 l1, RemoveEnd m l = Res.ok c.2 m1 l1 ∧ l1.size + 1 = l.size ∧
      Ring m1 l1 ns ∧ FrameOf m m1 (ns ++ [c]) ∧ m1.read c.1 = none := by
  by_cases hne : ns = []
  · subst hne
    obtain ⟨m1, l1, h1, h2, h3, h4, h5⟩ := @RemoveStart_Ring T m l c [] h
    have hs1 : l.size = 1 := by simpa using h.1
    have hempty : IsEmpty l = false := by simp [IsEmpty, hs1]
    exact ⟨m1, l1, by simp [RemoveEnd, hempty, hs1, h1], h2, h3, h4, h5⟩
  · have hsz : l.size = ns.length + 1 := by simpa using h.1
    have hcap : l.size ≤ MAX_SIZE := by rw [h.1]; exact h.2.1
    have hempty : IsEmpty l = false := by simp [IsEmpty, hsz]
    have hdec : decSize l.size = ns.length := by
      rw [decSize_eq hcap (by omega), hsz]; rfl
    have hcapns : ns.length ≤ MAX_SIZE := by omega
    have hs1 : ¬ l.size = 1 := by
      have : ns.length ≠ 0 := fun e => hne (List.length_eq_zero.mp e)
      omega
    have hhd : l.head = some (firstAddr ns 0) := by
      rw [h.2.2.1, head?_eq_firstAddr (ns ++ [c]) 0 (by simp), firstAddr_append,
        firstAddr_indep ns _ 0 hne]
    have hrot : Cyc m (c :: ns) := Cyc_rotate m ns [c] h.2.2.2
    obtain ⟨hc, s1, s2, s3⟩ := unlink_exec hrot hne
    obtain ⟨hp, _, _, _⟩ := Cyc_ends h.2.2.2 (by simp)
    have hfa : firstAddr (ns ++ [c]) 0 = firstAddr ns 0 := by
      rw [firstAddr_append]; exact firstAddr_indep ns _ _ hne
    rw [hfa, lastAddr_concat] at hp
    refine ⟨unlinkMem m (lastAddr ns 0) c.1 (firstAddr ns 0),
      ⟨some (firstAddr ns 0), ns.length⟩, ?_, by simp [hsz], ?_, ?_, ?_⟩
    · have hp2 : GetPrev m (some c.1) = some (some (lastAddr ns 0)) := by
        simp [GetPrev, hc]
      have hv : GetValue m (some c.1) = some c.2 := by
        simp [GetValue, hc]
      simp [RemoveEnd, hempty, hhd, hp, hp2, hv, hs1, s1, s2, s3, Res.ofOption, hdec]
    · exact ⟨rfl, hcapns, (head?_eq_firstAddr ns 0 hne).symm, Cyc_unlink hrot hne⟩
    · apply FrameOf_unlink
      · simp only [List.map_append, List.mem_append]
        exact Or.inl (lastAddr_mem ns 0 hne)
      · simp
      · simp only [List.map_append, List.mem_append]
        exact Or.inl (firstAddr_mem ns 0 hne)
    · exact read_unlinkMem_self _ _ _ _

/-! ## Surgery in the middle of a ring -/

theorem Cyc_link_at {T : Type} {m : Mem T} {xs ys : List (Nat × T)}
    (h : Cyc m (xs ++ ys)) (hne : ys ++ xs ≠ []) (v : T) :
    Cyc (linkMem m (lastAddr (ys ++ xs) 0) (firstAddr (ys ++ xs) 0) v)
      (xs ++ (m.length, v) :: ys) := by
  have h1 := Cyc_link (Cyc_rotate m xs ys h) hne v
  exact Cyc_rotate _ ((m.length, v) :: ys) xs h1

theorem Cyc_unlink_at {T : Type} {m : Mem T} {xs ys : List (Nat × T)} {c : Nat × T}
    (h : Cyc m (xs ++ c :: ys)) (hne : ys ++ xs ≠ []) :
    Cyc (unlinkMem m (lastAddr (ys ++ xs) 0) c.1 (firstAddr (ys ++ xs) 0)) (xs ++ ys) := by
  have h1 : Cyc m (c :: (ys ++ xs)) := Cyc_rotate m xs (c :: ys) h
  exact Cyc_rotate _ ys xs (Cyc_unlink h1 hne)

theorem lastAddr_take_succ {T : Type} (ns : List (Nat × T)) (d : Nat) (k : Nat)
    (hk : k < ns.length) : lastAddr (ns.take (k + 1)) d = ns[k].1 := by
  induction ns generalizing k d with
  | nil => simp at hk
  | cons n ns ih =>
    cases k with
    | zero => simp [lastAddr]
    | succ k =>
      simp only [List.take_succ_cons, lastAddr_cons, List.getElem_cons_succ]
      exact ih n.1 k (by simpa using hk)

theorem GetPrev_newMem {T : Type} (m : Mem T) (v : T) (p n : Ptr) (a : Nat)
    (h : (m.read a).isSome) :
    GetPrev (newMem m v p n) (some a) = GetPrev m (some a) := by
  have hlt : a < m.length := by
    obtain ⟨nd, hnd⟩ := Option.isSome_iff_exists.mp h
    exact lt_of_read_eq_some hnd
  simp [GetPrev, read_newMem, Nat.ne_of_lt hlt]

theorem head?_append_of_ne_nil {T : Type} (xs ys zs : List (Nat × T)) (h : xs ≠ []) :
    (xs ++ ys).head? = (xs ++ zs).head? := by
  cases xs with
  | nil => exact absurd rfl h
  | cons x xs => rfl

theorem mem_fst_of_mem_sublist {T : Type} {xs ns : List (Nat × T)} {a : Nat}
    (hs : ∀ n ∈ xs, n ∈ ns) (ha : a ∈ xs.map Prod.fst) : a ∈ ns.map Prod.fst := by
  obtain ⟨n, hn, rfl⟩ := List.mem_map.mp ha
  exact List.mem_map.mpr ⟨n, hs n hn, rfl⟩

theorem take_ne_nil {T : Type} (ns : List (Nat × T)) (k : Nat) (hk : 0 < k)
    (hn : 0 < ns.length) : ns.take k ≠ [] := by
  intro e
  have := congrArg List.length e
  rw [List.length_take, List.length_nil] at this
  omega

theorem drop_ne_nil {T : Type} (ns : List (Nat × T)) (k : Nat) (hk : k < ns.length) :
    ns.drop k ≠ [] := by
  intro e
  have := congrArg List.length e
  rw [List.length_drop, List.length_nil] at this
  omega

/-- `Add` on a well-formed list, for every index in `[0, size]`. -/
theorem Add_Ring {T : Type} {m : Mem T} {l : TList} {ns : List (Nat × T)}
    (h : Ring m l ns) (hlt : ns.length < MAX_SIZE) (v : T) (k : Nat)
    (hk : k ≤ ns.length) :
    ∃ m1 l1, Add m l v (k : Int) = Res.ok () m1 l1 ∧ l1.size = l.size + 1 ∧
      Ring m1 l1 (ns.take k ++ (m.length, v) :: ns.drop k) ∧ FrameOf m m1 ns := by
  have hcap : l.size ≤ MAX_SIZE := by rw [h.1]; exact h.2.1
  have hc : castInt l.size = (ns.length : Int) := by
    rw [h.1]; exact castInt_eq h.2.1
  have hfull : IsFull l = false := by
    simp [IsFull, h.1]; exact hlt
  have hinc : incSize l.size = l.size + 1 := incSize_eq hcap
  have hcond : ¬ ((k : Int) < 0 ∨ (k : Int) > castInt l.size) := by
    rw [hc]; omega
  by_cases hk0 : k = 0
  · subst hk0
    obtain ⟨m1, h1, h2, h3⟩ := AddStart_Ring h hlt v
    refine ⟨m1, _, ?_, rfl, by simpa using h2, h3⟩
    unfold Add
    rw [if_neg hcond]
    simp only [hfull, Bool.false_eq_true, if_false]
    rw [if_pos (by rfl), h1]
  by_cases hkn : k = ns.length
  · obtain ⟨m1, l1, h1, h2, h3, h4⟩ := AddEnd_Ring h hlt v
    refine ⟨m1, l1, ?_, h2, by rw [hkn]; simpa using h3, h4⟩
    have c1 : ¬ ((k : Int) = 0) := by omega
    have c2 : (k : Int) = castInt l.size := by rw [hc]; omega
    unfold Add
    rw [if_neg hcond]
    simp only [hfull, Bool.false_eq_true, if_false]
    rw [if_neg c1, if_pos c2, h1]
  · have hklt : k < ns.length := by omega
    have hsplit : ns.take k ++ ns.drop k = ns := List.take_append_drop k ns
    have htake : ns.take k ≠ [] := take_ne_nil ns k (by omega) (by omega)
    have hrot : ns.drop k ++ ns.take k ≠ [] := by simp [htake]
    have hcyc : Cyc m (ns.take k ++ ns.drop k) := by rw [hsplit]; exact h.2.2.2
    have hcycr : Cyc m (ns.drop k ++ ns.take k) := Cyc_rotate m _ _ hcyc
    have hdrop : ns.drop k ≠ [] := drop_ne_nil ns k hklt
    have hfa : firstAddr (ns.drop k ++ ns.take k) 0 = ns[k].1 := by
      rw [firstAddr_append, firstAddr_indep _ _ 0 hdrop, firstAddr_drop ns 0 k hklt]
    obtain ⟨hw, _⟩ := Ring_read h k hklt
    obtain ⟨hp, _, hf, _⟩ := Cyc_ends hcycr hrot
    obtain ⟨s1, s2⟩ := link_exec hcycr hrot v
    rw [hfa] at hp hf s1 s2
    have hp0 := GetPrev_newMem m v (some (lastAddr (ns.drop k ++ ns.take k) 0))
      (some ns[k].1) ns[k].1 hf
    rw [hp] at hp0
    refine ⟨linkMem m (lastAddr (ns.drop k ++ ns.take k) 0) ns[k].1 v,
      ⟨l.head, l.size + 1⟩, ?_, rfl, ?_, ?_⟩
    · have c1 : ¬ ((k : Int) = 0) := by omega
      have c2 : ¬ ((k : Int) = castInt l.size) := by rw [hc]; omega
      unfold Add
      rw [if_neg hcond]
      simp only [hfull, Bool.false_eq_true, if_false]
      rw [if_neg c1, if_neg c2]
      simp [hw, hp, hp0, newPtr, s1, s2, Res.ofOption, hinc]
    · refine ⟨by simp [h.1]; omega, by simp; omega, ?_, ?_⟩
      · show l.head = _
        rw [h.2.2.1]
        conv_lhs => rw [← hsplit]
        exact congrArg _ (head?_append_of_ne_nil _ _ _ htake)
      · have := Cyc_link_at hcyc hrot v
        rw [hfa] at this
        exact this
    · have hmem : ∀ a ∈ (ns.drop k ++ ns.take k).map Prod.fst, a ∈ ns.map Prod.fst := by
        intro a ha
        refine mem_fst_of_mem_sublist ?_ ha
        intro n hn
        rcases List.mem_append.mp hn with hn | hn
        · exact List.mem_of_mem_drop hn
        · exact List.mem_of_mem_take hn
      apply FrameOf_link
      · exact hmem _ (lastAddr_mem _ 0 hrot)
      · exact List.mem_map.mpr ⟨ns[k], List.getElem_mem _, rfl⟩

/-- `Remove` on a well-formed list, for every index in `[0, size)`. -/
theorem Remove_Ring {T : Type} {m : Mem T} {l : TList} {ns : List (Nat × T)}
    (h : Ring m l ns) (k : Nat) (hk : k < ns.length) :
    ∃ m1 l1, Remove m l (k : Int) = Res.ok ns[k].2 m1 l1 ∧ l1.size + 1 = l.size ∧
      Ring m1 l1 (ns.take k ++ ns.drop (k + 1)) ∧ FrameOf m m1 ns ∧
      m1.read ns[k].1 = none := by
  have hcap : l.size ≤ MAX_SIZE := by rw [h.1]; exact h.2.1
  have hc : castInt l.size = (ns.length : Int) := by
    rw [h.1]; exact castInt_eq h.2.1
  have hcond : ¬ ((k : Int) < 0 ∨ (k : Int) ≥ castInt l.size) := by
    rw [hc]; omega
  have hdropk : ns.drop k = ns[k] :: ns.drop (k + 1) := List.drop_eq_getElem_cons hk
  have hsplit : ns.take k ++ ns[k] :: ns.drop (k + 1) = ns := by
    rw [← hdropk]; exact List.take_append_drop k ns
  by_cases hk0 : k = 0
  · subst hk0
    have h0 : Ring m l (ns[0] :: ns.drop 1) := by
      have := hsplit
      simp only [List.take_zero, List.nil_append] at this
      rw [this]; exact h
    obtain ⟨m1, l1, h1, h2, h3, h4, h5⟩ := RemoveStart_Ring h0
    refine ⟨m1, l1, ?_, h2, by simpa using h3, ?_, h5⟩
    · unfold Remove
      rw [if_neg hcond, if_pos (by rfl), h1]
    · have := hsplit
      simp only [List.take_zero, List.nil_append] at this
      rw [this] at h4; exact h4
  by_cases hkn : k + 1 = ns.length
  · have hd : ns.drop (k + 1) = [] := by
      apply List.drop_eq_nil_of_le; omega
    rw [hd] at hsplit
    have h0 : Ring m l (ns.take k ++ [ns[k]]) := by rw [hsplit]; exact h
    obtain ⟨m1, l1, h1, h2, h3, h4, h5⟩ := RemoveEnd_Ring h0
    refine ⟨m1, l1, ?_, h2, by simpa [hd] using h3, ?_, h5⟩
    · have c1 : ¬ ((k : Int) = 0) := by omega
      have c2 : (k : Int) = castInt l.size - 1 := by rw [hc]; omega
      unfold Remove
      rw [if_neg hcond, if_neg c1, if_pos c2, h1]
    · rw [hsplit] at h4; exact h4
  · have htake : ns.take k ≠ [] := take_ne_nil ns k (by omega) (by omega)
    have hrot : ns.drop (k + 1) ++ ns.take k ≠ [] := by simp [htake]
    have hcyc : Cyc m (ns.take k ++ ns[k] :: ns.drop (k + 1)) := by
      rw [hsplit]; exact h.2.2.2
    have hcycr : Cyc m (ns[k] :: (ns.drop (k + 1) ++ ns.take k)) :=
      Cyc_rotate m _ (ns[k] :: ns.drop (k + 1)) hcyc
    obtain ⟨hw, _⟩ := Ring_read h k hk
    obtain ⟨hrc, s1, s2, s3⟩ := unlink_exec hcycr hrot
    have c1 : ¬ ((k : Int) = 0) := by omega
    have c2 : ¬ ((k : Int) = castInt l.size - 1) := by rw [hc]; omega
    have hdec : decSize l.size = l.size - 1 := decSize_eq hcap (by rw [h.1]; omega)
    refine ⟨unlinkMem m (lastAddr (ns.drop (k + 1) ++ ns.take k) 0) ns[k].1
        (firstAddr (ns.drop (k + 1) ++ ns.take k) 0), ⟨l.head, l.size - 1⟩, ?_, ?_, ?_, ?_, ?_⟩
    · unfold Remove
      rw [if_neg hcond, if_neg c1, if_neg c2]
      simp [hw, GetValue, GetPrev, GetNext, hrc, s1, s2, s3, Res.ofOption, hdec]
    · show l.size - 1 + 1 = l.size
      rw [h.1]; omega
    · refine ⟨by simp [h.1]; omega, by simp; have := h.2.1; omega, ?_,
        Cyc_unlink_at hcyc hrot⟩
      show l.head = _
      rw [h.2.2.1]
      conv_lhs => rw [← hsplit]
      exact congrArg _ (head?_append_of_ne_nil _ _ _ htake)
    · have hmem : ∀ a ∈ (ns.drop (k + 1) ++ ns.take k).map Prod.fst,
          a ∈ ns.map Prod.fst := by
        intro a ha
        refine mem_fst_of_mem_sublist ?_ ha
        intro n hn
        rcases List.mem_append.mp hn with hn | hn
        · exact List.mem_of_mem_drop hn
        · exact List.mem_of_mem_take hn
      apply FrameOf_unlink
      · exact hmem _ (lastAddr_mem _ 0 hrot)
      · exact List.mem_map.mpr ⟨ns[k], List.getElem_mem _, rfl⟩
      · exact hmem _ (firstAddr_mem _ 0 hrot)
    · exact read_unlinkMem_self _ _ _ _

/-- `insertAfter` with an iterator at the node of index `k`. -/
theorem insertAfter_Ring {T : Type} {m : Mem T} {l : TList} {ns : List (Nat × T)}
    (h : Ring m l ns) (hlt : ns.length < MAX_SIZE) (v : T) (k : Nat)
    (hk : k < ns.length) (it : Iterator) (hit : it.GetNode = some ns[k].1) :
    ∃ m1, insertAfter m l it v = Res.ok () m1 ⟨l.head, l.size + 1⟩ ∧
      Ring m1 ⟨l.head, l.size + 1⟩ (ns.take (k + 1) ++ (m.length, v) :: ns.drop (k + 1)) ∧
      FrameOf m m1 ns := by
  have hcap : l.size ≤ MAX_SIZE := by rw [h.1]; exact h.2.1
  have hfull : IsFull l = false := by
    simp [IsFull, h.1]; exact hlt
  have hinc : incSize l.size = l.size + 1 := incSize_eq hcap
  have hsplit : ns.take (k + 1) ++ ns.drop (k + 1) = ns := List.take_append_drop _ ns
  have htake : ns.take (k + 1) ≠ [] := take_ne_nil ns (k + 1) (by omega) (by omega)
  have hrot : ns.drop (k + 1) ++ ns.take (k + 1) ≠ [] := by simp [htake]
  have hcyc : Cyc m (ns.take (k + 1) ++ ns.drop (k + 1)) := by rw [hsplit]; exact h.2.2.2
  have hcycr : Cyc m (ns.drop (k + 1) ++ ns.take (k + 1)) := Cyc_rotate m _ _ hcyc
  have hla : lastAddr (ns.drop (k + 1) ++ ns.take (k + 1)) 0 = ns[k].1 := by
    rw [lastAddr_append, lastAddr_take_succ ns _ k hk]
  obtain ⟨_, hn, _, _⟩ := Cyc_ends hcycr hrot
  obtain ⟨s1, s2⟩ := link_exec hcycr hrot v
  rw [hla] at hn s1 s2
  refine ⟨linkMem m ns[k].1 (firstAddr (ns.drop (k + 1) ++ ns.take (k + 1)) 0) v, ?_, ?_, ?_⟩
  · have c1 : ¬ (it.GetNode = none) := by rw [hit]; simp
    unfold insertAfter
    simp only [hfull, Bool.false_eq_true, if_false]
    rw [if_neg c1]
    simp [hit, hn, newPtr, s1, s2, Res.ofOption, hinc]
  · refine ⟨by simp [h.1]; omega, by simp; omega, ?_, ?_⟩
    · show l.head = _
      rw [h.2.2.1]
      conv_lhs => rw [← hsplit]
      exact congrArg _ (head?_append_of_ne_nil _ _ _ htake)
    · have := Cyc_link_at hcyc hrot v
      rw [hla] at this
      exact this
  · have hmem : ∀ a ∈ (ns.drop (k + 1) ++ ns.take (k + 1)).map Prod.fst,
        a ∈ ns.map Prod.fst := by
      intro a ha
      refine mem_fst_of_mem_sublist ?_ ha
      intro n hn
      rcases List.mem_append.mp hn with hn | hn
      · exact List.mem_of_mem_drop hn
      · exact List.mem_of_mem_take hn
    apply FrameOf_link
    · exact List.mem_map.mpr ⟨ns[k], List.getElem_mem _, rfl⟩
    · exact hmem _ (firstAddr_mem _ 0 hrot)

/-! ## Lists as sequences of values -/

theorem Holds_size {T : Type} {m : Mem T} {l : TList} {xs : List T}
    (h : Holds m l xs) : l.size = xs.length := by
  obtain ⟨ns, hr, rfl⟩ := h
  simp [hr.1]

theorem Holds_cap {T : Type} {m : Mem T} {l : TList} {xs : List T}
    (h : Holds m l xs) : xs.length ≤ MAX_SIZE := by
  obtain ⟨ns, hr, rfl⟩ := h
  simpa using hr.2.1

theorem Holds_index {T : Type} {m : Mem T} {l : TList} {xs : List T}
    (h : Holds m l xs) (i : Nat) (hi : i < xs.length) :
    readAt m l (i : Int) = Res.ok xs[i] m l := by
  obtain ⟨ns, hr, rfl⟩ := h
  have hi' : i < ns.length := by simpa using hi
  rw [readAt_Ring hr i hi']
  simp

theorem Holds_empty {T : Type} (m : Mem T) : Holds m empty ([] : List T) :=
  ⟨[], (Ring_nil_iff m empty).mpr rfl, rfl⟩

theorem Holds_nil_iff {T : Type} (m : Mem T) (l : TList) :
    Holds m l ([] : List T) ↔ l = empty := by
  constructor
  · rintro ⟨ns, hr, hx⟩
    have : ns = [] := by simpa using hx
    subst this
    exact (Ring_nil_iff m l).mp hr
  · rintro rfl
    exact Holds_empty m

theorem AddEnd_Holds {T : Type} {m : Mem T} {l : TList} {xs : List T}
    (h : Holds m l xs) (hlt : l.size < MAX_SIZE) (v : T) :
    ∃ m1 l1, AddEnd m l v = Res.ok () m1 l1 ∧ Holds m1 l1 (xs ++ [v]) := by
  obtain ⟨ns, hr, rfl⟩ := h
  obtain ⟨m1, l1, h1, _, h3, _⟩ := AddEnd_Ring hr (by rw [← hr.1]; exact hlt) v
  exact ⟨m1, l1, h1, _, h3, by simp⟩

theorem AddStart_Holds {T : Type} {m : Mem T} {l : TList} {xs : List T}
    (h : Holds m l xs) (hlt : l.size < MAX_SIZE) (v : T) :
    ∃ m1 l1, AddStart m l v = Res.ok () m1 l1 ∧ Holds m1 l1 (v :: xs) := by
  obtain ⟨ns, hr, rfl⟩ := h
  obtain ⟨m1, h1, h3, _⟩ := AddStart_Ring hr (by rw [← hr.1]; exact hlt) v
  exact ⟨m1, _, h1, _, h3, by simp⟩

theorem AddEndSeq_Holds {T : Type} (vs : List T) {m : Mem T} {l : TList} {xs : List T}
    (h : Holds m l xs) (hlen : xs.length + vs.length ≤ MAX_SIZE) :
    ∃ m1 l1, AddEndSeq m l vs = Res.ok () m1 l1 ∧ Holds m1 l1 (xs ++ vs) := by
  induction vs generalizing m l xs with
  | nil => exact ⟨m, l, rfl, by simpa using h⟩
  | cons v vs ih =>
    have hlt : l.size < MAX_SIZE := by
      rw [Holds_size h]
      simp at hlen
      omega
    obtain ⟨m1, l1, h1, h2⟩ := AddEnd_Holds h hlt v
    obtain ⟨m2, l2, h3, h4⟩ := ih h2 (by simp at hlen ⊢; omega)
    refine ⟨m2, l2, ?_, by simpa using h4⟩
    simp [AddEndSeq, h1, h3]

/-! ## C1 and C2: insertion at the two ends -/

/-- C1: on a well-formed list of size `n < MAX_SIZE`, `AddEnd(v)` returns and
leaves a well-formed list of size `n + 1` whose element at index `n` is `v` and
whose elements at the indices below `n` are what they were; and `AddEnd` of
`v0, ..., v(k-1)` in that order onto an empty list, `k <= MAX_SIZE`, all return
and leave a list of size `k` with `list[i]` equal to `v_i` for every `i < k`. -/
theorem C1_AddEnd_appends {T : Type} (m : Mem T) (l : TList) (xs : List T) (v : T)
    (h : Holds m l xs) (hlt : GetSize l < MAX_SIZE)
    (m0 : Mem T) (vs : List T) (hvs : vs.length ≤ MAX_SIZE) :
    (∃ m1 l1, AddEnd m l v = Res.ok () m1 l1 ∧ Holds m1 l1 (xs ++ [v]) ∧
      GetSize l = xs.length ∧ GetSize l1 = GetSize l + 1 ∧
      readAt m1 l1 (GetSize l : Int) = Res.ok v m1 l1 ∧
      ∀ (i : Nat) (hi : i < xs.length),
        readAt m l (i : Int) = Res.ok xs[i] m l ∧
        readAt m1 l1 (i : Int) = Res.ok xs[i] m1 l1) ∧
    (∃ m1 l1, AddEndSeq m0 empty vs = Res.ok () m1 l1 ∧ GetSize l1 = vs.length ∧
      ∀ (i : Nat) (hi : i < vs.length), readAt m1 l1 (i : Int) = Res.ok vs[i] m1 l1) := by
  constructor
  · obtain ⟨m1, l1, h1, h2⟩ := AddEnd_Holds h hlt v
    have hs := Holds_size h
    have hs1 := Holds_size h2
    refine ⟨m1, l1, h1, h2, hs, ?_, ?_, ?_⟩
    · simp [GetSize, hs, hs1]
    · have := Holds_index h2 xs.length (by simp)
      simpa [GetSize, hs] using this
    · intro i hi
      refine ⟨Holds_index h i hi, ?_⟩
      have := Holds_index h2 i (by simp; omega)
      simpa [List.getElem_append_left hi] using this
  · obtain ⟨m1, l1, h1, h2⟩ := AddEndSeq_Holds vs (Holds_empty m0) (by simpa using hvs)
    simp only [List.nil_append] at h2
    exact ⟨m1, l1, h1, Holds_size h2, fun i hi => Holds_index h2 i hi⟩

/-- C1 at the list `[1, 2, 3]` with `AddEnd(4)`, and at `AddEnd(5); AddEnd(6)` on an
empty list. -/
theorem C1_AddEnd_appends_witness :
    Holds mem123 list123 [1, 2, 3] ∧ GetSize list123 < MAX_SIZE ∧
      [5, 6].length ≤ MAX_SIZE ∧
      (∃ m1 l1, AddEnd mem123 list123 4 = Res.ok () m1 l1 ∧ Holds m1 l1 [1, 2, 3, 4]) ∧
      (∃ m1 l1, AddEndSeq ([] : Mem Nat) empty [5, 6] = Res.ok () m1 l1 ∧
        readAt m1 l1 1 = Res.ok 6 m1 l1) :=
  have hH : Holds mem123 list123 [1, 2, 3] := ⟨nodes123, by decide, rfl⟩
  have hT := C1_AddEnd_appends mem123 list123 [1, 2, 3] 4 hH (by decide) [] [5, 6] (by decide)
  ⟨hH, by decide, by decide,
    hT.1.elim fun m1 e => e.elim fun l1 e => ⟨m1, l1, e.1, e.2.1⟩,
    hT.2.elim fun m1 e => e.elim fun l1 e => ⟨m1, l1, e.1, e.2.2 1 (by decide)⟩⟩

/-- C2: on a well-formed list of size `n < MAX_SIZE`, the empty list included,
`AddStart(v)` returns and leaves a well-formed list of size `n + 1` whose
element at index 0 is `v` and in which the element formerly at index `i` is at
index `i + 1`, for every `i < n`. -/
theorem C2_AddStart_prepends {T : Type} (m : Mem T) (l : TList) (xs : List T) (v : T)
    (h : Holds m l xs) (hlt : GetSize l < MAX_SIZE) :
    ∃ m1 l1, AddStart m l v = Res.ok () m1 l1 ∧ Holds m1 l1 (v :: xs) ∧
      GetSize l = xs.length ∧ GetSize l1 = GetSize l + 1 ∧
      readAt m1 l1 0 = Res.ok v m1 l1 ∧
      ∀ (i : Nat) (hi : i < xs.length),
        readAt m l (i : Int) = Res.ok xs[i] m l ∧
        readAt m1 l1 ((i : Int) + 1) = Res.ok xs[i] m1 l1 := by
  obtain ⟨m1, l1, h1, h2⟩ := AddStart_Holds h hlt v
  have hs := Holds_size h
  have hs1 := Holds_size h2
  refine ⟨m1, l1, h1, h2, hs, ?_, ?_, ?_⟩
  · simp [GetSize, hs, hs1]
  · have := Holds_index h2 0 (by simp)
    simpa using this
  · intro i hi
    refine ⟨Holds_index h i hi, ?_⟩
    have := Holds_index h2 (i + 1) (by simp; omega)
    simpa using this

/-- C2 at the list `[1, 2, 3]` with `AddStart(0)`, and at the empty list with
`AddStart(7)`. -/
theorem C2_AddStart_prepends_witness :
    Holds mem123 list123 [1, 2, 3] ∧ GetSize list123 < MAX_SIZE ∧
      (∃ m1 l1, AddStart mem123 list123 0 = Res.ok () m1 l1 ∧ Holds m1 l1 [0, 1, 2, 3]) ∧
      (∃ m1 l1, AddStart ([] : Mem Nat) empty 7 = Res.ok () m1 l1 ∧ Holds m1 l1 [7]) :=
  have hH : Holds mem123 list123 [1, 2, 3] := ⟨nodes123, by decide, rfl⟩
  have hT := C2_AddStart_prepends mem123 list123 [1, 2, 3] 0 hH (by decide)
  have hE := C2_AddStart_prepends ([] : Mem Nat) empty [] 7 (Holds_empty _) (by decide)
  ⟨hH, by decide,
    hT.elim fun m1 e => e.elim fun l1 e => ⟨m1, l1, e.1, e.2.1⟩,
    hE.elim fun m1 e => e.elim fun l1 e => ⟨m1, l1, e.1, e.2.1⟩⟩

theorem Holds_index_of_getElem? {T : Type} {m : Mem T} {l : TList} {xs : List T}
    (h : Holds m l xs) (i : Nat) (x : T) (hx : xs[i]? = some x) :
    readAt m l (i : Int) = Res.ok x m l := by
  obtain ⟨hi, rfl⟩ := List.getElem?_eq_some.mp hx
  exact Holds_index h i hi

theorem Holds_out_of_range {T : Type} {m : Mem T} {l : TList} {xs : List T}
    (h : Holds m l xs) (i : Int) (hi : i < 0 ∨ i ≥ (GetSize l : Int)) :
    readAt m l i = Res.throw Exc.out_of_range m l ∧
      indexRef m l i = Res.throw Exc.out_of_range m l ∧
      indexConst m l i = Res.throw Exc.out_of_range m l := by
  obtain ⟨ns, hr, _⟩ := h
  refine index_out_of_range hr i ?_
  rw [← hr.1]
  exact hi

theorem getElem?_insert_lt {T : Type} (xs : List T) (v : T) (k j : Nat)
    (hj : j < k) (hk : k ≤ xs.length) :
    (xs.take k ++ v :: xs.drop k)[j]? = xs[j]? := by
  rw [List.getElem?_append_left (by rw [List.length_take]; omega),
    List.getElem?_take_of_lt hj]

theorem getElem?_insert_eq {T : Type} (xs : List T) (v : T) (k : Nat)
    (hk : k ≤ xs.length) : (xs.take k ++ v :: xs.drop k)[k]? = some v := by
  have hl : (xs.take k).length = k := by rw [List.length_take]; omega
  rw [List.getElem?_append_right (by omega), hl]
  simp

theorem getElem?_insert_ge {T : Type} (xs : List T) (v : T) (k j : Nat)
    (hj : k ≤ j) (hk : k ≤ xs.length) :
    (xs.take k ++ v :: xs.drop k)[j + 1]? = xs[j]? := by
  have hl : (xs.take k).length = k := by rw [List.length_take]; omega
  rw [List.getElem?_append_right (by omega), hl]
  have e : j + 1 - k = (j - k) + 1 := by omega
  rw [e, List.getElem?_cons_succ, List.getElem?_drop]
  congr 1
  omega

theorem Add_Holds {T : Type} {m : Mem T} {l : TList} {xs : List T}
    (h : Holds m l xs) (hlt : l.size < MAX_SIZE) (v : T) (k : Nat) (hk : k ≤ xs.length) :
    ∃ m1 l1, Add m l v (k : Int) = Res.ok () m1 l1 ∧
      Holds m1 l1 (xs.take k ++ v :: xs.drop k) := by
  obtain ⟨ns, hr, rfl⟩ := h
  obtain ⟨m1, l1, h1, _, h3, _⟩ :=
    Add_Ring hr (by rw [← hr.1]; exact hlt) v k (by simpa using hk)
  exact ⟨m1, l1, h1, _, h3, by simp [List.map_take, List.map_drop]⟩

theorem Remove_Holds {T : Type} {m : Mem T} {l : TList} {xs : List T}
    (h : Holds m l xs) (k : Nat) (hk : k < xs.length) :
    ∃ m1 l1, Remove m l (k : Int) = Res.ok xs[k] m1 l1 ∧ Holds m1 l1 (xs.eraseIdx k) := by
  obtain ⟨ns, hr, rfl⟩ := h
  have hk' : k < ns.length := by simpa using hk
  obtain ⟨m1, l1, h1, _, h3, _⟩ := Remove_Ring hr k hk'
  refine ⟨m1, l1, by simpa using h1, _, h3, ?_⟩
  rw [List.eraseIdx_eq_take_drop_succ]
  simp [List.map_take, List.map_drop]

theorem RemoveStart_Holds {T : Type} {m : Mem T} {l : TList} {x : T} {xs : List T}
    (h : Holds m l (x :: xs)) :
    ∃ m1 l1, RemoveStart m l = Res.ok x m1 l1 ∧ Holds m1 l1 xs := by
  obtain ⟨ns, hr, hx⟩ := h
  cases ns with
  | nil => simp at hx
  | cons c ns =>
    simp only [List.map_cons, List.cons.injEq] at hx
    obtain ⟨m1, l1, h1, _, h3, _⟩ := RemoveStart_Ring hr
    exact ⟨m1, l1, by rw [h1, hx.1], ns, h3, hx.2⟩

theorem RemoveEnd_Holds {T : Type} {m : Mem T} {l : TList} {x : T} {xs : List T}
    (h : Holds m l (xs ++ [x])) :
    ∃ m1 l1, RemoveEnd m l = Res.ok x m1 l1 ∧ Holds m1 l1 xs := by
  obtain ⟨ns, hr, hx⟩ := h
  rcases List.eq_nil_or_concat ns with h0 | ⟨ns0, c, hc⟩
  · subst h0
    simp at hx
  · rw [List.concat_eq_append] at hc
    subst hc
    rw [List.map_append, List.map_cons, List.map_nil] at hx
    have hx1 := List.append_inj_left' hx rfl
    have hx2 := List.append_inj_right' hx rfl
    simp only [List.cons.injEq, and_true] at hx2
    obtain ⟨m1, l1, h1, _, h3, _⟩ := RemoveEnd_Ring hr
    exact ⟨m1, l1, by rw [h1, hx2], ns0, h3, hx1⟩

/-! ## C3, C4, C5: insertion and removal by index and at the ends -/

/-- C3: on a well-formed list of size `n`, `Add(v, i)` throws `out_of_range`
exactly when `i < 0` or `i > n`, also on a full list; otherwise it throws
`overflow_error` exactly when `n = MAX_SIZE`; a throwing call leaves memory and
list as they were; otherwise it returns and leaves a well-formed list of size
`n + 1` with `v` at index `i`, the elements formerly below `i` in place and the
elements formerly at or above `i` one index higher. -/
theorem C3_Add_at_index {T : Type} (m : Mem T) (l : TList) (xs : List T) (v : T)
    (i : Int) (h : Holds m l xs) :
    ((i < 0 ∨ i > (GetSize l : Int)) → Add m l v i = Res.throw Exc.out_of_range m l) ∧
    (¬ (i < 0 ∨ i > (GetSize l : Int)) → GetSize l = MAX_SIZE →
      Add m l v i = Res.throw Exc.overflow_error m l) ∧
    (¬ (i < 0 ∨ i > (GetSize l : Int)) → GetSize l ≠ MAX_SIZE →
      ∃ m1 l1, Add m l v i = Res.ok () m1 l1 ∧
        Holds m1 l1 (xs.take i.toNat ++ v :: xs.drop i.toNat) ∧
        GetSize l1 = GetSize l + 1 ∧
        readAt m1 l1 i = Res.ok v m1 l1 ∧
        (∀ (j : Nat) (hj : j < xs.length), (j : Int) < i →
          readAt m l (j : Int) = Res.ok xs[j] m l ∧
          readAt m1 l1 (j : Int) = Res.ok xs[j] m1 l1) ∧
        (∀ (j : Nat) (hj : j < xs.length), i ≤ (j : Int) →
          readAt m l (j : Int) = Res.ok xs[j] m l ∧
          readAt m1 l1 ((j : Int) + 1) = Res.ok xs[j] m1 l1)) ∧
    ((Add m l v i).exc? = some Exc.out_of_range ↔ (i < 0 ∨ i > (GetSize l : Int))) ∧
    (¬ (i < 0 ∨ i > (GetSize l : Int)) →
      ((Add m l v i).exc? = some Exc.overflow_error ↔ GetSize l = MAX_SIZE)) := by
  have hs : l.size = xs.length := Holds_size h
  have hcap : xs.length ≤ MAX_SIZE := Holds_cap h
  have hc : castInt l.size = (l.size : Int) := castInt_eq (by rw [hs]; exact hcap)
  have hthrow : (i < 0 ∨ i > (GetSize l : Int)) →
      Add m l v i = Res.throw Exc.out_of_range m l := by
    intro hi
    unfold Add
    rw [if_pos (by rw [hc]; exact hi)]
  have hover : ¬ (i < 0 ∨ i > (GetSize l : Int)) → GetSize l = MAX_SIZE →
      Add m l v i = Res.throw Exc.overflow_error m l := by
    intro hi hfull
    have hf : IsFull l = true := by
      simp only [GetSize] at hfull
      simp [IsFull, hfull]
    unfold Add
    rw [if_neg (by rw [hc]; exact hi)]
    simp only [hf, if_true]
  have hok : ¬ (i < 0 ∨ i > (GetSize l : Int)) → GetSize l ≠ MAX_SIZE →
      ∃ m1 l1, Add m l v i = Res.ok () m1 l1 ∧
        Holds m1 l1 (xs.take i.toNat ++ v :: xs.drop i.toNat) := by
    intro hi hnf
    simp only [GetSize] at hi hnf
    have hk : i.toNat ≤ xs.length := by omega
    have hlt : l.size < MAX_SIZE := by omega
    obtain ⟨m1, l1, h1, h2⟩ := Add_Holds h hlt v i.toNat hk
    have e : ((i.toNat : Nat) : Int) = i := Int.toNat_of_nonneg (by omega)
    rw [e] at h1
    exact ⟨m1, l1, h1, h2⟩
  refine ⟨hthrow, hover, ?_, ?_, ?_⟩
  · intro hi hnf
    obtain ⟨m1, l1, h1, h2⟩ := hok hi hnf
    simp only [GetSize] at hi hnf ⊢
    have hk : i.toNat ≤ xs.length := by omega
    have e : ((i.toNat : Nat) : Int) = i := Int.toNat_of_nonneg (by omega)
    refine ⟨m1, l1, h1, h2, ?_, ?_, ?_, ?_⟩
    · rw [Holds_size h2, hs]
      simp
      omega
    · have := Holds_index_of_getElem? h2 i.toNat v (getElem?_insert_eq xs v _ hk)
      rwa [e] at this
    · intro j hj hji
      refine ⟨Holds_index h j hj, ?_⟩
      apply Holds_index_of_getElem? h2
      rw [getElem?_insert_lt xs v _ j (by omega) hk]
      exact List.getElem?_eq_getElem hj
    · intro j hj hji
      refine ⟨Holds_index h j hj, ?_⟩
      have := Holds_index_of_getElem? h2 (j + 1) xs[j] (by
        rw [getElem?_insert_ge xs v _ j (by omega) hk]
        exact List.getElem?_eq_getElem hj)
      simpa using this
  · constructor
    · intro he
      by_contra hi
      by_cases hfull : GetSize l = MAX_SIZE
      · rw [hover hi hfull] at he
        simp [Res.exc?] at he
      · obtain ⟨m1, l1, h1, _⟩ := hok hi hfull
        rw [h1] at he
        simp [Res.exc?] at he
    · intro hi
      rw [hthrow hi]
      rfl
  · intro hi
    constructor
    · intro he
      by_contra hfull
      obtain ⟨m1, l1, h1, _⟩ := hok hi hfull
      rw [h1] at he
      simp [Res.exc?] at he
    · intro hfull
      rw [hover hi hfull]
      rfl

/-- C3 at the list `[1, 2, 3]`: `Add(9, 1)` gives `[1, 9, 2, 3]` and `Add(9, 4)`
throws `out_of_range`. -/
theorem C3_Add_at_index_witness :
    Holds mem123 list123 [1, 2, 3] ∧
      (∃ m1 l1, Add mem123 list123 9 1 = Res.ok () m1 l1 ∧ Holds m1 l1 [1, 9, 2, 3]) ∧
      Add mem123 list123 9 4 = Res.throw Exc.out_of_range mem123 list123 :=
  have hH : Holds mem123 list123 [1, 2, 3] := ⟨nodes123, by decide, rfl⟩
  have hT := C3_Add_at_index mem123 list123 [1, 2, 3] 9 1 hH
  have hO := C3_Add_at_index mem123 list123 [1, 2, 3] 9 4 hH
  ⟨hH,
    (hT.2.2.1 (by decide) (by decide)).elim fun m1 e => e.elim fun l1 e =>
      ⟨m1, l1, e.1, e.2.1⟩,
    hO.1 (by decide)⟩

/-- C4: on a well-formed list of size `n`, `Remove(i)` throws `out_of_range`
exactly when `i < 0` or `i >= n`, so always on an empty list, and leaves memory
and list as they were; otherwise it returns the value formerly at index `i` and
leaves a well-formed list of size `n - 1` holding the former elements with
index `i` erased, the others in their order. -/
theorem C4_Remove_at_index {T : Type} (m : Mem T) (l : TList) (xs : List T)
    (i : Int) (h : Holds m l xs) :
    ((i < 0 ∨ i ≥ (GetSize l : Int)) → Remove m l i = Res.throw Exc.out_of_range m l) ∧
    (¬ (i < 0 ∨ i ≥ (GetSize l : Int)) →
      ∃ x m1 l1, xs[i.toNat]? = some x ∧ readAt m l i = Res.ok x m l ∧
        Remove m l i = Res.ok x m1 l1 ∧ Holds m1 l1 (xs.eraseIdx i.toNat) ∧
        GetSize l1 + 1 = GetSize l) ∧
    ((Remove m l i).exc? = some Exc.out_of_range ↔ (i < 0 ∨ i ≥ (GetSize l : Int))) ∧
    (GetSize l = 0 → Remove m l i = Res.throw Exc.out_of_range m l) := by
  have hs : l.size = xs.length := Holds_size h
  have hcap : xs.length ≤ MAX_SIZE := Holds_cap h
  have hc : castInt l.size = (l.size : Int) := castInt_eq (by rw [hs]; exact hcap)
  have hthrow : (i < 0 ∨ i ≥ (GetSize l : Int)) →
      Remove m l i = Res.throw Exc.out_of_range m l := by
    intro hi
    unfold Remove
    rw [if_pos (by rw [hc]; exact hi)]
  have hok : ¬ (i < 0 ∨ i ≥ (GetSize l : Int)) →
      ∃ x m1 l1, xs[i.toNat]? = some x ∧ readAt m l i = Res.ok x m l ∧
        Remove m l i = Res.ok x m1 l1 ∧ Holds m1 l1 (xs.eraseIdx i.toNat) ∧
        GetSize l1 + 1 = GetSize l := by
    intro hi
    simp only [GetSize] at hi ⊢
    have hk : i.toNat < xs.length := by omega
    have e : ((i.toNat : Nat) : Int) = i := Int.toNat_of_nonneg (by omega)
    obtain ⟨m1, l1, h1, h2⟩ := Remove_Holds h i.toNat hk
    rw [e] at h1
    refine ⟨xs[i.toNat], m1, l1, List.getElem?_eq_getElem hk, ?_, h1, h2, ?_⟩
    · have := Holds_index h i.toNat hk
      rwa [e] at this
    · rw [Holds_size h2, hs, List.length_eraseIdx_of_lt hk]
      omega
  refine ⟨hthrow, hok, ?_, ?_⟩
  · constructor
    · intro he
      by_contra hi
      obtain ⟨x, m1, l1, _, _, h1, _⟩ := hok hi
      rw [h1] at he
      simp [Res.exc?] at he
    · intro hi
      rw [hthrow hi]
      rfl
  · intro h0
    apply hthrow
    rw [h0]
    omega

/-- C4 at the list `[1, 2, 3]`: `Remove(1)` returns 2 and leaves `[1, 3]`, and
`Remove(3)` throws `out_of_range`. -/
theorem C4_Remove_at_index_witness :
    Holds mem123 list123 [1, 2, 3] ∧
      (∃ m1 l1, Remove mem123 list123 1 = Res.ok 2 m1 l1 ∧ Holds m1 l1 [1, 3]) ∧
      Remove mem123 list123 3 = Res.throw Exc.out_of_range mem123 list123 :=
  have hH : Holds mem123 list123 [1, 2, 3] := ⟨nodes123, by decide, rfl⟩
  have hT := C4_Remove_at_index mem123 list123 [1, 2, 3] 1 hH
  have hO := C4_Remove_at_index mem123 list123 [1, 2, 3] 3 hH
  (hT.2.1 (by decide)).elim fun x e => e.elim fun m1 e => e.elim fun l1 e =>
    have hx : (2 : Nat) = x := Option.some.inj e.1
    ⟨hH, ⟨m1, l1, hx ▸ e.2.2.1, e.2.2.2.1⟩, hO.1 (by decide)⟩

/-- C5: on a well-formed list, `RemoveStart` and `RemoveEnd` throw
`underflow_error` exactly when the list is empty, leaving it as it was; on a
list of size `n >= 1`, `RemoveStart` returns the value at index 0 and leaves
the former elements `1..n-1` in order, `RemoveEnd` returns the value at index
`n - 1` and leaves the former elements `0..n-2`; on a list of size 1 both leave
the empty list. -/
theorem C5_RemoveStart_RemoveEnd {T : Type} (m : Mem T) (l : TList) (xs : List T)
    (h : Holds m l xs) :
    (GetSize l = 0 →
      RemoveStart m l = Res.throw Exc.underflow_error m l ∧
      RemoveEnd m l = Res.throw Exc.underflow_error m l ∧ l = empty) ∧
    (∀ x rest, xs = x :: rest →
      ∃ m1 l1, RemoveStart m l = Res.ok x m1 l1 ∧ Holds m1 l1 rest ∧
        GetSize l1 + 1 = GetSize l ∧ readAt m l 0 = Res.ok x m l) ∧
    (∀ init x, xs = init ++ [x] →
      ∃ m1 l1, RemoveEnd m l = Res.ok x m1 l1 ∧ Holds m1 l1 init ∧
        GetSize l1 + 1 = GetSize l ∧
        readAt m l ((GetSize l : Int) - 1) = Res.ok x m l) ∧
    (∀ x, xs = [x] →
      (∃ m1, RemoveStart m l = Res.ok x m1 empty) ∧
      (∃ m1, RemoveEnd m l = Res.ok x m1 empty)) ∧
    ((RemoveStart m l).exc? = some Exc.underflow_error ↔ GetSize l = 0) ∧
    ((RemoveEnd m l).exc? = some Exc.underflow_error ↔ GetSize l = 0) := by
  have hs : l.size = xs.length := Holds_size h
  have hempty : GetSize l = 0 →
      RemoveStart m l = Res.throw Exc.underflow_error m l ∧
      RemoveEnd m l = Res.throw Exc.underflow_error m l ∧ l = empty := by
    intro h0
    simp only [GetSize] at h0
    have he : IsEmpty l = true := by simp [IsEmpty, h0]
    have hx : xs = [] := List.length_eq_zero.mp (by omega)
    subst hx
    refine ⟨?_, ?_, (Holds_nil_iff m l).mp h⟩
    · unfold RemoveStart
      simp only [he, if_true]
    · unfold RemoveEnd
      simp only [he, if_true]
  have hstart : ∀ x rest, xs = x :: rest →
      ∃ m1 l1, RemoveStart m l = Res.ok x m1 l1 ∧ Holds m1 l1 rest ∧
        GetSize l1 + 1 = GetSize l ∧ readAt m l 0 = Res.ok x m l := by
    intro x rest hx
    subst hx
    obtain ⟨m1, l1, h1, h2⟩ := RemoveStart_Holds h
    refine ⟨m1, l1, h1, h2, ?_, ?_⟩
    · simp [GetSize, Holds_size h2, hs]
    · have := Holds_index h 0 (by simp)
      simpa using this
  have hend : ∀ init x, xs = init ++ [x] →
      ∃ m1 l1, RemoveEnd m l = Res.ok x m1 l1 ∧ Holds m1 l1 init ∧
        GetSize l1 + 1 = GetSize l ∧
        readAt m l ((GetSize l : Int) - 1) = Res.ok x m l := by
    intro init x hx
    subst hx
    obtain ⟨m1, l1, h1, h2⟩ := RemoveEnd_Holds h
    refine ⟨m1, l1, h1, h2, ?_, ?_⟩
    · simp [GetSize, Holds_size h2, hs]
    · have := Holds_index_of_getElem? h init.length x (by simp)
      have e : ((GetSize l : Nat) : Int) - 1 = (init.length : Int) := by
        simp [GetSize, hs]
      rw [e]
      exact this
  refine ⟨hempty, hstart, hend, ?_, ?_, ?_⟩
  · intro x hx
    constructor
    · obtain ⟨m1, l1, h1, h2, _⟩ := hstart x [] hx
      rw [(Holds_nil_iff m1 l1).mp h2] at h1
      exact ⟨m1, h1⟩
    · obtain ⟨m1, l1, h1, h2, _⟩ := hend [] x (by simpa using hx)
      rw [(Holds_nil_iff m1 l1).mp h2] at h1
      exact ⟨m1, h1⟩
  · constructor
    · intro he
      by_contra h0
      cases xs with
      | nil => exact h0 (by simpa [GetSize] using hs)
      | cons x rest =>
        obtain ⟨m1, l1, h1, _⟩ := hstart x rest rfl
        rw [h1] at he
        simp [Res.exc?] at he
    · intro h0
      rw [(hempty h0).1]
      rfl
  · constructor
    · intro he
      by_contra h0
      rcases List.eq_nil_or_concat xs with hx | ⟨init, x, hx⟩
      · subst hx
        exact h0 (by simpa [GetSize] using hs)
      · rw [List.concat_eq_append] at hx
        obtain ⟨m1, l1, h1, _⟩ := hend init x hx
        rw [h1] at he
        simp [Res.exc?] at he
    · intro h0
      rw [(hempty h0).2.1]
      rfl

/-- C5 at the list `[1, 2, 3]`: `RemoveStart()` returns 1, `RemoveEnd()` returns
3; and `RemoveStart()` on the empty list throws `underflow_error`. -/
theorem C5_RemoveStart_RemoveEnd_witness :
    Holds mem123 list123 [1, 2, 3] ∧
      (∃ m1 l1, RemoveStart mem123 list123 = Res.ok 1 m1 l1 ∧ Holds m1 l1 [2, 3]) ∧
      (∃ m1 l1, RemoveEnd mem123 list123 = Res.ok 3 m1 l1 ∧ Holds m1 l1 [1, 2]) ∧
      RemoveStart ([] : Mem Nat) empty = Res.throw Exc.underflow_error [] empty :=
  have hH : Holds mem123 list123 [1, 2, 3] := ⟨nodes123, by decide, rfl⟩
  have hT := C5_RemoveStart_RemoveEnd mem123 list123 [1, 2, 3] hH
  have hE := C5_RemoveStart_RemoveEnd ([] : Mem Nat) empty [] (Holds_empty _)
  ⟨hH,
    (hT.2.1 1 [2, 3] rfl).elim fun m1 e => e.elim fun l1 e => ⟨m1, l1, e.1, e.2.1⟩,
    (hT.2.2.1 [1, 2] 3 rfl).elim fun m1 e => e.elim fun l1 e => ⟨m1, l1, e.1, e.2.1⟩,
    (hE.1 rfl).1⟩

/-! ## C6: the capacity boundary -/

/-- Filling an empty list by `MAX_SIZE` calls of `AddEnd(0)` succeeds and gives
a well-formed list of size `MAX_SIZE`. -/
theorem exists_full_list :
    ∃ (m : Mem Nat) (l : TList),
      AddEndSeq ([] : Mem Nat) empty (List.replicate MAX_SIZE 0) = Res.ok () m l ∧
      Holds m l (List.replicate MAX_SIZE 0) ∧ GetSize l = MAX_SIZE := by
  obtain ⟨m1, l1, h1, h2⟩ :=
    AddEndSeq_Holds (List.replicate MAX_SIZE 0) (Holds_empty ([] : Mem Nat)) (by simp)
  simp only [List.nil_append] at h2
  exact ⟨m1, l1, h1, h2, by simp [GetSize, Holds_size h2]⟩

/-- C6: on a well-formed list whose size is `MAX_SIZE`, `IsFull()` is true and
`AddStart(v)`, `AddEnd(v)` and `insertAfter(it, v)`, for any iterator, throw
`overflow_error` leaving memory and list as they were; on a well-formed list
of smaller size `IsFull()` is false, none of the three throws, `AddStart` and
`AddEnd` return, and `insertAfter` returns for an iterator that references no
node or a node of the list. -/
theorem C6_capacity_boundary {T : Type} (m : Mem T) (l : TList) (xs : List T) (v : T)
    (h : Holds m l xs) :
    GetSize l ≤ MAX_SIZE ∧
    (GetSize l = MAX_SIZE →
      IsFull l = true ∧
      AddStart m l v = Res.throw Exc.overflow_error m l ∧
      AddEnd m l v = Res.throw Exc.overflow_error m l ∧
      ∀ it : Iterator, insertAfter m l it v = Res.throw Exc.overflow_error m l) ∧
    (GetSize l < MAX_SIZE →
      IsFull l = false ∧
      (∃ m1 l1, AddStart m l v = Res.ok () m1 l1) ∧
      (∃ m1 l1, AddEnd m l v = Res.ok () m1 l1) ∧
      (∀ it : Iterator, (insertAfter m l it v).exc? = none) ∧
      (∀ it : Iterator, it.GetNode = none → ∃ m1 l1, insertAfter m l it v = Res.ok () m1 l1) ∧
      (∀ (it : Iterator) (k : Nat) (a : Nat), indexRef m l (k : Int) = Res.ok a m l →
        it.GetNode = some a → ∃ m1 l1, insertAfter m l it v = Res.ok () m1 l1)) := by
  have hs : l.size = xs.length := Holds_size h
  have hcap : xs.length ≤ MAX_SIZE := Holds_cap h
  refine ⟨by simp only [GetSize]; omega, ?_, ?_⟩
  · intro hfull
    simp only [GetSize] at hfull
    have hf : IsFull l = true := by simp [IsFull, hfull]
    refine ⟨hf, ?_, ?_, ?_⟩
    · unfold AddStart
      simp only [hf, if_true]
    · unfold AddEnd
      simp only [hf, if_true]
    · intro it
      unfold insertAfter
      simp only [hf, if_true]
  · intro hlt
    simp only [GetSize] at hlt
    have hf : IsFull l = false := by
      simp [IsFull]; exact hlt
    obtain ⟨m1, l1, h1, _⟩ := AddStart_Holds h hlt v
    obtain ⟨m2, l2, h2, _⟩ := AddEnd_Holds h hlt v
    refine ⟨hf, ⟨m1, l1, h1⟩, ⟨m2, l2, h2⟩, ?_, ?_, ?_⟩
    · intro it
      unfold insertAfter
      simp only [hf, Bool.false_eq_true, if_false]
      split
      · rw [h2]; rfl
      · generalize (do
          let node := it.GetNode
          let nextNode ← GetNext m node
          let newNode := newPtr m
          let m0 := newMem m v node nextNode
          let m1 ← SetNext m0 node newNode
          let m2 ← SetPrev m1 nextNode newNode
          pure ((), m2, (⟨l.head, incSize l.size⟩ : TList)) : Option (Unit × Mem T × TList)) = r
        cases r with
        | none => rfl
        | some t => rfl
    · intro it hit
      refine ⟨m2, l2, ?_⟩
      unfold insertAfter
      simp only [hf, Bool.false_eq_true, if_false]
      rw [if_pos hit, h2]
    · intro it k a hk hit
      obtain ⟨ns, hr, hx⟩ := h
      have hlen : ns.length = xs.length := by rw [← hx]; simp
      by_cases hkl : k < ns.length
      · rw [indexRef_Ring hr k hkl] at hk
        have ha : ns[k].1 = a := by
          injection hk
        obtain ⟨m3, h3, _⟩ :=
          insertAfter_Ring hr (by omega) v k hkl it (by rw [hit, ha])
        exact ⟨m3, _, h3⟩
      · have := (index_out_of_range hr (k : Int) (Or.inr (by omega))).2.1
        rw [this] at hk
        exact Res.noConfusion hk

/-- C6 at the list filled by `MAX_SIZE` calls of `AddEnd(0)`, where `AddStart(42)`
throws `overflow_error`, and at the list `[1, 2, 3]`, where `insertAfter` at
`begin()` returns. -/
theorem C6_capacity_boundary_witness :
    (∃ (m : Mem Nat) (l : TList),
      AddEndSeq ([] : Mem Nat) empty (List.replicate MAX_SIZE 0) = Res.ok () m l ∧
      IsFull l = true ∧ AddStart m l 42 = Res.throw Exc.overflow_error m l) ∧
    Holds mem123 list123 [1, 2, 3] ∧ IsFull list123 = false ∧
    (∃ m1 l1, insertAfter mem123 list123 list123.begin 9 = Res.ok () m1 l1) :=
  have hH : Holds mem123 list123 [1, 2, 3] := ⟨nodes123, by decide, rfl⟩
  have hT := C6_capacity_boundary mem123 list123 [1, 2, 3] 9 hH
  ⟨exists_full_list.elim fun m e => e.elim fun l e =>
      have hF := (C6_capacity_boundary m l _ 42 e.2.1).2.1 e.2.2
      ⟨m, l, e.1, hF.1, hF.2.1⟩,
    hH, (hT.2.2 (by decide)).1,
    (hT.2.2 (by decide)).2.2.2.2.2 list123.begin 0 0 (by decide) rfl⟩

/-! ## C7: indexed access -/

/-- What the two overloads of `operator[]` do on a well-formed list of size
`n`: both throw `out_of_range` exactly when `i < 0` or `i >= n`; otherwise the
node reached by following `next` exactly `i` times from `head` exists and
holds the `i`-th element `x`, the mutable overload returns a reference to that
node, through which `x` is read, and the const overload returns a reference
bound to a temporary that held `x`. -/
theorem index_operator_spec {T : Type} (m : Mem T) (l : TList) (xs : List T) (i : Int)
    (h : Holds m l xs) :
    ((i < 0 ∨ i ≥ (GetSize l : Int)) →
      indexRef m l i = Res.throw Exc.out_of_range m l ∧
      indexConst m l i = Res.throw Exc.out_of_range m l) ∧
    (¬ (i < 0 ∨ i ≥ (GetSize l : Int)) →
      ∃ (a : Nat) (x : T), walkNext m i.toNat l.head = some (some a) ∧
        GetValue m (some a) = some x ∧ xs[i.toNat]? = some x ∧
        indexRef m l i = Res.ok a m l ∧ readAt m l i = Res.ok x m l ∧
        indexConst m l i = Res.ok (ConstRef.temporary x) m l) ∧
    ((indexRef m l i).exc? = some Exc.out_of_range ↔ (i < 0 ∨ i ≥ (GetSize l : Int))) ∧
    ((indexConst m l i).exc? = some Exc.out_of_range ↔
      (i < 0 ∨ i ≥ (GetSize l : Int))) := by
  have hthrow := Holds_out_of_range h i
  have hok : ¬ (i < 0 ∨ i ≥ (GetSize l : Int)) →
      ∃ (a : Nat) (x : T), walkNext m i.toNat l.head = some (some a) ∧
        GetValue m (some a) = some x ∧ xs[i.toNat]? = some x ∧
        indexRef m l i = Res.ok a m l ∧ readAt m l i = Res.ok x m l ∧
        indexConst m l i = Res.ok (ConstRef.temporary x) m l := by
    intro hi
    obtain ⟨ns, hr, hx⟩ := h
    simp only [GetSize, hr.1] at hi
    have hk : i.toNat < ns.length := by omega
    have e : ((i.toNat : Nat) : Int) = i := Int.toNat_of_nonneg (by omega)
    obtain ⟨hw, pp, qq, hrd⟩ := Ring_read hr i.toNat hk
    refine ⟨ns[i.toNat].1, ns[i.toNat].2, hw, by simp [GetValue, hrd], ?_, ?_, ?_, ?_⟩
    · rw [← hx]
      simp [List.getElem?_eq_getElem hk]
    · have := indexRef_Ring hr i.toNat hk
      rwa [e] at this
    · have := readAt_Ring hr i.toNat hk
      rwa [e] at this
    · have := indexConst_Ring hr i.toNat hk
      rwa [e] at this
  refine ⟨fun hi => (hthrow hi).2, hok, ?_, ?_⟩
  · constructor
    · intro he
      by_contra hi
      obtain ⟨a, x, _, _, _, h1, _⟩ := hok hi
      rw [h1] at he
      simp [Res.exc?] at he
    · intro hi
      rw [(hthrow hi).2.1]
      rfl
  · constructor
    · intro he
      by_contra hi
      obtain ⟨a, x, _, _, _, _, _, h1⟩ := hok hi
      rw [h1] at he
      simp [Res.exc?] at he
    · intro hi
      rw [(hthrow hi).2.2]
      rfl

/-- C7, the defect: on the list `[1, 2, 3]` the mutable `list[0]` returns a
reference to the node at address 0, through which the value 1 is read, while
the const `list[0]` returns a reference bound to the temporary copy of 1 that
`GetValue()` returned, an object that is destroyed before the caller can read
it; out of range both overloads throw `out_of_range`. -/
theorem C7_const_index_dangles :
    indexRef mem123 list123 0 = Res.ok 0 mem123 list123 ∧
      ConstRef.get mem123 (ConstRef.node 0) = some 1 ∧
      indexConst mem123 list123 0 = Res.ok (ConstRef.temporary 1) mem123 list123 ∧
      ConstRef.get mem123 (ConstRef.temporary 1) = none ∧
      indexRef mem123 list123 5 = Res.throw Exc.out_of_range mem123 list123 ∧
      indexConst mem123 list123 (-1) = Res.throw Exc.out_of_range mem123 list123 := by
  decide

/-! ## C8: equality -/

theorem eqLoop_seg {T : Type} [DecidableEq T] {m : Mem T} (k : Nat)
    {p q p' q' : Nat} {ns ns' : List (Nat × T)}
    (h : seg m p ns q) (h' : seg m p' ns' q') (hk : k ≤ ns.length) (hk' : k ≤ ns'.length) :
    eqLoop m k (some (firstAddr ns q)) (some (firstAddr ns' q')) =
      some (decide ((ns.take k).map Prod.snd = (ns'.take k).map Prod.snd)) := by
  induction k generalizing p p' ns ns' with
  | zero => simp [eqLoop]
  | succ k ih =>
    cases ns with
    | nil => simp at hk
    | cons n ns =>
      cases ns' with
      | nil => simp at hk'
      | cons n' ns' =>
        obtain ⟨h1, h2⟩ := h
        obtain ⟨h1', h2'⟩ := h'
        have hv : GetValue m (some n.1) = some n.2 := by simp [GetValue, h1]
        have hv' : GetValue m (some n'.1) = some n'.2 := by simp [GetValue, h1']
        have hn : GetNext m (some n.1) = some (some (firstAddr ns q)) := by
          simp [GetNext, h1]
        have hn' : GetNext m (some n'.1) = some (some (firstAddr ns' q')) := by
          simp [GetNext, h1']
        have ih' := ih h2 h2' (by simpa using hk) (by simpa using hk')
        simp only [firstAddr_cons, eqLoop, hv, hv', hn, hn', ih', List.take_succ_cons,
          List.map_cons, List.cons.injEq]
        by_cases hne : n.2 = n'.2
        · simp [hne]
        · simp [hne]

theorem opEq_Ring {T : Type} [DecidableEq T] {m : Mem T} {l l' : TList}
    {ns ns' : List (Nat × T)} (h : Ring m l ns) (h' : Ring m l' ns') :
    opEq m l l' = some (decide (ns.map Prod.snd = ns'.map Prod.snd)) := by
  unfold opEq
  by_cases hsz : l.size = l'.size
  · rw [if_neg (by simpa using hsz)]
    by_cases h0 : l.size = 0
    · rw [if_pos h0]
      have e1 : ns = [] := List.length_eq_zero.mp (by rw [← h.1]; exact h0)
      have e2 : ns' = [] := List.length_eq_zero.mp (by rw [← h'.1, ← hsz]; exact h0)
      subst e1 e2
      simp
    · rw [if_neg h0]
      have hne : ns ≠ [] := by
        intro e; subst e; exact h0 (by simpa using h.1)
      have hne' : ns' ≠ [] := by
        intro e; subst e; exact h0 (by rw [hsz]; simpa using h'.1)
      have hh : l.head = some (firstAddr ns (firstAddr ns 0)) := by
        rw [h.2.2.1, head?_eq_firstAddr ns _ hne]
      have hh' : l'.head = some (firstAddr ns' (firstAddr ns' 0)) := by
        rw [h'.2.2.1, head?_eq_firstAddr ns' _ hne']
      rw [hh, hh', eqLoop_seg l.size h.2.2.2.2 h'.2.2.2.2 (by rw [h.1])
        (by rw [hsz, h'.1])]
      have t1 : ns.take l.size = ns := by rw [h.1]; exact List.take_length ns
      have t2 : ns'.take l.size = ns' := by rw [hsz, h'.1]; exact List.take_length ns'
      rw [t1, t2]
  · rw [if_pos (by simpa using hsz)]
    have : ns.map Prod.snd ≠ ns'.map Prod.snd := by
      intro e
      apply hsz
      have := congrArg List.length e
      simp only [List.length_map] at this
      rw [h.1, h'.1, this]
    simp [this]

theorem list_eq_iff_index {T : Type} {m : Mem T} {A B : TList} {xs ys : List T}
    (hA : Holds m A xs) (hB : Holds m B ys) :
    xs = ys ↔ (GetSize A = GetSize B ∧
      ∀ i : Nat, i < GetSize A → (readAt m A (i : Int)).val? = (readAt m B (i : Int)).val?) := by
  simp only [GetSize, Holds_size hA, Holds_size hB]
  constructor
  · rintro rfl
    refine ⟨rfl, fun i hi => ?_⟩
    rw [Holds_index hA i hi, Holds_index hB i hi]
    rfl
  · rintro ⟨hlen, hidx⟩
    apply List.ext_getElem hlen
    intro i h1 h2
    have := hidx i h1
    rw [Holds_index hA i h1, Holds_index hB i h2] at this
    simpa [Res.val?] using this

/-- C8: for well-formed lists `A` and `B`, `A == B` returns, and returns true
exactly when the sizes are equal and `A[i]` equals `B[i]` at every index
`i < size`; `A != B` returns the negation of `A == B`. -/
theorem C8_equality {T : Type} [DecidableEq T] (m : Mem T) (A B : TList) (xs ys : List T)
    (hA : Holds m A xs) (hB : Holds m B ys) :
    (∃ b : Bool, opEq m A B = some b ∧ opNe m A B = some (!b) ∧
      (b = true ↔ (GetSize A = GetSize B ∧
        ∀ i : Nat, i < GetSize A →
          (readAt m A (i : Int)).val? = (readAt m B (i : Int)).val?))) ∧
    (opEq m A B = some true ↔ xs = ys) := by
  have hidx := list_eq_iff_index hA hB
  obtain ⟨ns, hr, hx⟩ := hA
  obtain ⟨ns', hr', hy⟩ := hB
  have he := opEq_Ring hr hr'
  rw [hx, hy] at he
  refine ⟨⟨decide (xs = ys), he, by simp [opNe, he], ?_⟩, ?_⟩
  · rw [← hidx]
    simp
  · rw [he]
    simp

/-- C8 at the list `[1, 2, 3]` compared with itself and with the empty list. -/
theorem C8_equality_witness :
    Holds mem123 list123 [1, 2, 3] ∧ opEq mem123 list123 list123 = some true ∧
      opNe mem123 list123 list123 = some false ∧
      opEq mem123 list123 empty = some false :=
  have hH : Holds mem123 list123 [1, 2, 3] := ⟨nodes123, by decide, rfl⟩
  have hT := C8_equality mem123 list123 list123 [1, 2, 3] [1, 2, 3] hH hH
  have hU := C8_equality mem123 list123 empty [1, 2, 3] [] hH (Holds_empty _)
  ⟨hH, hT.2.mpr rfl,
    hT.1.elim fun b e =>
      have hb : b = true := Option.some.inj (e.1.symm.trans (hT.2.mpr rfl))
      (show opNe mem123 list123 list123 = some (!true) from hb ▸ e.2.1),
    hU.1.elim fun b e =>
      have hb : b = false := by
        cases b with
        | false => rfl
        | true => exact absurd (hU.2.mp e.1) (by decide)
      hb ▸ e.1⟩

/-! ## Two lists in one memory -/

theorem Ring_live {T : Type} {m : Mem T} {l : TList} {ns : List (Nat × T)}
    (h : Ring m l ns) : ∀ a ∈ ns.map Prod.fst, a < m.length :=
  seg_live h.2.2.2.2

/-- A list is untouched by what happens to the nodes of another list. -/
theorem Ring_frame {T : Type} {m m1 : Mem T} {l : TList} {ns other : List (Nat × T)}
    (h : Ring m l ns) (hf : FrameOf m m1 other)
    (hd : ∀ a ∈ ns.map Prod.fst, a ∉ other.map Prod.fst) : Ring m1 l ns := by
  obtain ⟨h1, h2, h3, h4, h5⟩ := h
  refine ⟨h1, h2, h3, h4, seg_frame h5 ?_⟩
  intro a ha
  exact hf.2 a (seg_live h5 a ha) (hd a ha)

theorem FrameOf_refl {T : Type} (m : Mem T) (ns : List (Nat × T)) : FrameOf m m ns :=
  ⟨Nat.le_refl _, fun _ _ _ => rfl⟩

theorem FrameOf_trans {T : Type} {m m1 m2 : Mem T} {ns ns1 : List (Nat × T)}
    (h1 : FrameOf m m1 ns) (h2 : FrameOf m1 m2 ns1)
    (hsub : ∀ a ∈ ns1.map Prod.fst, a ∈ ns.map Prod.fst ∨ m.length ≤ a) :
    FrameOf m m2 ns := by
  refine ⟨Nat.le_trans h1.1 h2.1, fun b hb hn => ?_⟩
  rw [h2.2 b (Nat.lt_of_lt_of_le hb h1.1) ?_, h1.2 b hb hn]
  intro hmem
  rcases hsub b hmem with h | h
  · exact hn h
  · omega

/-- What one mutating call does to a well-formed list: it returns or throws,
leaves the list well formed, and touches only its nodes and fresh cells. -/
theorem Mutation_run_Ring {T : Type} (c : Mutation T) {m : Mem T} {l : TList}
    {ns : List (Nat × T)} (h : Ring m l ns) :
    ∃ m1 l1 ns1, c.run m l = some (m1, l1) ∧ Ring m1 l1 ns1 ∧ FrameOf m m1 ns ∧
      ∀ a ∈ ns1.map Prod.fst, a ∈ ns.map Prod.fst ∨ m.length ≤ a := by
  have hcap : l.size ≤ MAX_SIZE := by rw [h.1]; exact h.2.1
  have hc : castInt l.size = (ns.length : Int) := by
    rw [h.1]; exact castInt_eq h.2.1
  have hsame : ∀ a ∈ ns.map Prod.fst, a ∈ ns.map Prod.fst ∨ m.length ≤ a :=
    fun a ha => Or.inl ha
  have hins : ∀ (k : Nat) (v : T),
      ∀ a ∈ (ns.take k ++ (m.length, v) :: ns.drop k).map Prod.fst,
        a ∈ ns.map Prod.fst ∨ m.length ≤ a := by
    intro k v a ha
    obtain ⟨n, hn, rfl⟩ := List.mem_map.mp ha
    rcases List.mem_append.mp hn with hn | hn
    · exact Or.inl (List.mem_map.mpr ⟨n, List.mem_of_mem_take hn, rfl⟩)
    · rcases List.mem_cons.mp hn with hn | hn
      · subst hn; exact Or.inr (Nat.le_refl _)
      · exact Or.inl (List.mem_map.mpr ⟨n, List.mem_of_mem_drop hn, rfl⟩)
  have hdel : ∀ (k : Nat),
      ∀ a ∈ (ns.take k ++ ns.drop (k + 1)).map Prod.fst,
        a ∈ ns.map Prod.fst ∨ m.length ≤ a := by
    intro k a ha
    obtain ⟨n, hn, rfl⟩ := List.mem_map.mp ha
    rcases List.mem_append.mp hn with hn | hn
    · exact Or.inl (List.mem_map.mpr ⟨n, List.mem_of_mem_take hn, rfl⟩)
    · exact Or.inl (List.mem_map.mpr ⟨n, List.mem_of_mem_drop hn, rfl⟩)
  have hfullthrow : ns.length = MAX_SIZE → IsFull l = true := by
    intro e
    simp [IsFull, h.1, e]
  have hadd : ∀ (v : T) (index : Int),
      ∃ m1 l1 ns1, (Add m l v index).state? = some (m1, l1) ∧ Ring m1 l1 ns1 ∧
        FrameOf m m1 ns ∧ ∀ a ∈ ns1.map Prod.fst, a ∈ ns.map Prod.fst ∨ m.length ≤ a := by
    intro v index
    by_cases hi : index < 0 ∨ index > castInt l.size
    · refine ⟨m, l, ns, ?_, h, FrameOf_refl m ns, hsame⟩
      unfold Add
      rw [if_pos hi]
      rfl
    · by_cases hfull : ns.length = MAX_SIZE
      · refine ⟨m, l, ns, ?_, h, FrameOf_refl m ns, hsame⟩
        unfold Add
        rw [if_neg hi]
        simp only [hfullthrow hfull, if_true]
        rfl
      · rw [hc] at hi
        have hk : index.toNat ≤ ns.length := by omega
        have e : ((index.toNat : Nat) : Int) = index := Int.toNat_of_nonneg (by omega)
        obtain ⟨m1, l1, h1, _, h3, h4⟩ :=
          Add_Ring h (by have := h.2.1; omega) v index.toNat hk
        rw [e] at h1
        exact ⟨m1, l1, _, by rw [h1]; rfl, h3, h4, hins _ v⟩
  have hrem : ∀ (index : Int),
      ∃ m1 l1 ns1, (Remove m l index).state? = some (m1, l1) ∧ Ring m1 l1 ns1 ∧
        FrameOf m m1 ns ∧ ∀ a ∈ ns1.map Prod.fst, a ∈ ns.map Prod.fst ∨ m.length ≤ a := by
    intro index
    by_cases hi : index < 0 ∨ index ≥ castInt l.size
    · refine ⟨m, l, ns, ?_, h, FrameOf_refl m ns, hsame⟩
      unfold Remove
      rw [if_pos hi]
      rfl
    · rw [hc] at hi
      have hk : index.toNat < ns.length := by omega
      have e : ((index.toNat : Nat) : Int) = index := Int.toNat_of_nonneg (by omega)
      obtain ⟨m1, l1, h1, _, h3, h4, _⟩ := Remove_Ring h index.toNat hk
      rw [e] at h1
      exact ⟨m1, l1, _, by rw [h1]; rfl, h3, h4, hdel _⟩
  cases c with
  | addStart v =>
    have := hadd v 0
    have e : Add m l v 0 = AddStart m l v := by
      by_cases hfull : ns.length = MAX_SIZE
      · have hf := hfullthrow hfull
        unfold Add AddStart
        rw [if_neg (by rw [hc]; omega)]
        simp only [hf, if_true]
      · have hf : IsFull l = false := by
          simp [IsFull, h.1]
          have := h.2.1
          omega
        unfold Add
        rw [if_neg (by rw [hc]; omega)]
        simp only [hf, Bool.false_eq_true, if_false, if_true]
    rw [e] at this
    exact this
  | addEnd v =>
    have := hadd v (ns.length : Int)
    have e : Add m l v (ns.length : Int) = AddEnd m l v := by
      by_cases hfull : ns.length = MAX_SIZE
      · have hf := hfullthrow hfull
        unfold Add AddEnd
        rw [if_neg (by rw [hc]; omega)]
        simp only [hf, if_true]
      · have hf : IsFull l = false := by
          simp [IsFull, h.1]
          have := h.2.1
          omega
        unfold Add
        rw [if_neg (by rw [hc]; omega)]
        simp only [hf, Bool.false_eq_true, if_false]
        by_cases h0 : ns.length = 0
        · have he : IsEmpty l = true := by simp [IsEmpty, h.1, h0]
          rw [if_pos (by omega)]
          unfold AddEnd
          simp only [hf, Bool.false_eq_true, if_false, he, if_true]
        · rw [if_neg (by omega), if_pos hc.symm]
    rw [e] at this
    exact this
  | add v index => exact hadd v index
  | removeStart =>
    by_cases h0 : ns.length = 0
    · refine ⟨m, l, ns, ?_, h, FrameOf_refl m ns, hsame⟩
      have he : IsEmpty l = true := by simp [IsEmpty, h.1, h0]
      show (RemoveStart m l).state? = _
      unfold RemoveStart
      simp only [he, if_true]
      rfl
    · have := hrem 0
      have e : Remove m l 0 = RemoveStart m l := by
        unfold Remove
        rw [if_neg (by rw [hc]; omega), if_pos rfl]
      rw [e] at this
      exact this
  | removeEnd =>
    by_cases h0 : ns.length = 0
    · refine ⟨m, l, ns, ?_, h, FrameOf_refl m ns, hsame⟩
      have he : IsEmpty l = true := by simp [IsEmpty, h.1, h0]
      show (RemoveEnd m l).state? = _
      unfold RemoveEnd
      simp only [he, if_true]
      rfl
    · have := hrem ((ns.length : Int) - 1)
      have e : Remove m l ((ns.length : Int) - 1) = RemoveEnd m l := by
        unfold Remove
        rw [if_neg (by rw [hc]; omega)]
        by_cases h1 : ns.length = 1
        · have hs1 : l.size = 1 := by rw [h.1, h1]
          have he : IsEmpty l = false := by simp [IsEmpty, hs1]
          rw [if_pos (by omega)]
          unfold RemoveEnd
          simp only [he, Bool.false_eq_true, if_false]
          rw [if_pos hs1]
        · rw [if_neg (by omega), if_pos (by rw [hc])]
      rw [e] at this
      exact this
  | remove index => exact hrem index

theorem mutate_Ring {T : Type} (cs : List (Mutation T)) {m : Mem T} {l l' : TList}
    {ns ns' : List (Nat × T)} (h : Ring m l ns) (h' : Ring m l' ns')
    (hd : ∀ a ∈ ns'.map Prod.fst, a ∉ ns.map Prod.fst) :
    ∃ m1 l1 ns1, mutate cs m l = some (m1, l1) ∧ Ring m1 l1 ns1 ∧ Ring m1 l' ns' := by
  induction cs generalizing m l ns with
  | nil => exact ⟨m, l, ns, rfl, h, h'⟩
  | cons c cs ih =>
    obtain ⟨m1, l1, ns1, h1, h2, h3, h4⟩ := Mutation_run_Ring c h
    have h'1 : Ring m1 l' ns' := Ring_frame h' h3 hd
    have hd1 : ∀ a ∈ ns'.map Prod.fst, a ∉ ns1.map Prod.fst := by
      intro a ha hmem
      rcases h4 a hmem with hx | hx
      · exact hd a ha hx
      · have := Ring_live h' a ha
        omega
    obtain ⟨m2, l2, ns2, h5, h6, h7⟩ := ih h2 h'1 hd1
    exact ⟨m2, l2, ns2, by simp [mutate, h1, h5], h6, h7⟩

/-! ## C9: the copy constructor -/

theorem copyLoop_spec {T : Type} (rest : List (Nat × T)) {m : Mem T} {self : TList}
    {nsS : List (Nat × T)} {p q : Nat} (hseg : seg m p rest q) (hself : Ring m self nsS)
    (hcap : nsS.length + rest.length ≤ MAX_SIZE)
    (hd : ∀ a ∈ rest.map Prod.fst, a ∉ nsS.map Prod.fst) :
    ∃ m1 self1 nsS1, copyLoop rest.length m self (some (firstAddr rest q)) =
        Res.ok () m1 self1 ∧
      Ring m1 self1 nsS1 ∧ nsS1.map Prod.snd = nsS.map Prod.snd ++ rest.map Prod.snd ∧
      FrameOf m m1 nsS ∧
      ∀ a ∈ nsS1.map Prod.fst, a ∈ nsS.map Prod.fst ∨ m.length ≤ a := by
  induction rest generalizing m self nsS p with
  | nil =>
    exact ⟨m, self, nsS, rfl, hself, by simp, FrameOf_refl m nsS, fun a ha => Or.inl ha⟩
  | cons n rest ih =>
    obtain ⟨hn, hrest⟩ := hseg
    have hlt : nsS.length < MAX_SIZE := by
      simp at hcap; omega
    obtain ⟨m1, self1, h1, _, h3, h4⟩ := AddEnd_Ring hself hlt n.2
    have hnl : n.1 < m.length := lt_of_read_eq_some hn
    have hnS : n.1 ∉ nsS.map Prod.fst := hd n.1 (by simp)
    have hrd : m1.read n.1 = m.read n.1 := h4.2 n.1 hnl hnS
    have hseg1 : seg m1 n.1 rest q := by
      refine seg_frame hrest ?_
      intro a ha
      exact h4.2 a (seg_live hrest a ha) (hd a (by simp; exact Or.inr (by simpa using ha)))
    have hd1 : ∀ a ∈ rest.map Prod.fst, a ∉ (nsS ++ [(m.length, n.2)]).map Prod.fst := by
      intro a ha hmem
      simp only [List.map_append, List.map_cons, List.map_nil, List.mem_append,
        List.mem_singleton] at hmem
      rcases hmem with hx | hx
      · exact hd a (by simp; exact Or.inr (by simpa using ha)) hx
      · have := seg_live hrest a ha
        omega
    obtain ⟨m2, self2, nsS2, h5, h6, h7, h8, h9⟩ :=
      ih hseg1 h3 (by simp at hcap ⊢; omega) hd1
    have hsub : ∀ a ∈ (nsS ++ [(m.length, n.2)]).map Prod.fst,
        a ∈ nsS.map Prod.fst ∨ m.length ≤ a := by
      intro a ha
      simp only [List.map_append, List.map_cons, List.map_nil, List.mem_append,
        List.mem_singleton] at ha
      rcases ha with hx | hx
      · exact Or.inl hx
      · exact Or.inr (by omega)
    refine ⟨m2, self2, nsS2, ?_, h6, ?_, FrameOf_trans h4 h8 hsub, ?_⟩
    · have hv : GetValue m (some n.1) = some n.2 := by simp [GetValue, hn]
      have hnx : GetNext m1 (some n.1) = some (some (firstAddr rest q)) := by
        simp [GetNext, hrd, hn]
      simp only [List.length_cons, copyLoop, firstAddr_cons, hv, h1, hnx]
      exact h5
    · rw [h7]
      simp
    · intro a ha
      rcases h9 a ha with hx | hx
      · exact hsub a hx
      · exact Or.inr (Nat.le_trans h4.1 hx)

theorem copyCtor_Ring {T : Type} {m : Mem T} {other : TList} {ns : List (Nat × T)}
    (h : Ring m other ns) :
    ∃ m1 self ns1, copyCtor m other = Res.ok () m1 self ∧ Ring m1 self ns1 ∧
      ns1.map Prod.snd = ns.map Prod.snd ∧ Ring m1 other ns ∧
      ∀ a ∈ ns.map Prod.fst, a ∉ ns1.map Prod.fst := by
  by_cases hne : ns = []
  · subst hne
    have ho := (Ring_nil_iff m other).mp h
    subst ho
    exact ⟨m, ⟨none, 0⟩, [], rfl, (Ring_nil_iff m _).mpr rfl, rfl, h, by simp⟩
  · have hself : Ring m ⟨none, 0⟩ ([] : List (Nat × T)) := (Ring_nil_iff m _).mpr rfl
    obtain ⟨m1, self1, ns1, h1, h2, h3, h4, h5⟩ :=
      copyLoop_spec ns h.2.2.2.2 hself (by simpa using h.2.1) (by simp)
    have hh : other.head = some (firstAddr ns (firstAddr ns 0)) := by
      rw [h.2.2.1, head?_eq_firstAddr ns _ hne]
    refine ⟨m1, self1, ns1, ?_, h2, by simpa using h3, Ring_frame h h4 (by simp), ?_⟩
    · unfold copyCtor
      rw [if_pos (by rw [hh]; simp), h.1, hh]
      exact h1
    · intro a ha hmem
      rcases h5 a hmem with hx | hx
      · simp at hx
      · have := Ring_live h a ha
        omega

/-- C9: the copy `B = TList(A)` of a well-formed list `A` is constructed
without exception, has the size of `A`, holds the same values at every index
and compares equal to `A`, while `A` is as it was; and after that, any sequence
of `AddStart`, `AddEnd`, `Add`, `RemoveStart`, `RemoveEnd` and `Remove` calls
on `B` leaves `A` holding its values, and any such sequence on `A` leaves `B`
holding them. -/
theorem C9_copy_independent {T : Type} [DecidableEq T] (m : Mem T) (A : TList)
    (xs : List T) (h : Holds m A xs) :
    ∃ m1 B, copyCtor m A = Res.ok () m1 B ∧ GetSize B = GetSize A ∧
      Holds m1 A xs ∧ Holds m1 B xs ∧ opEq m1 A B = some true ∧
      (∀ (i : Nat) (hi : i < xs.length),
        readAt m1 A (i : Int) = Res.ok xs[i] m1 A ∧
        readAt m1 B (i : Int) = Res.ok xs[i] m1 B) ∧
      (∀ cs : List (Mutation T), ∃ m2 B2 ys,
        mutate cs m1 B = some (m2, B2) ∧ Holds m2 B2 ys ∧ Holds m2 A xs) ∧
      (∀ cs : List (Mutation T), ∃ m2 A2 ys,
        mutate cs m1 A = some (m2, A2) ∧ Holds m2 A2 ys ∧ Holds m2 B xs) := by
  obtain ⟨ns, hr, hx⟩ := h
  obtain ⟨m1, B, ns1, h1, h2, h3, h4, h5⟩ := copyCtor_Ring hr
  have hA : Holds m1 A xs := ⟨ns, h4, hx⟩
  have hB : Holds m1 B xs := ⟨ns1, h2, by rw [h3, hx]⟩
  refine ⟨m1, B, h1, ?_, hA, hB, ?_, ?_, ?_, ?_⟩
  · simp [GetSize, Holds_size hA, Holds_size hB]
  · rw [opEq_Ring h4 h2, h3]
    simp
  · exact fun i hi => ⟨Holds_index hA i hi, Holds_index hB i hi⟩
  · intro cs
    obtain ⟨m2, B2, ns2, e1, e2, e3⟩ := mutate_Ring cs h2 h4 h5
    exact ⟨m2, B2, _, e1, ⟨ns2, e2, rfl⟩, ⟨ns, e3, hx⟩⟩
  · intro cs
    have hd : ∀ a ∈ ns1.map Prod.fst, a ∉ ns.map Prod.fst :=
      fun a ha hmem => h5 a hmem ha
    obtain ⟨m2, A2, ns2, e1, e2, e3⟩ := mutate_Ring cs h4 h2 hd
    exact ⟨m2, A2, _, e1, ⟨ns2, e2, rfl⟩, ⟨ns1, e3, by rw [h3, hx]⟩⟩

/-- C9 at the list `[1, 2, 3]`: the copy is equal, and `AddEnd(4)` then
`RemoveStart()` on the copy leave the original holding `[1, 2, 3]`. -/
theorem C9_copy_independent_witness :
    Holds mem123 list123 [1, 2, 3] ∧
      ∃ m1 B, copyCtor mem123 list123 = Res.ok () m1 B ∧ GetSize B = 3 ∧
        opEq m1 list123 B = some true ∧
        ∃ m2 B2 ys, mutate [Mutation.addEnd 4, Mutation.removeStart] m1 B = some (m2, B2) ∧
          Holds m2 B2 ys ∧ Holds m2 list123 [1, 2, 3] :=
  have hH : Holds mem123 list123 [1, 2, 3] := ⟨nodes123, by decide, rfl⟩
  ⟨hH, (C9_copy_independent mem123 list123 [1, 2, 3] hH).elim fun m1 e => e.elim fun B e =>
    ⟨m1, B, e.1, e.2.1, e.2.2.2.2.1,
      e.2.2.2.2.2.2.1 [Mutation.addEnd 4, Mutation.removeStart]⟩⟩

/-! ## C10: move construction and move assignment -/

theorem decSize_lt {n : Nat} (h : 0 < n) : decSize n < n := by
  unfold decSize SIZE_MOD
  omega

theorem RemoveStart_size_lt {T : Type} {m m1 : Mem T} {l l1 : TList} {v : T}
    (h : RemoveStart m l = Res.ok v m1 l1) : l1.size < l.size := by
  unfold RemoveStart at h
  by_cases he : IsEmpty l = true
  · rw [if_pos he] at h
    exact Res.noConfusion h
  · rw [if_neg he] at h
    have hpos : 0 < l.size := by
      simp [IsEmpty] at he
      omega
    cases hv : GetValue m l.head with
    | none =>
      rw [hv] at h
      exact Res.noConfusion h
    | some value =>
      rw [hv] at h
      simp only [Option.bind_eq_bind, Option.some_bind] at h
      by_cases h1 : l.size = 1
      · rw [if_pos h1] at h
        cases hd : delete m l.head with
        | none =>
          rw [hd] at h
          exact Res.noConfusion h
        | some m2 =>
          rw [hd] at h
          simp only [Option.some_bind, Res.ofOption, pure] at h
          injection h with _ _ hl
          rw [← hl]
          exact decSize_lt hpos
      · rw [if_neg h1] at h
        cases hn : GetNext m l.head with
        | none =>
          rw [hn] at h
          exact Res.noConfusion h
        | some newHead =>
          cases hp : GetPrev m l.head with
          | none =>
            rw [hn, hp] at h
            exact Res.noConfusion h
          | some tail =>
            cases hs1 : SetNext m tail newHead with
            | none =>
              rw [hn, hp] at h
              simp only [Option.some_bind, hs1] at h
              exact Res.noConfusion h
            | some m2 =>
              cases hs2 : SetPrev m2 newHead tail with
              | none =>
                rw [hn, hp] at h
                simp only [Option.some_bind, hs1, hs2] at h
                exact Res.noConfusion h
              | some m3 =>
                cases hd : delete m3 l.head with
                | none =>
                  rw [hn, hp] at h
                  simp only [Option.some_bind, hs1, hs2, hd] at h
                  exact Res.noConfusion h
                | some m4 =>
                  rw [hn, hp] at h
                  simp only [Option.some_bind, hs1, hs2, hd, Res.ofOption, pure] at h
                  injection h with _ _ hl
                  rw [← hl]
                  exact decSize_lt hpos

/-- On every memory and object, `fuel >= size` iterations are enough for the
loop `while (size > 0) { RemoveStart(); }` to end. -/
theorem clearLoop_enough {T : Type} (fuel : Nat) (m : Mem T) (l : TList)
    (h : l.size ≤ fuel) : ∃ r, clearLoop fuel m l = some r := by
  induction fuel generalizing m l with
  | zero =>
    have h0 : ¬ l.size > 0 := by omega
    exact ⟨Res.ok () m l, by simp only [clearLoop, if_neg h0]⟩
  | succ fuel ih =>
    by_cases hpos : l.size > 0
    · simp only [clearLoop, if_pos hpos]
      cases hr : RemoveStart m l with
      | ok v m1 l1 =>
        have := RemoveStart_size_lt hr
        exact ih m1 l1 (by omega)
      | throw e m1 l1 => exact ⟨_, rfl⟩
      | fault => exact ⟨_, rfl⟩
    · exact ⟨Res.ok () m l, by simp only [clearLoop, if_neg hpos]⟩

theorem clearLoop_Ring {T : Type} (ns : List (Nat × T)) {m : Mem T} {l : TList}
    (h : Ring m l ns) :
    ∃ m1, clearLoop ns.length m l = some (Res.ok () m1 ⟨none, 0⟩) ∧ FrameOf m m1 ns ∧
      ∀ a ∈ ns.map Prod.fst, m1.read a = none := by
  induction ns generalizing m l with
  | nil =>
    have hl := (Ring_nil_iff m l).mp h
    subst hl
    exact ⟨m, rfl, FrameOf_refl m [], by simp⟩
  | cons c ns ih =>
    obtain ⟨m1, l1, h1, _, h3, h4, h5⟩ := RemoveStart_Ring h
    obtain ⟨m2, h6, h7, h8⟩ := ih h3
    have hpos : l.size > 0 := by rw [h.1]; simp
    have hcl : c.1 < m.length := Ring_live h c.1 (by simp)
    have hnd : c.1 ∉ ns.map Prod.fst := by
      have := h.2.2.2.1
      rw [List.map_cons, List.nodup_cons] at this
      exact this.1
    refine ⟨m2, ?_, ?_, ?_⟩
    · simp only [List.length_cons, clearLoop, if_pos hpos, h1]
      exact h6
    · refine FrameOf_trans h4 h7 ?_
      intro a ha
      exact Or.inl (by simp only [List.map_cons, List.mem_cons]; exact Or.inr ha)
    · intro a ha
      simp only [List.map_cons, List.mem_cons] at ha
      rcases ha with rfl | ha
      · rw [h7.2 _ (Nat.lt_of_lt_of_le hcl h4.1) hnd, h5]
      · exact h8 a ha

theorem clear_Ring {T : Type} {m : Mem T} {l : TList} {ns : List (Nat × T)}
    (h : Ring m l ns) :
    ∃ m1, clear m l = Res.ok () m1 ⟨none, 0⟩ ∧ FrameOf m m1 ns ∧
      ∀ a ∈ ns.map Prod.fst, m1.read a = none := by
  obtain ⟨m1, h1, h2, h3⟩ := clearLoop_Ring ns h
  refine ⟨m1, ?_, h2, h3⟩
  unfold clear
  rw [h.1, h1]
  rfl

/-- C10: with `A` and `B` two well-formed lists sharing no node, the list
move-constructed from `A`, and `B` after the move assignment `B = move(A)`,
have the former size of `A` and the former elements of `A` at the same
indices; `A` is left with size 0, `IsEmpty()` true and `IsFull()` false; and
the move assignment deletes every node `B` had. -/
theorem C10_move {T : Type} (m : Mem T) (A B : TList) (xs ys : List T)
    (h : Holds2 m A xs B ys) :
    (Holds m (moveCtor A).1 xs ∧ GetSize (moveCtor A).1 = GetSize A ∧
      (∀ (i : Nat) (hi : i < xs.length),
        readAt m A (i : Int) = Res.ok xs[i] m A ∧
        readAt m (moveCtor A).1 (i : Int) = Res.ok xs[i] m (moveCtor A).1) ∧
      GetSize (moveCtor A).2 = 0 ∧ IsEmpty (moveCtor A).2 = true ∧
      IsFull (moveCtor A).2 = false ∧ Holds m (moveCtor A).2 []) ∧
    (∃ m1 B1 A1, moveAssign m B A = Res.ok A1 m1 B1 ∧
      Holds m1 B1 xs ∧ GetSize B1 = GetSize A ∧
      (∀ (i : Nat) (hi : i < xs.length),
        readAt m A (i : Int) = Res.ok xs[i] m A ∧
        readAt m1 B1 (i : Int) = Res.ok xs[i] m1 B1) ∧
      GetSize A1 = 0 ∧ IsEmpty A1 = true ∧ IsFull A1 = false ∧ Holds m1 A1 [] ∧
      (∀ (j : Nat) (a : Nat), indexRef m B (j : Int) = Res.ok a m B → m1.read a = none)) := by
  obtain ⟨nsA, nsB, hA, hx, hB, hy, hd⟩ := h
  have hHA : Holds m A xs := ⟨nsA, hA, hx⟩
  have hAeq : (⟨A.head, A.size⟩ : TList) = A := rfl
  constructor
  · refine ⟨?_, rfl, ?_, rfl, rfl, ?_, Holds_empty m⟩
    · show Holds m ⟨A.head, A.size⟩ xs
      rw [hAeq]; exact hHA
    · intro i hi
      refine ⟨Holds_index hHA i hi, ?_⟩
      show readAt m ⟨A.head, A.size⟩ (i : Int) = Res.ok xs[i] m ⟨A.head, A.size⟩
      rw [hAeq]; exact Holds_index hHA i hi
    · simp [moveCtor, IsFull, MAX_SIZE]
  · obtain ⟨m1, h1, h2, h3⟩ := clear_Ring hB
    have hA1 : Ring m1 A nsA := Ring_frame hA h2 hd
    have hHA1 : Holds m1 A xs := ⟨nsA, hA1, hx⟩
    refine ⟨m1, ⟨A.head, A.size⟩, ⟨none, 0⟩, ?_, ?_, rfl, ?_, rfl, rfl, ?_, Holds_empty m1, ?_⟩
    · unfold moveAssign
      rw [h1]
    · rw [hAeq]; exact hHA1
    · intro i hi
      refine ⟨Holds_index hHA i hi, ?_⟩
      rw [hAeq]; exact Holds_index hHA1 i hi
    · simp [IsFull, MAX_SIZE]
    · intro j a hj
      by_cases hjl : j < nsB.length
      · rw [indexRef_Ring hB j hjl] at hj
        have ha : nsB[j].1 = a := by injection hj
        rw [← ha]
        exact h3 _ (List.mem_map.mpr ⟨nsB[j], List.getElem_mem _, rfl⟩)
      · have := (index_out_of_range hB (j : Int) (Or.inr (by omega))).2.1
        rw [this] at hj
        exact Res.noConfusion hj

/-- C10 at the lists `[1, 2, 3]` and `[7]` of one memory: moving the first into
the second deletes the node of 7 and leaves the target holding `[1, 2, 3]`. -/
theorem C10_move_witness :
    Holds2 mem123and7 list123 [1, 2, 3] list7 [7] ∧
      GetSize (moveCtor list123).1 = 3 ∧ IsEmpty (moveCtor list123).2 = true ∧
      ∃ m1 B1 A1, moveAssign mem123and7 list7 list123 = Res.ok A1 m1 B1 ∧
        Holds m1 B1 [1, 2, 3] ∧ GetSize A1 = 0 ∧ m1.read 3 = none :=
  have hH : Holds2 mem123and7 list123 [1, 2, 3] list7 [7] :=
    ⟨nodes123, [(3, 7)], by decide, rfl, by decide, rfl, by decide⟩
  have hT := C10_move mem123and7 list123 list7 [1, 2, 3] [7] hH
  ⟨hH, hT.1.2.1, hT.1.2.2.2.2.1,
    hT.2.elim fun m1 e => e.elim fun B1 e => e.elim fun A1 e =>
      ⟨m1, B1, A1, e.1, e.2.1, e.2.2.2.2.1, e.2.2.2.2.2.2.2.2 0 3 (by decide)⟩⟩

/-! ## C11: concatenation -/

/-- The copy constructor touches no existing cell and builds the copy from
fresh nodes. -/
theorem copyCtor_fresh {T : Type} {m : Mem T} {other : TList} {ns : List (Nat × T)}
    (h : Ring m other ns) :
    ∃ m1 self ns1, copyCtor m other = Res.ok () m1 self ∧ Ring m1 self ns1 ∧
      ns1.map Prod.snd = ns.map Prod.snd ∧ FrameOf m m1 ([] : List (Nat × T)) ∧
      ∀ a ∈ ns1.map Prod.fst, m.length ≤ a := by
  by_cases hne : ns = []
  · subst hne
    have ho := (Ring_nil_iff m other).mp h
    subst ho
    exact ⟨m, ⟨none, 0⟩, [], rfl, (Ring_nil_iff m _).mpr rfl, rfl, FrameOf_refl m [],
      by simp⟩
  · have hself : Ring m ⟨none, 0⟩ ([] : List (Nat × T)) := (Ring_nil_iff m _).mpr rfl
    obtain ⟨m1, self1, ns1, h1, h2, h3, h4, h5⟩ :=
      copyLoop_spec ns h.2.2.2.2 hself (by simpa using h.2.1) (by simp)
    have hh : other.head = some (firstAddr ns (firstAddr ns 0)) := by
      rw [h.2.2.1, head?_eq_firstAddr ns _ hne]
    refine ⟨m1, self1, ns1, ?_, h2, by simpa using h3, h4, ?_⟩
    · unfold copyCtor
      rw [if_pos (by rw [hh]; simp), h.1, hh]
      exact h1
    · intro a ha
      rcases h5 a ha with hx | hx
      · simp at hx
      · exact hx

theorem Ring_frame_nil {T : Type} {m m1 : Mem T} {l : TList} {ns : List (Nat × T)}
    (h : Ring m l ns) (hf : FrameOf m m1 ([] : List (Nat × T))) : Ring m1 l ns :=
  Ring_frame h hf (by simp)

theorem destroy_Ring {T : Type} {m : Mem T} {l : TList} {ns : List (Nat × T)}
    (h : Ring m l ns) :
    ∃ m1, destroy m l = some m1 ∧ FrameOf m m1 ns ∧
      ∀ a ∈ ns.map Prod.fst, m1.read a = none := by
  obtain ⟨m1, h1, h2, h3⟩ := clear_Ring h
  exact ⟨m1, by simp [destroy, h1], h2, h3⟩

theorem opPlus_Ring {T : Type} {m : Mem T} {A B : TList} {nsA nsB : List (Nat × T)}
    (hA : Ring m A nsA) (hB : Ring m B nsB) :
    (nsA.length + nsB.length > MAX_SIZE →
      ∃ m1, opPlus m A B = Res.throw Exc.overflow_error m1 A ∧
        Ring m1 A nsA ∧ Ring m1 B nsB) ∧
    (nsA.length + nsB.length ≤ MAX_SIZE →
      ∃ m1 R nsR, opPlus m A B = Res.ok R m1 A ∧ Ring m1 R nsR ∧
        nsR.map Prod.snd = nsA.map Prod.snd ++ nsB.map Prod.snd ∧
        Ring m1 A nsA ∧ Ring m1 B nsB) := by
  obtain ⟨m1, R, ns1, h1, h2, h3, h4, h5⟩ := copyCtor_fresh hA
  have hA1 : Ring m1 A nsA := Ring_frame_nil hA h4
  have hB1 : Ring m1 B nsB := Ring_frame_nil hB h4
  have hlen : ns1.length = nsA.length := by
    have := congrArg List.length h3
    simpa using this
  have hdA : ∀ a ∈ nsA.map Prod.fst, a ∉ ns1.map Prod.fst := by
    intro a ha hmem
    have := Ring_live hA a ha
    have := h5 a hmem
    omega
  have hdB : ∀ a ∈ nsB.map Prod.fst, a ∉ ns1.map Prod.fst := by
    intro a ha hmem
    have := Ring_live hB a ha
    have := h5 a hmem
    omega
  have hsum : (R.size + B.size) % SIZE_MOD = nsA.length + nsB.length := by
    rw [h2.1, hB.1, hlen]
    have := hA.2.1
    have := hB.2.1
    unfold MAX_SIZE at *
    unfold SIZE_MOD
    omega
  constructor
  · intro hgt
    obtain ⟨m2, d1, d2, _⟩ := destroy_Ring h2
    refine ⟨m2, ?_, Ring_frame hA1 d2 hdA, Ring_frame hB1 d2 hdB⟩
    unfold opPlus
    simp only [h1]
    rw [if_pos (by rw [hsum]; exact hgt)]
    simp only [d1]
  · intro hle
    by_cases hB0 : nsB = []
    · subst hB0
      refine ⟨m1, R, ns1, ?_, h2, by simpa using h3, hA1, hB1⟩
      have hs0 : B.size = 0 := by simpa using hB.1
      unfold opPlus
      simp only [h1]
      rw [if_neg (by rw [hsum]; omega), if_neg (by omega)]
    · have hpos : B.size > 0 := by
        rw [hB.1]
        exact List.length_pos.mpr hB0
      have hh : B.head = some (firstAddr nsB (firstAddr nsB 0)) := by
        rw [hB.2.2.1, head?_eq_firstAddr nsB _ hB0]
      obtain ⟨m2, R2, nsR, c1, c2, c3, c4, _⟩ :=
        copyLoop_spec nsB hB1.2.2.2.2 h2 (by omega) hdB
      refine ⟨m2, R2, nsR, ?_, c2, by rw [c3, h3], Ring_frame hA1 c4 hdA,
        Ring_frame hB1 c4 hdB⟩
      unfold opPlus
      simp only [h1]
      rw [if_neg (by rw [hsum]; omega), if_pos hpos, hB.1, hh, c1]

/-- C11: for well-formed lists `A` and `B` (of one memory; they may be the same
list), `A + B` throws `overflow_error` exactly when `|A| + |B| > MAX_SIZE`;
otherwise it returns a well-formed list of size `|A| + |B|` whose element at
index `i < |A|` is `A[i]` and at index `|A| + j`, `j < |B|`, is `B[j]`, so that
it compares equal to `B` when `A` is empty and to `A` when `B` is empty; in
both cases `A` and `B` hold afterwards what they held before. -/
theorem C11_concatenation {T : Type} [DecidableEq T] (m : Mem T) (A B : TList)
    (xs ys : List T) (hA : Holds m A xs) (hB : Holds m B ys) :
    (GetSize A + GetSize B > MAX_SIZE →
      ∃ m1, opPlus m A B = Res.throw Exc.overflow_error m1 A ∧
        Holds m1 A xs ∧ Holds m1 B ys) ∧
    (GetSize A + GetSize B ≤ MAX_SIZE →
      ∃ m1 R, opPlus m A B = Res.ok R m1 A ∧ Holds m1 R (xs ++ ys) ∧
        GetSize R = GetSize A + GetSize B ∧
        (∀ (i : Nat) (hi : i < xs.length),
          readAt m A (i : Int) = Res.ok xs[i] m A ∧
          readAt m1 R (i : Int) = Res.ok xs[i] m1 R) ∧
        (∀ (j : Nat) (hj : j < ys.length),
          readAt m B (j : Int) = Res.ok ys[j] m B ∧
          readAt m1 R ((GetSize A : Int) + (j : Int)) = Res.ok ys[j] m1 R) ∧
        (GetSize A = 0 → opEq m1 R B = some true) ∧
        (GetSize B = 0 → opEq m1 R A = some true) ∧
        Holds m1 A xs ∧ Holds m1 B ys) ∧
    ((opPlus m A B).exc? = some Exc.overflow_error ↔ GetSize A + GetSize B > MAX_SIZE) := by
  have hsA := Holds_size hA
  have hsB := Holds_size hB
  obtain ⟨nsA, rA, eA⟩ := hA
  obtain ⟨nsB, rB, eB⟩ := hB
  have hlA : nsA.length = xs.length := by rw [← eA]; simp
  have hlB : nsB.length = ys.length := by rw [← eB]; simp
  obtain ⟨hthrow, hok⟩ := opPlus_Ring rA rB
  have p1 : GetSize A + GetSize B > MAX_SIZE →
      ∃ m1, opPlus m A B = Res.throw Exc.overflow_error m1 A ∧
        Holds m1 A xs ∧ Holds m1 B ys := by
    intro hgt
    simp only [GetSize, hsA, hsB] at hgt
    obtain ⟨m1, h1, h2, h3⟩ := hthrow (by omega)
    exact ⟨m1, h1, ⟨nsA, h2, eA⟩, ⟨nsB, h3, eB⟩⟩
  have p2 : GetSize A + GetSize B ≤ MAX_SIZE →
      ∃ m1 R, opPlus m A B = Res.ok R m1 A ∧ Holds m1 R (xs ++ ys) ∧
        Holds m1 A xs ∧ Holds m1 B ys := by
    intro hle
    simp only [GetSize, hsA, hsB] at hle
    obtain ⟨m1, R, nsR, h1, h2, h3, h4, h5⟩ := hok (by omega)
    exact ⟨m1, R, h1, ⟨nsR, h2, by rw [h3, eA, eB]⟩, ⟨nsA, h4, eA⟩, ⟨nsB, h5, eB⟩⟩
  refine ⟨p1, ?_, ?_⟩
  · intro hle
    obtain ⟨m1, R, h1, hR, hA1, hB1⟩ := p2 hle
    have hsR := Holds_size hR
    refine ⟨m1, R, h1, hR, ?_, ?_, ?_, ?_, ?_, hA1, hB1⟩
    · simp [GetSize, hsR, hsA, hsB]
    · intro i hi
      refine ⟨Holds_index ⟨nsA, rA, eA⟩ i hi, ?_⟩
      apply Holds_index_of_getElem? hR
      rw [List.getElem?_append_left hi]
      exact List.getElem?_eq_getElem hi
    · intro j hj
      refine ⟨Holds_index ⟨nsB, rB, eB⟩ j hj, ?_⟩
      have := Holds_index_of_getElem? hR (xs.length + j) ys[j] (by
        rw [List.getElem?_append_right (by omega)]
        simp [List.getElem?_eq_getElem hj])
      simpa [GetSize, hsA] using this
    · intro h0
      have hx : xs = [] := List.length_eq_zero.mp (by simpa [GetSize, hsA] using h0)
      subst hx
      obtain ⟨nsR, rR, eR⟩ := hR
      obtain ⟨nsB1, rB1, eB1⟩ := hB1
      rw [opEq_Ring rR rB1, eR, eB1]
      simp
    · intro h0
      have hy : ys = [] := List.length_eq_zero.mp (by simpa [GetSize, hsB] using h0)
      subst hy
      obtain ⟨nsR, rR, eR⟩ := hR
      obtain ⟨nsA1, rA1, eA1⟩ := hA1
      rw [opEq_Ring rR rA1, eR, eA1]
      simp
  · constructor
    · intro he
      by_contra hgt
      obtain ⟨m1, R, h1, _⟩ := p2 (by omega)
      rw [h1] at he
      simp [Res.exc?] at he
    · intro hgt
      obtain ⟨m1, h1, _⟩ := p1 hgt
      rw [h1]
      rfl

/-- C11 at `[1, 2, 3] + [1, 2, 3]` and at `[] + [1, 2, 3]`. -/
theorem C11_concatenation_witness :
    Holds mem123 list123 [1, 2, 3] ∧
      (∃ m1 R, opPlus mem123 list123 list123 = Res.ok R m1 list123 ∧
        Holds m1 R [1, 2, 3, 1, 2, 3] ∧ Holds m1 list123 [1, 2, 3]) ∧
      (∃ m1 R, opPlus mem123 empty list123 = Res.ok R m1 empty ∧
        opEq m1 R list123 = some true) :=
  have hH : Holds mem123 list123 [1, 2, 3] := ⟨nodes123, by decide, rfl⟩
  have hT := C11_concatenation mem123 list123 list123 [1, 2, 3] [1, 2, 3] hH hH
  have hE := C11_concatenation mem123 empty list123 [] [1, 2, 3] (Holds_empty _) hH
  ⟨hH,
    (hT.2.1 (by decide)).elim fun m1 e => e.elim fun R e =>
      ⟨m1, R, e.1, e.2.1, e.2.2.2.2.2.2.2.1⟩,
    (hE.2.1 (by decide)).elim fun m1 e => e.elim fun R e =>
      ⟨m1, R, e.1, e.2.2.2.2.2.1 rfl⟩⟩

/-! ## C12: textual rendering -/

theorem joinWith_cons_append (sep x y : String) (rest : List String) :
    joinWith sep ((x ++ y) :: rest) = x ++ joinWith sep (y :: rest) := by
  cases rest with
  | nil => rfl
  | cons b rest => simp [joinWith, String.append_assoc]

theorem intercalate_go_eq (sep acc : String) (rest : List String) :
    String.intercalate.go acc sep rest = joinWith sep (acc :: rest) := by
  induction rest generalizing acc with
  | nil => rfl
  | cons b rest ih =>
    rw [String.intercalate.go, ih, String.append_assoc, joinWith_cons_append,
      joinWith_cons_append]
    simp [joinWith, String.append_assoc]

theorem intercalate_eq_joinWith (sep : String) (parts : List String) :
    String.intercalate sep parts = joinWith sep parts := by
  cases parts with
  | nil => rfl
  | cons a rest => exact intercalate_go_eq sep a rest

theorem outLoop_seg {T : Type} (render : T → String) {m : Mem T} {p q : Nat}
    {ns : List (Nat × T)} (h : seg m p ns q) (hne : ns ≠ []) (size i : Nat)
    (hsz : i + ns.length = size) (hcap : size ≤ MAX_SIZE) (os : String) :
    outLoop render m size ns.length i (some (firstAddr ns q)) os =
      some (os ++ joinWith " <-> " (ns.map (fun n => render n.2))) := by
  induction ns generalizing p i os with
  | nil => exact absurd rfl hne
  | cons n rest ih =>
    obtain ⟨h1, h2⟩ := h
    have hv : GetValue m (some n.1) = some n.2 := by simp [GetValue, h1]
    have hn : GetNext m (some n.1) = some (some (firstAddr rest q)) := by
      simp [GetNext, h1]
    have hdec : decSize size = size - 1 :=
      decSize_eq hcap (by simp at hsz; omega)
    cases rest with
    | nil =>
      have hi : ¬ i < decSize size := by
        rw [hdec]; simp at hsz; omega
      rw [show ([n] : List (Nat × T)).length = 0 + 1 from rfl, outLoop]
      simp only [firstAddr_cons, hv, hn, if_neg hi, outLoop]
      rfl
    | cons n2 rest =>
      have hi : i < decSize size := by
        rw [hdec]; simp at hsz; omega
      have ih' := ih h2 (by simp) (i + 1) (by simp at hsz ⊢; omega)
        (os ++ render n.2 ++ " <-> ")
      rw [show (n :: n2 :: rest).length = (n2 :: rest).length + 1 from rfl, outLoop]
      simp only [firstAddr_cons, hv, hn, if_pos hi]
      rw [firstAddr_cons] at ih'
      rw [ih']
      simp [joinWith, String.append_assoc]

theorem opOut_Ring {T : Type} (render : T → String) {m : Mem T} {l : TList}
    {ns : List (Nat × T)} (h : Ring m l ns) (os : String) :
    opOut render m l os =
      Res.ok (os ++ "[" ++ joinWith " <-> " (ns.map (fun n => render n.2)) ++ "]") m l := by
  unfold opOut
  by_cases hne : ns = []
  · subst hne
    have he : IsEmpty l = true := by simp [IsEmpty, h.1]
    simp only [he, if_true, List.map_nil, joinWith, String.append_empty]
    rw [String.append_assoc]
    rfl
  · have he : IsEmpty l = false := by
      simp [IsEmpty, h.1]
      exact hne
    have hh : l.head = some (firstAddr ns (firstAddr ns 0)) := by
      rw [h.2.2.1, head?_eq_firstAddr ns _ hne]
    have hl := outLoop_seg render h.2.2.2.2 hne l.size 0 (by rw [h.1]; simp)
      (by rw [h.1]; exact h.2.1) (os ++ "[")
    simp only [he, Bool.false_eq_true, if_false]
    rw [h.1] at hl ⊢
    rw [hh, hl]

/-- C12: for a well-formed list, `os << list` writes exactly `[`, then the
renderings of the elements in index order with ` <-> ` between consecutive
ones, then `]`; so `[]` for the empty list and `[v0]`, without separator, for a
list of one element; memory and list are as before. -/
theorem C12_rendering {T : Type} (render : T → String) (m : Mem T) (l : TList)
    (xs : List T) (os : String) (h : Holds m l xs) :
    opOut render m l os =
      Res.ok (os ++ "[" ++ String.intercalate " <-> " (xs.map render) ++ "]") m l ∧
    (xs = [] → opOut render m l os = Res.ok (os ++ "[]") m l) ∧
    (∀ x, xs = [x] → opOut render m l os = Res.ok (os ++ "[" ++ render x ++ "]") m l) := by
  obtain ⟨ns, hr, hx⟩ := h
  have hmap : ns.map (fun n => render n.2) = xs.map render := by
    rw [← hx, List.map_map]
    rfl
  have hmain := opOut_Ring render hr os
  rw [hmap] at hmain
  refine ⟨by rw [intercalate_eq_joinWith]; exact hmain, ?_, ?_⟩
  · intro he
    rw [hmain, he]
    simp only [List.map_nil, joinWith, String.append_empty]
    rw [String.append_assoc]
    rfl
  · intro x he
    rw [hmain, he]
    rfl

/-- C12 at the list `[1, 2, 3]`, which renders as `[1 <-> 2 <-> 3]`, and at the
empty list. -/
theorem C12_rendering_witness :
    Holds mem123 list123 [1, 2, 3] ∧
      opOut (fun n : Nat => toString n) mem123 list123 "" =
        Res.ok "[1 <-> 2 <-> 3]" mem123 list123 ∧
      opOut (fun n : Nat => toString n) ([] : Mem Nat) empty "" = Res.ok "[]" [] empty :=
  have hH : Holds mem123 list123 [1, 2, 3] := ⟨nodes123, by decide, rfl⟩
  ⟨hH, (C12_rendering (fun n : Nat => toString n) mem123 list123 [1, 2, 3] "" hH).1,
    (C12_rendering (fun n : Nat => toString n) ([] : Mem Nat) empty [] ""
      (Holds_empty _)).2.1 rfl⟩

/-! ## C13: textual parse -/

theorem clear_Holds {T : Type} {m : Mem T} {l : TList} {ns : List (Nat × T)}
    (h : Ring m l ns) :
    ∃ m1, clear m l = Res.ok () m1 empty ∧ Holds m1 empty ([] : List T) ∧
      ∀ a ∈ ns.map Prod.fst, m1.read a = none := by
  obtain ⟨m1, h1, _, h3⟩ := clear_Ring h
  exact ⟨m1, h1, Holds_empty m1, h3⟩

/-- The reading loop on an input of parseable values that fit, followed by
the end of the input or by a token that does not parse. -/
theorem readLoop_ok {T : Type} (vs : List T) (tail : List (Option T))
    (htail : tail = [] ∨ ∃ r, tail = none :: r) {m : Mem T} {l : TList} {xs : List T}
    (h : Holds m l xs) (hlen : xs.length + vs.length ≤ MAX_SIZE) :
    ∃ m1 l1, readLoop (vs.map some ++ tail) m l = Res.ok tail m1 l1 ∧
      Holds m1 l1 (xs ++ vs) := by
  induction vs generalizing m l xs with
  | nil =>
    refine ⟨m, l, ?_, by simpa using h⟩
    rcases htail with rfl | ⟨r, rfl⟩
    · rfl
    · rfl
  | cons v vs ih =>
    have hlt : l.size < MAX_SIZE := by
      rw [Holds_size h]
      simp at hlen
      omega
    have hfull : IsFull l = false := by
      simp [IsFull]; exact hlt
    obtain ⟨m1, l1, h1, h2⟩ := AddEnd_Holds h hlt v
    obtain ⟨m2, l2, h3, h4⟩ := ih h2 (by simp at hlen ⊢; omega)
    refine ⟨m2, l2, ?_, by simpa using h4⟩
    simp only [List.map_cons, List.cons_append, readLoop, hfull, Bool.false_eq_true,
      if_false, h1]
    exact h3

/-- The reading loop on an input with one parseable value more than fits. -/
theorem readLoop_overflow {T : Type} (vs : List T) (v : T) (rest : List (Option T))
    {m : Mem T} {l : TList} {xs : List T}
    (h : Holds m l xs) (hlen : xs.length + vs.length = MAX_SIZE) :
    ∃ m1 l1, readLoop (vs.map some ++ some v :: rest) m l =
        Res.throw Exc.overflow_error m1 l1 ∧
      Holds m1 l1 (xs ++ vs) := by
  induction vs generalizing m l xs with
  | nil =>
    refine ⟨m, l, ?_, by simpa using h⟩
    have hfull : IsFull l = true := by
      simp at hlen
      simp [IsFull, Holds_size h, hlen]
    simp only [List.map_nil, List.nil_append, readLoop, hfull, if_true]
  | cons w vs ih =>
    have hlt : l.size < MAX_SIZE := by
      rw [Holds_size h]
      simp at hlen
      omega
    have hfull : IsFull l = false := by
      simp [IsFull]; exact hlt
    obtain ⟨m1, l1, h1, h2⟩ := AddEnd_Holds h hlt w
    obtain ⟨m2, l2, h3, h4⟩ := ih h2 (by simp at hlen ⊢; omega)
    refine ⟨m2, l2, ?_, by simpa using h4⟩
    simp only [List.map_cons, List.cons_append, readLoop, hfull, Bool.false_eq_true,
      if_false, h1]
    exact h3

/-- C13: for a well-formed list with any content and an input of `k <=
MAX_SIZE` parseable values, followed by the end of the input or by a token that
does not parse, `is >> list` returns, leaving that token and what follows it
unread, and the list holds exactly the `k` values in input order, nothing of
what it held before. -/
theorem C13_parse {T : Type} (m : Mem T) (l : TList) (xs : List T) (vs : List T)
    (tail : List (Option T)) (h : Holds m l xs)
    (htail : tail = [] ∨ ∃ r, tail = none :: r) (hlen : vs.length ≤ MAX_SIZE) :
    ∃ m1 l1, opIn m l (vs.map some ++ tail) = Res.ok tail m1 l1 ∧
      Holds m1 l1 vs ∧ GetSize l1 = vs.length ∧
      (∀ (i : Nat) (hi : i < vs.length), readAt m1 l1 (i : Int) = Res.ok vs[i] m1 l1) := by
  obtain ⟨ns, hr, hx⟩ := h
  obtain ⟨m0, c1, c2, c3⟩ := clear_Holds hr
  obtain ⟨m1, l1, r1, r2⟩ := readLoop_ok vs tail htail c2 (by simpa using hlen)
  simp only [List.nil_append] at r2
  refine ⟨m1, l1, ?_, r2, Holds_size r2, fun i hi => Holds_index r2 i hi⟩
  unfold opIn
  rw [c1]
  exact r1

/-- C13 at the list `[1, 2, 3]` and the input `5 6 x 7`, `x` a token that does
not parse: the list becomes `[5, 6]` and `x 7` is left unread. -/
theorem C13_parse_witness :
    Holds mem123 list123 [1, 2, 3] ∧
      ∃ m1 l1, opIn mem123 list123 [some 5, some 6, none, some 7] =
          Res.ok [none, some 7] m1 l1 ∧
        Holds m1 l1 [5, 6] :=
  have hH : Holds mem123 list123 [1, 2, 3] := ⟨nodes123, by decide, rfl⟩
  ⟨hH, (C13_parse mem123 list123 [1, 2, 3] [5, 6] [none, some 7] hH
      (Or.inr ⟨[some 7], rfl⟩) (by decide)).elim
    fun m1 e => e.elim fun l1 e => ⟨m1, l1, e.1, e.2.1⟩⟩

/-! ## C14: what a failing call leaves behind -/

theorem ofOption_ne_throw {T α : Type} (o : Option (α × Mem T × TList)) (e : Exc)
    (m1 : Mem T) (l1 : TList) : Res.ofOption o ≠ Res.throw e m1 l1 := by
  cases o with
  | none => exact fun h => Res.noConfusion h
  | some t =>
    obtain ⟨a, m, l⟩ := t
    exact fun h => Res.noConfusion h

theorem throw_inj {T α : Type} {e e1 : Exc} {m m1 : Mem T} {l l1 : TList}
    (h : (Res.throw e m l : Res T α) = Res.throw e1 m1 l1) : m1 = m ∧ l1 = l := by
  injection h with _ h2 h3
  exact ⟨h2.symm, h3.symm⟩

theorem AddStart_throw {T : Type} {m m1 : Mem T} {l l1 : TList} {v : T} {e : Exc}
    (h : AddStart m l v = Res.throw e m1 l1) : m1 = m ∧ l1 = l := by
  unfold AddStart at h
  split at h
  · exact throw_inj h
  · split at h
    · exact absurd h (ofOption_ne_throw _ _ _ _)
    · exact absurd h (ofOption_ne_throw _ _ _ _)

theorem AddEnd_throw {T : Type} {m m1 : Mem T} {l l1 : TList} {v : T} {e : Exc}
    (h : AddEnd m l v = Res.throw e m1 l1) : m1 = m ∧ l1 = l := by
  unfold AddEnd at h
  split at h
  · exact throw_inj h
  · split at h
    · exact AddStart_throw h
    · exact absurd h (ofOption_ne_throw _ _ _ _)

theorem Add_throw {T : Type} {m m1 : Mem T} {l l1 : TList} {v : T} {i : Int} {e : Exc}
    (h : Add m l v i = Res.throw e m1 l1) : m1 = m ∧ l1 = l := by
  unfold Add at h
  split at h
  · exact throw_inj h
  · split at h
    · exact throw_inj h
    · split at h
      · exact AddStart_throw h
      · split at h
        · exact AddEnd_throw h
        · exact absurd h (ofOption_ne_throw _ _ _ _)

theorem RemoveStart_throw {T : Type} {m m1 : Mem T} {l l1 : TList} {e : Exc}
    (h : RemoveStart m l = Res.throw e m1 l1) : m1 = m ∧ l1 = l := by
  unfold RemoveStart at h
  split at h
  · exact throw_inj h
  · exact absurd h (ofOption_ne_throw _ _ _ _)

theorem RemoveEnd_throw {T : Type} {m m1 : Mem T} {l l1 : TList} {e : Exc}
    (h : RemoveEnd m l = Res.throw e m1 l1) : m1 = m ∧ l1 = l := by
  unfold RemoveEnd at h
  split at h
  · exact throw_inj h
  · split at h
    · exact RemoveStart_throw h
    · exact absurd h (ofOption_ne_throw _ _ _ _)

theorem Remove_throw {T : Type} {m m1 : Mem T} {l l1 : TList} {i : Int} {e : Exc}
    (h : Remove m l i = Res.throw e m1 l1) : m1 = m ∧ l1 = l := by
  unfold Remove at h
  split at h
  · exact throw_inj h
  · split at h
    · exact RemoveStart_throw h
    · split at h
      · exact RemoveEnd_throw h
      · exact absurd h (ofOption_ne_throw _ _ _ _)

theorem insertAfter_throw {T : Type} {m m1 : Mem T} {l l1 : TList} {it : Iterator}
    {v : T} {e : Exc} (h : insertAfter m l it v = Res.throw e m1 l1) :
    m1 = m ∧ l1 = l := by
  unfold insertAfter at h
  split at h
  · exact throw_inj h
  · split at h
    · exact AddEnd_throw h
    · exact absurd h (ofOption_ne_throw _ _ _ _)

theorem remove_throw {T : Type} {m m1 : Mem T} {l l1 : TList} {it : Iterator}
    {e : Exc} (h : remove m l it = Res.throw e m1 l1) : m1 = m ∧ l1 = l := by
  unfold remove at h
  split at h
  · exact throw_inj h
  · split at h
    · exact throw_inj h
    · split at h
      · exact absurd h (ofOption_ne_throw _ _ _ _)
      · exact absurd h (ofOption_ne_throw _ _ _ _)

theorem indexRef_throw {T : Type} {m m1 : Mem T} {l l1 : TList} {i : Int} {e : Exc}
    (h : indexRef m l i = Res.throw e m1 l1) : m1 = m ∧ l1 = l := by
  unfold indexRef at h
  split at h
  · exact throw_inj h
  · exact absurd h (ofOption_ne_throw _ _ _ _)

theorem indexConst_throw {T : Type} {m m1 : Mem T} {l l1 : TList} {i : Int} {e : Exc}
    (h : indexConst m l i = Res.throw e m1 l1) : m1 = m ∧ l1 = l := by
  unfold indexConst at h
  split at h
  · exact throw_inj h
  · exact absurd h (ofOption_ne_throw _ _ _ _)

/-- The input of `MAX_SIZE + 1` parseable values makes `is >> list` throw
`overflow_error` with the list holding the first `MAX_SIZE` of them. -/
theorem opIn_overflow {T : Type} {m : Mem T} {l : TList} {xs : List T}
    (h : Holds m l xs) (vs : List T) (v : T) (rest : List (Option T))
    (hlen : vs.length = MAX_SIZE) :
    ∃ m1 l1, opIn m l (vs.map some ++ some v :: rest) =
        Res.throw Exc.overflow_error m1 l1 ∧
      Holds m1 l1 vs := by
  obtain ⟨ns, hr, _⟩ := h
  obtain ⟨m0, c1, c2, _⟩ := clear_Holds hr
  obtain ⟨m1, l1, r1, r2⟩ := readLoop_overflow vs v rest c2 (by simpa using hlen)
  simp only [List.nil_append] at r2
  refine ⟨m1, l1, ?_, r2⟩
  unfold opIn
  rw [c1]
  exact r1

/-- C14 as stated fails: the list `[1, 2, 3]` parsing an input of `MAX_SIZE +
1` values throws `overflow_error` and is left holding `MAX_SIZE` zeros, of size
`MAX_SIZE`, not the three values of size 3 it held before the call. -/
theorem C14_parse_overflow_changes_list :
    ∃ m1 l1, opIn mem123 list123 (List.replicate (MAX_SIZE + 1) (some 0)) =
        Res.throw Exc.overflow_error m1 l1 ∧
      Holds mem123 list123 [1, 2, 3] ∧ GetSize list123 = 3 ∧
      Holds m1 l1 (List.replicate MAX_SIZE 0) ∧ GetSize l1 = MAX_SIZE ∧
      readAt mem123 list123 0 = Res.ok 1 mem123 list123 ∧
      readAt m1 l1 0 = Res.ok 0 m1 l1 := by
  have hH : Holds mem123 list123 [1, 2, 3] := ⟨nodes123, by decide, rfl⟩
  obtain ⟨m1, l1, h1, h2⟩ :=
    opIn_overflow hH (List.replicate MAX_SIZE 0) 0 [] (by simp)
  have hin : (List.replicate MAX_SIZE 0).map some ++ [some 0] =
      List.replicate (MAX_SIZE + 1) (some (0 : Nat)) := by
    rw [List.map_replicate, List.replicate_succ']
  rw [hin] at h1
  refine ⟨m1, l1, h1, hH, rfl, h2, by simp [GetSize, Holds_size h2], by decide, ?_⟩
  exact Holds_index_of_getElem? h2 0 0 (List.getElem?_replicate_of_lt (by decide))

/-- C14, amended: a throwing call of `AddStart`, `AddEnd`, `Add`,
`RemoveStart`, `RemoveEnd`, `Remove`, `insertAfter`, `remove` or `operator[]`
leaves memory and list exactly as they were, and a throwing `A + B` leaves `A`
and `B` holding what they held; `is >> list` does not: when it throws
`overflow_error` because the input holds more than `MAX_SIZE` values, the
content the list had is gone and the list holds the first `MAX_SIZE` values of
the input. -/
theorem C14_failing_calls {T : Type} (m : Mem T) (l B : TList) (xs ys : List T)
    (h : Holds m l xs) (hB : Holds m B ys) :
    (∀ (v : T) (i : Int) (it : Iterator) (e : Exc) (m1 : Mem T) (l1 : TList),
      (AddStart m l v = Res.throw e m1 l1 → m1 = m ∧ l1 = l) ∧
      (AddEnd m l v = Res.throw e m1 l1 → m1 = m ∧ l1 = l) ∧
      (Add m l v i = Res.throw e m1 l1 → m1 = m ∧ l1 = l) ∧
      (RemoveStart m l = Res.throw e m1 l1 → m1 = m ∧ l1 = l) ∧
      (RemoveEnd m l = Res.throw e m1 l1 → m1 = m ∧ l1 = l) ∧
      (Remove m l i = Res.throw e m1 l1 → m1 = m ∧ l1 = l) ∧
      (insertAfter m l it v = Res.throw e m1 l1 → m1 = m ∧ l1 = l) ∧
      (remove m l it = Res.throw e m1 l1 → m1 = m ∧ l1 = l) ∧
      (indexRef m l i = Res.throw e m1 l1 → m1 = m ∧ l1 = l) ∧
      (indexConst m l i = Res.throw e m1 l1 → m1 = m ∧ l1 = l)) ∧
    (∀ (e : Exc) (m1 : Mem T) (l1 : TList), opPlus m l B = Res.throw e m1 l1 →
      l1 = l ∧ Holds m1 l xs ∧ Holds m1 B ys) ∧
    (∀ (vs : List T) (v : T) (rest : List (Option T)), vs.length = MAX_SIZE →
      ∃ m1 l1, opIn m l (vs.map some ++ some v :: rest) =
          Res.throw Exc.overflow_error m1 l1 ∧
        Holds m1 l1 vs ∧ GetSize l1 = MAX_SIZE) := by
  refine ⟨?_, ?_, ?_⟩
  · intro v i it e m1 l1
    exact ⟨AddStart_throw, AddEnd_throw, Add_throw, RemoveStart_throw, RemoveEnd_throw,
      Remove_throw, insertAfter_throw, remove_throw, indexRef_throw, indexConst_throw⟩
  · intro e m1 l1 he
    obtain ⟨nsA, rA, eA⟩ := h
    obtain ⟨nsB, rB, eB⟩ := hB
    obtain ⟨hthrow, hok⟩ := opPlus_Ring rA rB
    by_cases hgt : nsA.length + nsB.length > MAX_SIZE
    · obtain ⟨m2, h1, h2, h3⟩ := hthrow hgt
      rw [h1] at he
      injection he with _ hm hl
      subst hm
      exact ⟨hl.symm, ⟨nsA, h2, eA⟩, ⟨nsB, h3, eB⟩⟩
    · obtain ⟨m2, R, nsR, h1, _⟩ := hok (by omega)
      rw [h1] at he
      exact Res.noConfusion he
  · intro vs v rest hlen
    obtain ⟨m1, l1, h1, h2⟩ := opIn_overflow h vs v rest hlen
    exact ⟨m1, l1, h1, h2, by simp [GetSize, Holds_size h2, hlen]⟩

/-- C14, amended, at the list `[1, 2, 3]`: `Remove(3)` throws and leaves memory
and list as they were. -/
theorem C14_failing_calls_witness :
    Holds mem123 list123 [1, 2, 3] ∧
      Remove mem123 list123 3 = Res.throw Exc.out_of_range mem123 list123 ∧
      ∀ (m1 : Mem Nat) (l1 : TList),
        Remove mem123 list123 3 = Res.throw Exc.out_of_range m1 l1 →
          m1 = mem123 ∧ l1 = list123 :=
  have hH : Holds mem123 list123 [1, 2, 3] := ⟨nodes123, by decide, rfl⟩
  ⟨hH, by decide, fun m1 l1 =>
    ((C14_failing_calls mem123 list123 list123 [1, 2, 3] [1, 2, 3] hH hH).1 0 3
      list123.begin Exc.out_of_range m1 l1).2.2.2.2.2.1⟩

/-! ## C15: sized construction -/

theorem fillLoop_eq_AddEndSeq {T : Type} [Inhabited T] (k : Nat) (m : Mem T) (l : TList) :
    fillLoop k m l = AddEndSeq m l (List.replicate k (default : T)) := by
  induction k generalizing m l with
  | zero => rfl
  | succ k ih =>
    simp only [fillLoop, List.replicate_succ, AddEndSeq]
    cases AddEnd m l (default : T) with
    | ok a m1 l1 => exact ih m1 l1
    | throw e m1 l1 => rfl
    | fault => rfl

/-- C15 as stated fails: `TList(MAX_SIZE + 1)` throws `out_of_range`, not the
`overflow_error` that `AddEnd` on a full list throws. -/
theorem C15_sized_ctor_throws_out_of_range :
    sizedCtor ([] : Mem Nat) (MAX_SIZE + 1) = Res.throw Exc.out_of_range [] ⟨none, 0⟩ ∧
      (sizedCtor ([] : Mem Nat) (MAX_SIZE + 1)).exc? ≠ some Exc.overflow_error ∧
      AddEnd ([] : Mem Nat) ⟨none, MAX_SIZE⟩ 0 =
        Res.throw Exc.overflow_error [] ⟨none, MAX_SIZE⟩ := by
  decide

/-- C15, amended: `TList(count)` with `count > MAX_SIZE` throws `out_of_range`,
a kind other than the `overflow_error` of an insertion into a full list, and
allocates nothing; with `count <= MAX_SIZE` it returns and the list has size
`count` with the default value of `T` at every index. -/
theorem C15_sized_ctor {T : Type} [Inhabited T] (m : Mem T) (count : Nat) :
    (count > MAX_SIZE →
      sizedCtor m count = Res.throw Exc.out_of_range m ⟨none, 0⟩ ∧
      (sizedCtor m count).exc? ≠ some Exc.overflow_error) ∧
    (count ≤ MAX_SIZE →
      ∃ m1 l1, sizedCtor m count = Res.ok () m1 l1 ∧
        Holds m1 l1 (List.replicate count (default : T)) ∧ GetSize l1 = count ∧
        ∀ (i : Nat), i < count → readAt m1 l1 (i : Int) = Res.ok (default : T) m1 l1) ∧
    (∀ (l : TList) (v : T), GetSize l = MAX_SIZE →
      AddEnd m l v = Res.throw Exc.overflow_error m l ∧
      AddStart m l v = Res.throw Exc.overflow_error m l) := by
  refine ⟨?_, ?_, ?_⟩
  · intro hgt
    have e : sizedCtor m count = Res.throw Exc.out_of_range m ⟨none, 0⟩ := by
      unfold sizedCtor
      rw [if_pos hgt]
    rw [e]
    exact ⟨rfl, by simp [Res.exc?]⟩
  · intro hle
    obtain ⟨m1, l1, h1, h2⟩ :=
      AddEndSeq_Holds (List.replicate count (default : T)) (Holds_empty m) (by simpa using hle)
    simp only [List.nil_append] at h2
    refine ⟨m1, l1, ?_, h2, by simp [GetSize, Holds_size h2], ?_⟩
    · unfold sizedCtor
      rw [if_neg (by omega), fillLoop_eq_AddEndSeq]
      exact h1
    · intro i hi
      exact Holds_index_of_getElem? h2 i default (List.getElem?_replicate_of_lt hi)
  · intro l v hfull
    simp only [GetSize] at hfull
    have hf : IsFull l = true := by simp [IsFull, hfull]
    constructor
    · unfold AddEnd
      simp only [hf, if_true]
    · unfold AddStart
      simp only [hf, if_true]

/-- C15, amended, at `TList<int>(2)`, which is `[0, 0]`. -/
theorem C15_sized_ctor_witness :
    ∃ m1 l1, sizedCtor ([] : Mem Nat) 2 = Res.ok () m1 l1 ∧ Holds m1 l1 [0, 0] :=
  ((C15_sized_ctor ([] : Mem Nat) 2).2.1 (by decide)).elim fun m1 e => e.elim fun l1 e =>
    ⟨m1, l1, e.1, e.2.1⟩

/-! ## Iterators on a ring -/

theorem seg_cell {T : Type} {m : Mem T} {p q : Nat} {ns : List (Nat × T)}
    (h : seg m p ns q) (i : Nat) (hi : i < ns.length) :
    m.read ns[i].1 =
      some ⟨ns[i].2, some (lastAddr (ns.take i) p), some (firstAddr (ns.drop (i + 1)) q)⟩ := by
  induction ns generalizing p i with
  | nil => simp at hi
  | cons n ns ih =>
    obtain ⟨h1, h2⟩ := h
    cases i with
    | zero => exact h1
    | succ i =>
      simp only [List.getElem_cons_succ, List.take_succ_cons, List.drop_succ_cons,
        lastAddr_cons]
      exact ih h2 i (by simpa using hi)

theorem lastAddr_eq_getElem {T : Type} (ns : List (Nat × T)) (d : Nat)
    (h : 0 < ns.length) : lastAddr ns d = (ns[ns.length - 1]).1 := by
  have := lastAddr_take_succ ns d (ns.length - 1) (by omega)
  rw [← this]
  congr 1
  have e : ns.length - 1 + 1 = ns.length := by omega
  rw [e, List.take_length]

theorem getElem?_fst {T : Type} (ns : List (Nat × T)) (j : Nat) (hj : j < ns.length) :
    (ns[j]?).map Prod.fst = some ns[j].1 := by
  rw [List.getElem?_eq_getElem hj]
  rfl

theorem mod_succ_cases (j n : Nat) (hj : j < n) :
    (j + 1 < n ∧ (j + 1) % n = j + 1) ∨ (j + 1 = n ∧ (j + 1) % n = 0) := by
  by_cases h : j + 1 < n
  · exact Or.inl ⟨h, Nat.mod_eq_of_lt h⟩
  · have e : j + 1 = n := by omega
    exact Or.inr ⟨e, by rw [e, Nat.mod_self]⟩

theorem mod_pred_cases (j n : Nat) (hj : j < n) :
    (j = 0 ∧ (j + n - 1) % n = n - 1) ∨ (0 < j ∧ (j + n - 1) % n = j - 1) := by
  by_cases h : j = 0
  · subst h
    exact Or.inl ⟨rfl, by rw [Nat.zero_add]; exact Nat.mod_eq_of_lt (by omega)⟩
  · refine Or.inr ⟨by omega, ?_⟩
    have e : j + n - 1 = (j - 1) + n := by omega
    rw [e, Nat.add_mod_right]
    exact Nat.mod_eq_of_lt (by omega)

/-- The `next` link of the node of index `j` leads to the node of index
`(j + 1) mod n`. -/
theorem Ring_next {T : Type} {m : Mem T} {l : TList} {ns : List (Nat × T)}
    (h : Ring m l ns) (j : Nat) (hj : j < ns.length) :
    GetNext m ((ns[j]?).map Prod.fst) =
      some ((ns[(j + 1) % ns.length]?).map Prod.fst) := by
  have hc := seg_cell h.2.2.2.2 j hj
  rw [getElem?_fst ns j hj]
  simp only [GetNext, hc, Option.map_some']
  congr 1
  rcases mod_succ_cases j ns.length hj with ⟨h1, h2⟩ | ⟨h1, h2⟩
  · rw [h2, getElem?_fst ns (j + 1) h1, firstAddr_drop ns _ (j + 1) h1]
  · rw [h2, getElem?_fst ns 0 (by omega)]
    have hd : ns.drop (j + 1) = [] := List.drop_eq_nil_of_le (by omega)
    rw [hd, firstAddr_nil]
    have := firstAddr_drop ns 0 0 (by omega)
    simpa using this

/-- The `prev` link of the node of index `j` leads to the node of index
`(j + n - 1) mod n`. -/
theorem Ring_prev {T : Type} {m : Mem T} {l : TList} {ns : List (Nat × T)}
    (h : Ring m l ns) (j : Nat) (hj : j < ns.length) :
    GetPrev m ((ns[j]?).map Prod.fst) =
      some ((ns[(j + ns.length - 1) % ns.length]?).map Prod.fst) := by
  have hc := seg_cell h.2.2.2.2 j hj
  rw [getElem?_fst ns j hj]
  simp only [GetPrev, hc, Option.map_some']
  congr 1
  rcases mod_pred_cases j ns.length hj with ⟨h1, h2⟩ | ⟨h1, h2⟩
  · subst h1
    rw [h2, getElem?_fst ns (ns.length - 1) (by omega), List.take_zero, lastAddr_nil,
      lastAddr_eq_getElem ns 0 (by omega)]
  · rw [h2, getElem?_fst ns (j - 1) (by omega)]
    have := lastAddr_take_succ ns (lastAddr ns 0) (j - 1) (by omega)
    have e : j - 1 + 1 = j := by omega
    rw [e] at this
    rw [this]

theorem Ring_head_eq {T : Type} {m : Mem T} {l : TList} {ns : List (Nat × T)}
    (h : Ring m l ns) : l.head = (ns[0]?).map Prod.fst := by
  rw [h.2.2.1]
  cases ns <;> simp

theorem inc_Ring {T : Type} {m : Mem T} {l : TList} {ns : List (Nat × T)}
    (h : Ring m l ns) (j : Nat) (hj : j < ns.length) (s : Ptr) :
    Iterator.inc m ⟨(ns[j]?).map Prod.fst, s, j, ns.length⟩ =
      Out.ok ⟨(ns[(j + 1) % ns.length]?).map Prod.fst, s, (j + 1) % ns.length,
        ns.length⟩ := by
  have hcur : ¬ ((ns[j]?).map Prod.fst = none) := by
    rw [getElem?_fst ns j hj]; simp
  have hcap := h.2.1
  have hinc : incSize j = j + 1 := incSize_eq (by omega)
  unfold Iterator.inc
  simp only [hcur, if_false, Ring_next h j hj]
  rw [if_neg (by omega), hinc]

theorem dec_Ring {T : Type} {m : Mem T} {l : TList} {ns : List (Nat × T)}
    (h : Ring m l ns) (j : Nat) (hj : j < ns.length) (s : Ptr) :
    Iterator.dec m ⟨(ns[j]?).map Prod.fst, s, j, ns.length⟩ =
      Out.ok ⟨(ns[(j + ns.length - 1) % ns.length]?).map Prod.fst, s,
        (j + ns.length - 1) % ns.length, ns.length⟩ := by
  have hcur : ¬ ((ns[j]?).map Prod.fst = none) := by
    rw [getElem?_fst ns j hj]; simp
  have hcap := h.2.1
  have hpos : (decSize j + ns.length) % SIZE_MOD % ns.length =
      (j + ns.length - 1) % ns.length := by
    congr 1
    unfold decSize SIZE_MOD
    unfold MAX_SIZE at hcap
    omega
  unfold Iterator.dec
  simp only [hcur, if_false, Ring_prev h j hj]
  rw [if_neg (by omega), hpos]

theorem advance_succ {T : Type} (m : Mem T) (k : Nat) (it : Iterator) :
    Iterator.advance m (k + 1) it =
      match Iterator.advance m k it with
      | Out.ok it1 => it1.inc m
      | Out.throw e => Out.throw e
      | Out.fault => Out.fault := by
  induction k generalizing it with
  | zero =>
    simp only [Iterator.advance]
    cases it.inc m <;> rfl
  | succ k ih =>
    rw [Iterator.advance]
    cases hi : it.inc m with
    | ok it1 =>
      simp only []
      rw [ih it1]
      conv_rhs => rw [Iterator.advance, hi]
    | throw e =>
      conv_rhs => rw [Iterator.advance, hi]
    | fault =>
      conv_rhs => rw [Iterator.advance, hi]

theorem retreat_succ {T : Type} (m : Mem T) (k : Nat) (it : Iterator) :
    Iterator.retreat m (k + 1) it =
      match Iterator.retreat m k it with
      | Out.ok it1 => it1.dec m
      | Out.throw e => Out.throw e
      | Out.fault => Out.fault := by
  induction k generalizing it with
  | zero =>
    simp only [Iterator.retreat]
    cases it.dec m <;> rfl
  | succ k ih =>
    rw [Iterator.retreat]
    cases hi : it.dec m with
    | ok it1 =>
      simp only []
      rw [ih it1]
      conv_rhs => rw [Iterator.retreat, hi]
    | throw e =>
      conv_rhs => rw [Iterator.retreat, hi]
    | fault =>
      conv_rhs => rw [Iterator.retreat, hi]

/-- After `k` increments from `begin()` the iterator is at the node of index
`k mod n`, with that position. -/
theorem advance_Ring {T : Type} {m : Mem T} {l : TList} {ns : List (Nat × T)}
    (h : Ring m l ns) (hne : 0 < ns.length) (k : Nat) :
    Iterator.advance m k l.begin =
      Out.ok ⟨(ns[k % ns.length]?).map Prod.fst, l.head, k % ns.length, ns.length⟩ := by
  induction k with
  | zero =>
    simp only [Iterator.advance, TList.begin, Iterator.ctor, Nat.zero_mod]
    rw [← Ring_head_eq h, h.1]
  | succ k ih =>
    rw [advance_succ, ih]
    simp only []
    rw [inc_Ring h (k % ns.length) (Nat.mod_lt _ hne), Nat.mod_add_mod]

theorem back_index (n k : Nat) (hn : 0 < n) :
    ((n - k % n) % n + n - 1) % n = (n - (k + 1) % n) % n := by
  have ha : k % n < n := Nat.mod_lt _ hn
  have hk : (k + 1) % n = (k % n + 1) % n := (Nat.mod_add_mod k n 1).symm
  rw [hk]
  generalize k % n = a at ha
  rcases mod_succ_cases a n ha with ⟨h1, h2⟩ | ⟨h1, h2⟩
  · rw [h2]
    by_cases h0 : a = 0
    · subst h0
      rw [Nat.sub_zero, Nat.mod_self, Nat.zero_add,
        Nat.mod_eq_of_lt (show n - 1 < n by omega)]
    · rw [Nat.mod_eq_of_lt (show n - a < n by omega),
        Nat.mod_eq_of_lt (show n - (a + 1) < n by omega)]
      have e : n - a + n - 1 = (n - (a + 1)) + n := by omega
      rw [e, Nat.add_mod_right]
      exact Nat.mod_eq_of_lt (by omega)
  · rw [h2, Nat.sub_zero, Nat.mod_self]
    by_cases h0 : a = 0
    · subst h0
      have e1 : n = 1 := by omega
      subst e1
      rfl
    · rw [Nat.mod_eq_of_lt (show n - a < n by omega)]
      have e : n - a + n - 1 = n := by omega
      rw [e, Nat.mod_self]

/-- After `k` decrements from `begin()` the iterator is at the node of index
`(n - k mod n) mod n`, with that position. -/
theorem retreat_Ring {T : Type} {m : Mem T} {l : TList} {ns : List (Nat × T)}
    (h : Ring m l ns) (hne : 0 < ns.length) (k : Nat) :
    Iterator.retreat m k l.begin =
      Out.ok ⟨(ns[(ns.length - k % ns.length) % ns.length]?).map Prod.fst, l.head,
        (ns.length - k % ns.length) % ns.length, ns.length⟩ := by
  induction k with
  | zero =>
    simp only [Iterator.retreat, TList.begin, Iterator.ctor, Nat.zero_mod, Nat.sub_zero,
      Nat.mod_self]
    rw [← Ring_head_eq h, h.1]
  | succ k ih =>
    rw [retreat_succ, ih]
    simp only []
    rw [dec_Ring h _ (Nat.mod_lt _ hne), back_index ns.length k hne]

theorem read_Ring {T : Type} {m : Mem T} {l : TList} {ns : List (Nat × T)}
    (h : Ring m l ns) (j : Nat) (hj : j < ns.length) (s : Ptr) (pos total : Nat) :
    Iterator.read m ⟨(ns[j]?).map Prod.fst, s, pos, total⟩ = Out.ok ns[j].2 := by
  have hc := seg_cell h.2.2.2.2 j hj
  unfold Iterator.read Iterator.deref
  rw [getElem?_fst ns j hj]
  simp [GetValueRef, GetValue, hc]

/-! ## C16: `end()` and the traversal loop -/

theorem Iterator_eq_iff (it other : Iterator) :
    it.eq other = true ↔ (it.current = other.current ∧ it.position = other.position) := by
  simp [Iterator.eq]

/-- On a well-formed non-empty list no number of increments takes `begin()` to
an iterator equal to `end()`: the position stays below `size`. -/
theorem advance_ne_end {T : Type} {m : Mem T} {l : TList} {ns : List (Nat × T)}
    (h : Ring m l ns) (hne : 0 < ns.length) (k : Nat) :
    ∃ it, Iterator.advance m k l.begin = Out.ok it ∧ it.position < l.size ∧
      it.eq l.«end» = false ∧ it.ne l.«end» = true := by
  refine ⟨_, advance_Ring h hne k, ?_, ?_, ?_⟩
  · show k % ns.length < l.size
    rw [h.1]
    exact Nat.mod_lt _ hne
  · have hlt : k % ns.length < ns.length := Nat.mod_lt _ hne
    have hpos : ¬ (k % ns.length = l.size) := by rw [h.1]; omega
    simp [Iterator.eq, TList.«end», Iterator.ctor, hpos]
  · have hlt : k % ns.length < ns.length := Nat.mod_lt _ hne
    have hpos : ¬ (k % ns.length = l.size) := by rw [h.1]; omega
    simp [Iterator.ne, Iterator.eq, TList.«end», Iterator.ctor, hpos]

/-- On a well-formed non-empty list the loop `for (it = begin(); it != end();
++it)` has not ended after any number of steps. -/
theorem traverse_never_ends {T : Type} {m : Mem T} {l : TList} {ns : List (Nat × T)}
    (h : Ring m l ns) (hne : 0 < ns.length) (fuel : Nat) :
    traverse m l fuel l.begin = none := by
  have key : ∀ (fuel j : Nat), j < ns.length →
      traverse m l fuel ⟨(ns[j]?).map Prod.fst, l.head, j, ns.length⟩ = none := by
    intro fuel
    induction fuel with
    | zero => intro j hj; rfl
    | succ fuel ih =>
      intro j hj
      have hpos : ¬ (j = l.size) := by rw [h.1]; omega
      have hneq : Iterator.ne ⟨(ns[j]?).map Prod.fst, l.head, j, ns.length⟩ l.«end» = true := by
        simp [Iterator.ne, Iterator.eq, TList.«end», Iterator.ctor, hpos]
      rw [traverse, if_pos hneq, inc_Ring h j hj]
      simp only []
      rw [ih _ (Nat.mod_lt _ hne)]
      rfl
  have hb : l.begin = ⟨(ns[0]?).map Prod.fst, l.head, 0, ns.length⟩ := by
    simp only [TList.begin, Iterator.ctor]
    rw [← Ring_head_eq h, h.1]
  rw [hb]
  exact key fuel 0 hne

/-- C16, the defect: on the list `[1, 2, 3]` three increments take `begin()`
back to the head with position `3 mod 3 = 0`, while `end()` has position 3, so
the iterator compares equal to `begin()`, not to `end()`; no number of
increments yields an iterator equal to `end()`, and the loop `for (it =
begin(); it != end(); ++it)` has not ended after any number of steps. -/
theorem C16_end_never_reached :
    Iterator.advance mem123 3 list123.begin = Out.ok ⟨some 0, some 0, 0, 3⟩ ∧
      list123.«end» = ⟨some 0, some 0, 3, 3⟩ ∧
      Iterator.eq ⟨some 0, some 0, 0, 3⟩ list123.«end» = false ∧
      Iterator.advance mem123 3 list123.begin = Out.ok list123.begin ∧
      (∀ k : Nat, ∃ it, Iterator.advance mem123 k list123.begin = Out.ok it ∧
        it.eq list123.«end» = false) ∧
      (∀ fuel : Nat, traverse mem123 list123 fuel list123.begin = none) := by
  have hR : Ring mem123 list123 nodes123 := by decide
  refine ⟨by decide, by decide, by decide, by decide, ?_, ?_⟩
  · intro k
    obtain ⟨it, h1, _, h2, _⟩ := advance_ne_end hR (by decide) k
    exact ⟨it, h1, h2⟩
  · intro fuel
    exact traverse_never_ends hR (by decide) fuel

/-! ## C17: wrap-around of the iterator -/

/-- C17: on a well-formed non-empty list of size `n`, for every `k`, `k`
increments from `begin()` all return and dereferencing then yields the element
at index `k mod n`; `k` decrements from `begin()` all return and dereferencing
then yields the element at index `(n - k mod n) mod n`. -/
theorem C17_iterator_wraps {T : Type} (m : Mem T) (l : TList) (xs : List T) (k : Nat)
    (h : Holds m l xs) (hne : xs ≠ []) :
    (∃ it x, Iterator.advance m k l.begin = Out.ok it ∧ it.read m = Out.ok x ∧
      xs[k % GetSize l]? = some x ∧
      readAt m l ((k % GetSize l : Nat) : Int) = Res.ok x m l) ∧
    (∃ it x, Iterator.retreat m k l.begin = Out.ok it ∧ it.read m = Out.ok x ∧
      xs[(GetSize l - k % GetSize l) % GetSize l]? = some x ∧
      readAt m l (((GetSize l - k % GetSize l) % GetSize l : Nat) : Int) = Res.ok x m l) := by
  have hH := h
  obtain ⟨ns, hr, hx⟩ := h
  have hlen : ns.length = xs.length := by rw [← hx]; simp
  have hpos : 0 < ns.length := by
    rw [hlen]
    exact List.length_pos.mpr hne
  have hsz : GetSize l = ns.length := hr.1
  have hval : ∀ j (hj : j < ns.length), xs[j]? = some ns[j].2 := by
    intro j hj
    rw [← hx]
    simp [List.getElem?_eq_getElem hj]
  rw [hsz]
  constructor
  · have hj : k % ns.length < ns.length := Nat.mod_lt _ hpos
    refine ⟨_, ns[k % ns.length].2, advance_Ring hr hpos k, read_Ring hr _ hj _ _ _,
      hval _ hj, ?_⟩
    exact Holds_index_of_getElem? hH _ _ (hval _ hj)
  · have hj : (ns.length - k % ns.length) % ns.length < ns.length := Nat.mod_lt _ hpos
    refine ⟨_, ns[(ns.length - k % ns.length) % ns.length].2, retreat_Ring hr hpos k,
      read_Ring hr _ hj _ _ _, hval _ hj, ?_⟩
    exact Holds_index_of_getElem? hH _ _ (hval _ hj)

/-- C17 at the list `[1, 2, 3]`: four increments give 2, three give 1, ten give
2, and one decrement from `begin()` gives 3. -/
theorem C17_iterator_wraps_witness :
    Holds mem123 list123 [1, 2, 3] ∧
      (∃ it, Iterator.advance mem123 4 list123.begin = Out.ok it ∧
        it.read mem123 = Out.ok 2) ∧
      (∃ it, Iterator.advance mem123 3 list123.begin = Out.ok it ∧
        it.read mem123 = Out.ok 1) ∧
      (∃ it, Iterator.advance mem123 10 list123.begin = Out.ok it ∧
        it.read mem123 = Out.ok 2) ∧
      (∃ it, Iterator.retreat mem123 1 list123.begin = Out.ok it ∧
        it.read mem123 = Out.ok 3) :=
  have hH : Holds mem123 list123 [1, 2, 3] := ⟨nodes123, by decide, rfl⟩
  have pick : ∀ (k : Nat),
      (∃ it x, Iterator.advance mem123 k list123.begin = Out.ok it ∧
        it.read mem123 = Out.ok x ∧ [1, 2, 3][k % GetSize list123]? = some x ∧
        readAt mem123 list123 ((k % GetSize list123 : Nat) : Int) =
          Res.ok x mem123 list123) ∧
      (∃ it x, Iterator.retreat mem123 k list123.begin = Out.ok it ∧
        it.read mem123 = Out.ok x ∧
        [1, 2, 3][(GetSize list123 - k % GetSize list123) % GetSize list123]? = some x ∧
        readAt mem123 list123
          (((GetSize list123 - k % GetSize list123) % GetSize list123 : Nat) : Int) =
          Res.ok x mem123 list123) :=
    fun k => C17_iterator_wraps mem123 list123 [1, 2, 3] k hH (by decide)
  ⟨hH,
    (pick 4).1.elim fun it e => e.elim fun x e =>
      ⟨it, e.1, (Option.some.inj e.2.2.1 : (2 : Nat) = x) ▸ e.2.1⟩,
    (pick 3).1.elim fun it e => e.elim fun x e =>
      ⟨it, e.1, (Option.some.inj e.2.2.1 : (1 : Nat) = x) ▸ e.2.1⟩,
    (pick 10).1.elim fun it e => e.elim fun x e =>
      ⟨it, e.1, (Option.some.inj e.2.2.1 : (2 : Nat) = x) ▸ e.2.1⟩,
    (pick 1).2.elim fun it e => e.elim fun x e =>
      ⟨it, e.1, (Option.some.inj e.2.2.1 : (3 : Nat) = x) ▸ e.2.1⟩⟩

/-! ## C18: `begin()` and `end()` -/

/-- C18: for the empty list `begin() == end()`; for a well-formed non-empty
list `begin()` and `end()` both reference the head node, which exists, with
positions 0 and `size`, so `begin() != end()`; and two iterators compare equal
exactly when they reference the same node and have the same position. -/
theorem C18_begin_end {T : Type} (m : Mem T) (l : TList) (xs : List T)
    (h : Holds m l xs) :
    (GetSize l = 0 → l.begin.eq l.«end» = true ∧ l.begin.ne l.«end» = false) ∧
    (GetSize l ≠ 0 →
      l.begin.GetNode = l.head ∧ l.«end».GetNode = l.head ∧
      (∃ a, l.head = some a ∧ indexRef m l 0 = Res.ok a m l) ∧
      l.begin.position = 0 ∧ l.«end».position = GetSize l ∧
      l.begin.eq l.«end» = false ∧ l.begin.ne l.«end» = true) ∧
    (∀ it other : Iterator,
      (it.eq other = true ↔ (it.GetNode = other.GetNode ∧ it.position = other.position)) ∧
      it.ne other = !(it.eq other)) := by
  refine ⟨?_, ?_, ?_⟩
  · intro h0
    simp only [GetSize] at h0
    simp [Iterator.ne, Iterator.eq, TList.begin, TList.«end», Iterator.ctor, h0]
  · intro h0
    simp only [GetSize] at h0
    obtain ⟨ns, hr, _⟩ := h
    have hpos : 0 < ns.length := by rw [← hr.1]; omega
    refine ⟨rfl, rfl, ⟨ns[0].1, ?_, ?_⟩, rfl, rfl, ?_, ?_⟩
    · rw [Ring_head_eq hr, getElem?_fst ns 0 hpos]
    · exact indexRef_Ring hr 0 hpos
    · have : ¬ (0 = l.size) := by omega
      simp [Iterator.eq, TList.begin, TList.«end», Iterator.ctor, this]
    · have : ¬ (0 = l.size) := by omega
      simp [Iterator.ne, Iterator.eq, TList.begin, TList.«end», Iterator.ctor, this]
  · intro it other
    exact ⟨by simp [Iterator.eq, Iterator.GetNode], rfl⟩

/-- C18 at the empty list and at the list `[1, 2, 3]`. -/
theorem C18_begin_end_witness :
    Holds mem123 list123 [1, 2, 3] ∧ list123.begin.eq list123.«end» = false ∧
      list123.begin.GetNode = list123.«end».GetNode ∧
      empty.begin.eq empty.«end» = true :=
  have hH : Holds mem123 list123 [1, 2, 3] := ⟨nodes123, by decide, rfl⟩
  have hT := C18_begin_end mem123 list123 [1, 2, 3] hH
  have hE := C18_begin_end ([] : Mem Nat) empty [] (Holds_empty _)
  ⟨hH, (hT.2.1 (by decide)).2.2.2.2.2.1,
    (hT.2.1 (by decide)).1.trans (hT.2.1 (by decide)).2.1.symm, (hE.1 rfl).1⟩

/-! ## C19 and C20: insertion and removal at an iterator -/

theorem fst_getElem_inj {T : Type} {ns : List (Nat × T)} (hnd : (ns.map Prod.fst).Nodup)
    (i j : Nat) (hi : i < ns.length) (hj : j < ns.length) (h : ns[i].1 = ns[j].1) :
    i = j := by
  have hi' : i < (ns.map Prod.fst).length := by simpa using hi
  have hj' : j < (ns.map Prod.fst).length := by simpa using hj
  have e : (ns.map Prod.fst)[i] = (ns.map Prod.fst)[j] := by
    simp only [List.getElem_map]
    exact h
  exact (List.Nodup.getElem_inj_iff hnd).mp e

/-- `remove` with an iterator at the node of index `k`. -/
theorem remove_Ring {T : Type} {m : Mem T} {l : TList} {ns : List (Nat × T)}
    (h : Ring m l ns) (k : Nat) (hk : k < ns.length) (it : Iterator)
    (hit : it.GetNode = some ns[k].1) :
    ∃ m1 l1, remove m l it = Res.ok () m1 l1 ∧ l1.size + 1 = l.size ∧
      Ring m1 l1 (ns.take k ++ ns.drop (k + 1)) ∧ FrameOf m m1 ns ∧
      m1.read ns[k].1 = none := by
  have hpos : 0 < ns.length := Nat.lt_of_le_of_lt (Nat.zero_le k) hk
  have hhead : l.head = some ns[0].1 := by
    rw [Ring_head_eq h, getElem?_fst ns 0 hpos]
  have hsz0 : l.size ≠ 0 := by rw [h.1]; exact Nat.ne_of_gt hpos
  have hcap : l.size ≤ MAX_SIZE := by rw [h.1]; exact h.2.1
  have hempty : IsEmpty l = false := by simp [IsEmpty, hsz0]
  have hnode : ¬ (it.GetNode = none) := by rw [hit]; simp
  have hdec : decSize l.size = l.size - 1 := decSize_eq hcap (Nat.pos_of_ne_zero hsz0)
  have hdropk : ns.drop k = ns[k] :: ns.drop (k + 1) := List.drop_eq_getElem_cons hk
  have hsplit : ns.take k ++ ns[k] :: ns.drop (k + 1) = ns := by
    rw [← hdropk]; exact List.take_append_drop k ns
  have hlenNew : (ns.take k ++ ns.drop (k + 1)).length = ns.length - 1 := by
    rw [List.length_append, List.length_take, List.length_drop]
    omega
  by_cases h1 : ns.length = 1
  · have hk0 : k = 0 := by omega
    subst hk0
    have hs1 : l.size = 1 := by rw [h.1, h1]
    have hnil : ns.take 0 ++ ns.drop (0 + 1) = [] := by
      apply List.length_eq_zero.mp
      rw [hlenNew, h1]
    have hlive : (m.read ns[0].1).isSome :=
      seg_isSome h.2.2.2.2 _ (List.mem_map.mpr ⟨ns[0], List.getElem_mem _, rfl⟩)
    refine ⟨m.set ns[0].1 none, ⟨none, 0⟩, ?_, by simp [hs1], ?_, ?_, by simp [read_free]⟩
    · have hd := delete_live m ns[0].1 hlive
      unfold remove
      simp only [hempty, Bool.false_eq_true, if_false]
      rw [if_neg hnode, if_pos hs1]
      simp [hhead, hd, Res.ofOption, decSize, hs1, SIZE_MOD]
    · rw [hnil]
      exact (Ring_nil_iff _ _).mpr rfl
    · exact ⟨by simp, fun b _ hn => by
        have : b ≠ ns[0].1 :=
          fun e => hn (e ▸ List.mem_map.mpr ⟨ns[0], List.getElem_mem _, rfl⟩)
        simp [read_free, this]⟩
  · have hs1 : ¬ l.size = 1 := by rw [h.1]; exact h1
    have hrot : ns.drop (k + 1) ++ ns.take k ≠ [] := by
      intro e
      have := congrArg List.length e
      rw [List.length_append, List.length_take, List.length_drop, List.length_nil] at this
      omega
    have hcyc : Cyc m (ns.take k ++ ns[k] :: ns.drop (k + 1)) := by
      rw [hsplit]; exact h.2.2.2
    have hcycr : Cyc m (ns[k] :: (ns.drop (k + 1) ++ ns.take k)) :=
      Cyc_rotate m _ (ns[k] :: ns.drop (k + 1)) hcyc
    obtain ⟨hrc, s1, s2, s3⟩ := unlink_exec hcycr hrot
    have hnew : Cyc (unlinkMem m (lastAddr (ns.drop (k + 1) ++ ns.take k) 0) ns[k].1
        (firstAddr (ns.drop (k + 1) ++ ns.take k) 0)) (ns.take k ++ ns.drop (k + 1)) :=
      Cyc_unlink_at hcyc hrot
    have hframe : FrameOf m (unlinkMem m (lastAddr (ns.drop (k + 1) ++ ns.take k) 0)
        ns[k].1 (firstAddr (ns.drop (k + 1) ++ ns.take k) 0)) ns := by
      have hmem : ∀ a ∈ (ns.drop (k + 1) ++ ns.take k).map Prod.fst,
          a ∈ ns.map Prod.fst := by
        intro a ha
        refine mem_fst_of_mem_sublist ?_ ha
        intro n hn
        rcases List.mem_append.mp hn with hn | hn
        · exact List.mem_of_mem_drop hn
        · exact List.mem_of_mem_take hn
      apply FrameOf_unlink
      · exact hmem _ (lastAddr_mem _ 0 hrot)
      · exact List.mem_map.mpr ⟨ns[k], List.getElem_mem _, rfl⟩
      · exact hmem _ (firstAddr_mem _ 0 hrot)
    have hexec : ∀ head1 : Ptr,
        head1 = (if it.GetNode = l.head then some (firstAddr (ns.drop (k + 1) ++ ns.take k) 0)
          else l.head) →
        remove m l it = Res.ok () (unlinkMem m (lastAddr (ns.drop (k + 1) ++ ns.take k) 0)
          ns[k].1 (firstAddr (ns.drop (k + 1) ++ ns.take k) 0)) ⟨head1, l.size - 1⟩ := by
      intro head1 hh
      unfold remove
      simp only [hempty, Bool.false_eq_true, if_false]
      rw [if_neg hnode, if_neg hs1]
      simp [hit, GetPrev, GetNext, hrc, s1, s2, s3, Res.ofOption, hdec, hh]
    by_cases hk0 : k = 0
    · subst hk0
      have hcond : it.GetNode = l.head := by rw [hit, hhead]
      have hrot0 : ns.drop (0 + 1) ++ ns.take 0 = ns.take 0 ++ ns.drop (0 + 1) := by simp
      have hne0 : ns.take 0 ++ ns.drop (0 + 1) ≠ [] := by rw [← hrot0]; exact hrot
      refine ⟨_, _, hexec _ rfl, ?_, ?_, hframe, read_unlinkMem_self _ _ _ _⟩
      · show l.size - 1 + 1 = l.size
        rw [h.1]; omega
      · refine ⟨by show l.size - 1 = _; rw [hlenNew, h.1], by rw [hlenNew]; have := h.2.1; omega,
          ?_, hnew⟩
        show (if it.GetNode = l.head then _ else _) = _
        rw [if_pos hcond, head?_eq_firstAddr _ 0 hne0, hrot0]
    · have hcond : ¬ (it.GetNode = l.head) := by
        rw [hit, hhead]
        intro e
        injection e with e
        exact hk0 (fst_getElem_inj h.2.2.2.1 k 0 hk (by omega) e)
      have htake : ns.take k ≠ [] := take_ne_nil ns k (by omega) (by omega)
      refine ⟨_, _, hexec _ rfl, ?_, ?_, hframe, read_unlinkMem_self _ _ _ _⟩
      · show l.size - 1 + 1 = l.size
        rw [h.1]; omega
      · refine ⟨by show l.size - 1 = _; rw [hlenNew, h.1], by rw [hlenNew]; have := h.2.1; omega,
          ?_, hnew⟩
        show (if it.GetNode = l.head then _ else _) = _
        rw [if_neg hcond, h.2.2.1]
        conv_lhs => rw [← hsplit]
        exact congrArg _ (head?_append_of_ne_nil _ _ _ htake)

theorem indexRef_ok_inj {T : Type} {m : Mem T} {l : TList} {a b : Nat}
    (h : Res.ok a m l = Res.ok b m l) : a = b :=
  (Res.ok.inj h).1

/-- The iterator obtained from `begin()` by `p` increments references the node
that `operator[]` designates at index `p`. -/
theorem iterator_at_index {T : Type} {m : Mem T} {l : TList} {xs : List T}
    (h : Holds m l xs) (p : Nat) (hp : p < xs.length) :
    ∃ it0 a, Iterator.advance m p l.begin = Out.ok it0 ∧ it0.GetNode = some a ∧
      indexRef m l (p : Int) = Res.ok a m l := by
  obtain ⟨ns, hr, rfl⟩ := h
  have hp' : p < ns.length := by simpa using hp
  refine ⟨_, ns[p].1, advance_Ring hr (by omega) p, ?_, indexRef_Ring hr p hp'⟩
  rw [Nat.mod_eq_of_lt hp']
  exact getElem?_fst ns p hp'

theorem insertAfter_Holds {T : Type} {m : Mem T} {l : TList} {xs : List T}
    (h : Holds m l xs) (hlt : l.size < MAX_SIZE) (v : T) (p : Nat) (hp : p < xs.length)
    (a : Nat) (ha : indexRef m l (p : Int) = Res.ok a m l) (it : Iterator)
    (hit : it.GetNode = some a) :
    ∃ m1, insertAfter m l it v = Res.ok () m1 ⟨l.head, l.size + 1⟩ ∧
      Holds m1 ⟨l.head, l.size + 1⟩ (xs.take (p + 1) ++ v :: xs.drop (p + 1)) := by
  obtain ⟨ns, hr, rfl⟩ := h
  have hp' : p < ns.length := by simpa using hp
  have ea : a = ns[p].1 := by
    rw [indexRef_Ring hr p hp'] at ha
    exact (indexRef_ok_inj ha).symm
  obtain ⟨m1, h1, h2, _⟩ :=
    insertAfter_Ring hr (by rw [← hr.1]; exact hlt) v p hp' it (by rw [hit, ea])
  exact ⟨m1, h1, _, h2, by simp [List.map_take, List.map_drop]⟩

theorem remove_Holds {T : Type} {m : Mem T} {l : TList} {xs : List T}
    (h : Holds m l xs) (p : Nat) (hp : p < xs.length)
    (a : Nat) (ha : indexRef m l (p : Int) = Res.ok a m l) (it : Iterator)
    (hit : it.GetNode = some a) :
    ∃ m1 l1, remove m l it = Res.ok () m1 l1 ∧ Holds m1 l1 (xs.eraseIdx p) ∧
      l1.size + 1 = l.size ∧ m1.read a = none ∧ (p ≠ 0 → l1.head = l.head) ∧
      (p = 0 → ∀ b, indexRef m l (1 : Int) = Res.ok b m l → l1.head = some b) := by
  obtain ⟨ns, hr, rfl⟩ := h
  have hp' : p < ns.length := by simpa using hp
  have ea : a = ns[p].1 := by
    rw [indexRef_Ring hr p hp'] at ha
    exact (indexRef_ok_inj ha).symm
  obtain ⟨m1, l1, h1, h2, h3, _, h5⟩ := remove_Ring hr p hp' it (by rw [hit, ea])
  have hh1 := Ring_head_eq h3
  refine ⟨m1, l1, h1, ⟨_, h3, ?_⟩, h2, by rw [ea]; exact h5, ?_, ?_⟩
  · rw [List.eraseIdx_eq_take_drop_succ]
    simp [List.map_take, List.map_drop]
  · intro hp0
    rw [hh1, Ring_head_eq hr,
      List.getElem?_append_left (by rw [List.length_take]; omega),
      List.getElem?_take_of_lt (by omega)]
  · intro hp0 b hb
    subst hp0
    by_cases h1n : 1 < ns.length
    · rw [show ((1 : Int)) = ((1 : Nat) : Int) from rfl, indexRef_Ring hr 1 h1n] at hb
      rw [hh1, ← indexRef_ok_inj hb]
      simp only [List.take_zero, List.nil_append, Nat.zero_add, List.getElem?_drop,
        Nat.add_zero]
      exact getElem?_fst ns 1 h1n
    · have := (index_out_of_range hr (1 : Int) (Or.inr (by omega))).2.1
      rw [this] at hb
      cases hb

/-- C19: on a well-formed list of size `n < MAX_SIZE`, `insertAfter(it, v)` with
an iterator referencing the node at index `p < n` returns and leaves a
well-formed list of size `n + 1` with the same head, `v` at index `p + 1`, the
elements formerly at indices up to `p` in place and those formerly above `p`
one index higher; such an iterator is the one reached from `begin()` by `p`
increments; with an iterator referencing no node the call is `AddEnd(v)`, which
appends `v`. -/
theorem C19_insertAfter {T : Type} (m : Mem T) (l : TList) (xs : List T) (v : T)
    (it : Iterator) (h : Holds m l xs) (hlt : GetSize l < MAX_SIZE) :
    (∀ (p a : Nat), p < xs.length → indexRef m l (p : Int) = Res.ok a m l →
      it.GetNode = some a →
      ∃ m1 l1, insertAfter m l it v = Res.ok () m1 l1 ∧
        Holds m1 l1 (xs.take (p + 1) ++ v :: xs.drop (p + 1)) ∧
        GetSize l1 = GetSize l + 1 ∧ l1.head = l.head ∧
        readAt m1 l1 ((p : Int) + 1) = Res.ok v m1 l1 ∧
        (∀ (j : Nat) (hj : j < xs.length), j ≤ p →
          readAt m l (j : Int) = Res.ok xs[j] m l ∧
          readAt m1 l1 (j : Int) = Res.ok xs[j] m1 l1) ∧
        (∀ (j : Nat) (hj : j < xs.length), p < j →
          readAt m l (j : Int) = Res.ok xs[j] m l ∧
          readAt m1 l1 ((j : Int) + 1) = Res.ok xs[j] m1 l1)) ∧
    (∀ p : Nat, p < xs.length →
      ∃ it0 a, Iterator.advance m p l.begin = Out.ok it0 ∧ it0.GetNode = some a ∧
        indexRef m l (p : Int) = Res.ok a m l) ∧
    (it.GetNode = none → insertAfter m l it v = AddEnd m l v ∧
      ∃ m1 l1, insertAfter m l it v = Res.ok () m1 l1 ∧ Holds m1 l1 (xs ++ [v]) ∧
        GetSize l1 = GetSize l + 1) := by
  simp only [GetSize] at hlt ⊢
  have hs : l.size = xs.length := Holds_size h
  refine ⟨?_, fun p hp => iterator_at_index h p hp, ?_⟩
  · intro p a hp ha hit
    obtain ⟨m1, h1, h2⟩ := insertAfter_Holds h hlt v p hp a ha it hit
    have hk : p + 1 ≤ xs.length := hp
    refine ⟨m1, _, h1, h2, rfl, rfl, ?_, ?_, ?_⟩
    · have := Holds_index_of_getElem? h2 (p + 1) v (getElem?_insert_eq xs v _ hk)
      simpa using this
    · intro j hj hjp
      refine ⟨Holds_index h j hj, ?_⟩
      apply Holds_index_of_getElem? h2
      rw [getElem?_insert_lt xs v _ j (by omega) hk]
      exact List.getElem?_eq_getElem hj
    · intro j hj hjp
      refine ⟨Holds_index h j hj, ?_⟩
      have := Holds_index_of_getElem? h2 (j + 1) xs[j] (by
        rw [getElem?_insert_ge xs v _ j (by omega) hk]
        exact List.getElem?_eq_getElem hj)
      simpa using this
  · intro hit
    have hfull : IsFull l = false := by
      simp [IsFull]; exact hlt
    have e : insertAfter m l it v = AddEnd m l v := by
      unfold insertAfter
      simp only [hfull, Bool.false_eq_true, if_false]
      rw [if_pos hit]
    obtain ⟨m1, l1, h1, h2⟩ := AddEnd_Holds h hlt v
    refine ⟨e, m1, l1, by rw [e, h1], h2, ?_⟩
    rw [Holds_size h2, hs]
    simp

/-- C19 at the list `[1, 2, 3]`: `insertAfter` at the iterator one increment
after `begin()` with value `9` gives `[1, 2, 9, 3]`, and with an iterator
referencing no node it gives `[1, 2, 3, 9]`. -/
theorem C19_insertAfter_witness :
    Holds mem123 list123 [1, 2, 3] ∧ GetSize list123 < MAX_SIZE ∧
      (∃ it0, Iterator.advance mem123 1 list123.begin = Out.ok it0 ∧
        ∃ m1 l1, insertAfter mem123 list123 it0 9 = Res.ok () m1 l1 ∧
          Holds m1 l1 [1, 2, 9, 3]) ∧
      (∃ m1 l1, insertAfter mem123 list123 (Iterator.ctor none 0 0) 9 = Res.ok () m1 l1 ∧
        Holds m1 l1 [1, 2, 3, 9]) :=
  have hH : Holds mem123 list123 [1, 2, 3] := ⟨nodes123, by decide, rfl⟩
  have hlt : GetSize list123 < MAX_SIZE := by decide
  ⟨hH, hlt,
    ((C19_insertAfter mem123 list123 [1, 2, 3] 9 list123.begin hH hlt).2.1 1 (by decide)).elim
      fun it0 e => e.elim fun a e =>
        ⟨it0, e.1,
          ((C19_insertAfter mem123 list123 [1, 2, 3] 9 it0 hH hlt).1 1 a (by decide)
            e.2.2 e.2.1).elim fun m1 e1 => e1.elim fun l1 e1 => ⟨m1, l1, e1.1, e1.2.1⟩⟩,
    ((C19_insertAfter mem123 list123 [1, 2, 3] 9 (Iterator.ctor none 0 0) hH hlt).2.2
      rfl).2.elim fun m1 e1 => e1.elim fun l1 e1 => ⟨m1, l1, e1.1, e1.2.1⟩⟩

/-- C20: on a well-formed list, `remove(it)` throws `underflow_error` when the
list is empty and `invalid_argument` when it is not empty and the iterator
references no node, leaving memory and list as they were; with an iterator
referencing the node at index `p` of a list of size `n` it returns, frees that
node and leaves a well-formed list of size `n - 1` holding the former elements
with index `p` erased: indices below `p` keep their element, index `j >= p` gets
the former element `j + 1`; when `p = 0` the head becomes the former node 1 (the
list is the empty list when `n = 1`), otherwise the head is unchanged. -/
theorem C20_remove_at_iterator {T : Type} (m : Mem T) (l : TList) (xs : List T)
    (it : Iterator) (h : Holds m l xs) :
    (GetSize l = 0 → remove m l it = Res.throw Exc.underflow_error m l) ∧
    (GetSize l ≠ 0 → it.GetNode = none →
      remove m l it = Res.throw Exc.invalid_argument m l) ∧
    (∀ (p a : Nat), p < xs.length → indexRef m l (p : Int) = Res.ok a m l →
      it.GetNode = some a →
      ∃ m1 l1, remove m l it = Res.ok () m1 l1 ∧ Holds m1 l1 (xs.eraseIdx p) ∧
        GetSize l1 + 1 = GetSize l ∧ m1.read a = none ∧
        (∀ (j : Nat) (hj : j < xs.length), j < p →
          readAt m1 l1 (j : Int) = Res.ok xs[j] m1 l1) ∧
        (∀ (j : Nat) (hj : j + 1 < xs.length), p ≤ j →
          readAt m1 l1 (j : Int) = Res.ok xs[j + 1] m1 l1) ∧
        (p = 0 → ∀ b, indexRef m l (1 : Int) = Res.ok b m l → l1.head = some b) ∧
        (p ≠ 0 → l1.head = l.head) ∧
        (xs.length = 1 → l1 = empty)) ∧
    (∀ p : Nat, p < xs.length →
      ∃ it0 a, Iterator.advance m p l.begin = Out.ok it0 ∧ it0.GetNode = some a ∧
        indexRef m l (p : Int) = Res.ok a m l) := by
  simp only [GetSize]
  refine ⟨?_, ?_, ?_, fun p hp => iterator_at_index h p hp⟩
  · intro h0
    have he : IsEmpty l = true := by simp [IsEmpty, h0]
    unfold remove
    simp only [he, if_true]
  · intro h0 hit
    have he : IsEmpty l = false := by simp [IsEmpty, h0]
    unfold remove
    simp only [he, Bool.false_eq_true, if_false]
    rw [if_pos hit]
  · intro p a hp ha hit
    obtain ⟨m1, l1, h1, h2, h3, h4, h5, h6⟩ := remove_Holds h p hp a ha it hit
    refine ⟨m1, l1, h1, h2, h3, h4, ?_, ?_, h6, h5, ?_⟩
    · intro j hj hjp
      apply Holds_index_of_getElem? h2
      rw [List.getElem?_eraseIdx, if_pos hjp]
      exact List.getElem?_eq_getElem hj
    · intro j hj hjp
      apply Holds_index_of_getElem? h2
      rw [List.getElem?_eraseIdx, if_neg (by omega)]
      exact List.getElem?_eq_getElem hj
    · intro h1n
      apply (Holds_nil_iff m1 l1).mp
      have hl : (xs.eraseIdx p).length = 0 := by
        rw [List.length_eraseIdx, if_pos hp, h1n]
      rw [List.length_eq_zero.mp hl] at h2
      exact h2

/-- C20 at the list `[1, 2, 3]`: `remove(begin())` gives `[2, 3]`, and on the
empty list it throws `underflow_error`. -/
theorem C20_remove_at_iterator_witness :
    Holds mem123 list123 [1, 2, 3] ∧
      (∃ m1 l1, remove mem123 list123 list123.begin = Res.ok () m1 l1 ∧
        Holds m1 l1 [2, 3]) ∧
      remove ([] : Mem Nat) empty empty.begin =
        Res.throw Exc.underflow_error [] empty :=
  have hH : Holds mem123 list123 [1, 2, 3] := ⟨nodes123, by decide, rfl⟩
  ⟨hH,
    ((C20_remove_at_iterator mem123 list123 [1, 2, 3] list123.begin hH).2.2.1 0 0
      (by decide) (by decide) (by decide)).elim
      fun m1 e1 => e1.elim fun l1 e1 => ⟨m1, l1, e1.1, e1.2.1⟩,
    (C20_remove_at_iterator ([] : Mem Nat) empty [] empty.begin (Holds_empty _)).1 rfl⟩

/-! ## C21: the iterator member functions -/

theorem iter_null_throws {T : Type} (m : Mem T) (it : Iterator) (h : it.current = none) :
    it.opStar m = ItRes.throw Exc.runtime_error it ∧
    it.opStarConst m = ItRes.throw Exc.runtime_error it ∧
    it.opArrow m = ItRes.throw Exc.runtime_error it ∧
    it.preInc m = ItRes.throw Exc.runtime_error it ∧
    it.postInc m = ItRes.throw Exc.runtime_error it ∧
    it.preDec m = ItRes.throw Exc.runtime_error it ∧
    it.postDec m = ItRes.throw Exc.runtime_error it := by
  have hi : it.preInc m = ItRes.throw Exc.runtime_error it := by
    unfold Iterator.preInc; rw [if_pos h]
  have hd : it.preDec m = ItRes.throw Exc.runtime_error it := by
    unfold Iterator.preDec; rw [if_pos h]
  refine ⟨?_, ?_, ?_, hi, ?_, hd, ?_⟩
  · unfold Iterator.opStar; rw [if_pos h]
  · unfold Iterator.opStarConst; rw [if_pos h]
  · unfold Iterator.opArrow; rw [if_pos h]
  · unfold Iterator.postInc; simp only [hi]
  · unfold Iterator.postDec; simp only [hd]

/-- The iterator operations on an iterator at the node of index `p` of a ring. -/
theorem iter_ops_Ring {T : Type} {m : Mem T} {l : TList} {ns : List (Nat × T)}
    (h : Ring m l ns) (p : Nat) (hp : p < ns.length) (it : Iterator)
    (hit : it.current = some ns[p].1) :
    it.opStar m = ItRes.ok ns[p].1 it ∧
    it.opStarConst m = ItRes.ok (ConstRef.temporary ns[p].2) it ∧
    it.opArrow m = ItRes.ok ns[p].1 it ∧
    (it.total ≠ 0 →
      it.preInc m = ItRes.ok () ⟨(ns[(p + 1) % ns.length]?).map Prod.fst, it.start,
        incSize it.position % it.total, it.total⟩ ∧
      it.preDec m = ItRes.ok () ⟨(ns[(p + ns.length - 1) % ns.length]?).map Prod.fst,
        it.start, ((decSize it.position + it.total) % SIZE_MOD) % it.total, it.total⟩) ∧
    (it.total = 0 → it.preInc m = ItRes.fault ∧ it.preDec m = ItRes.fault) := by
  have hc := seg_cell h.2.2.2.2 p hp
  have hne : ¬ (it.current = none) := by rw [hit]; simp
  have hnx := Ring_next h p hp
  have hpv := Ring_prev h p hp
  rw [getElem?_fst ns p hp] at hnx hpv
  refine ⟨?_, ?_, ?_, ?_, ?_⟩
  · unfold Iterator.opStar
    rw [if_neg hne, hit]
    simp [GetValueRef, hc]
  · unfold Iterator.opStarConst
    rw [if_neg hne, hit]
    simp [GetValue, hc]
  · unfold Iterator.opArrow
    rw [if_neg hne, hit]
    simp [GetValueRef, hc]
  · intro ht
    constructor
    · unfold Iterator.preInc
      rw [if_neg hne, hit, hnx]
      simp only [if_neg ht]
    · unfold Iterator.preDec
      rw [if_neg hne, hit, hpv]
      simp only [if_neg ht]
  · intro ht
    constructor
    · unfold Iterator.preInc
      rw [if_neg hne, hit, hnx]
      simp only [if_pos ht]
    · unfold Iterator.preDec
      rw [if_neg hne, hit, hpv]
      simp only [if_pos ht]

/-- What the iterator member functions do.  The mutable and const `operator*`,
`operator->`, and the prefix and postfix `operator++` and `operator--` throw
`runtime_error` on an iterator that references no node and leave the iterator
as it was (they write no node and no list object); `begin()` and `end()` of an
empty list are such iterators.  On an iterator that references the node of
index `p` of a well-formed list none of them throws: the mutable dereferences
return that node, the const `operator*` a reference bound to a temporary
holding its value, and, when the iterator has a non-zero `total` as every
iterator made by `begin()` or `end()` of a non-empty list has, the increments
and decrements return and reference the nodes of index `(p + 1) mod n` and
`(p + n - 1) mod n`, with `total` unchanged. -/
theorem iterator_ops_spec {T : Type} (m : Mem T) (l : TList) (xs : List T)
    (it : Iterator) (h : Holds m l xs) :
    (it.GetNode = none →
      it.opStar m = ItRes.throw Exc.runtime_error it ∧
      it.opStarConst m = ItRes.throw Exc.runtime_error it ∧
      it.opArrow m = ItRes.throw Exc.runtime_error it ∧
      it.preInc m = ItRes.throw Exc.runtime_error it ∧
      it.postInc m = ItRes.throw Exc.runtime_error it ∧
      it.preDec m = ItRes.throw Exc.runtime_error it ∧
      it.postDec m = ItRes.throw Exc.runtime_error it) ∧
    (GetSize l = 0 → l.begin.GetNode = none ∧ l.«end».GetNode = none) ∧
    (∀ (p a : Nat) (hp : p < xs.length), indexRef m l (p : Int) = Res.ok a m l →
      it.GetNode = some a →
      it.opStar m = ItRes.ok a it ∧
      it.opStarConst m = ItRes.ok (ConstRef.temporary xs[p]) it ∧
      it.opArrow m = ItRes.ok a it ∧
      (∀ (e : Exc) (it1 : Iterator),
        it.preInc m ≠ ItRes.throw e it1 ∧ it.postInc m ≠ ItRes.throw e it1 ∧
        it.preDec m ≠ ItRes.throw e it1 ∧ it.postDec m ≠ ItRes.throw e it1) ∧
      (it.total ≠ 0 →
        ∃ b c, indexRef m l (((p + 1) % xs.length : Nat) : Int) = Res.ok b m l ∧
          indexRef m l (((p + xs.length - 1) % xs.length : Nat) : Int) = Res.ok c m l ∧
          it.preInc m = ItRes.ok ()
            ⟨some b, it.start, incSize it.position % it.total, it.total⟩ ∧
          it.postInc m = ItRes.ok it
            ⟨some b, it.start, incSize it.position % it.total, it.total⟩ ∧
          it.preDec m = ItRes.ok ()
            ⟨some c, it.start, ((decSize it.position + it.total) % SIZE_MOD) % it.total,
              it.total⟩ ∧
          it.postDec m = ItRes.ok it
            ⟨some c, it.start, ((decSize it.position + it.total) % SIZE_MOD) % it.total,
              it.total⟩)) ∧
    (GetSize l ≠ 0 →
      l.begin.total = GetSize l ∧ l.«end».total = GetSize l ∧
      ∃ a, indexRef m l 0 = Res.ok a m l ∧ l.begin.GetNode = some a ∧
        l.«end».GetNode = some a) := by
  obtain ⟨ns, hr, rfl⟩ := h
  simp only [GetSize, Iterator.GetNode]
  refine ⟨fun hn => iter_null_throws m it hn, ?_, ?_, ?_⟩
  · intro h0
    have hl : l = empty := by
      apply (Ring_nil_iff m l).mp
      have : ns = [] := List.length_eq_zero.mp (by rw [← hr.1]; exact h0)
      rw [this] at hr
      exact hr
    subst hl
    exact ⟨rfl, rfl⟩
  · intro p a hp ha hit
    have hp' : p < ns.length := by simpa using hp
    have hn : 0 < ns.length := by omega
    have ea : a = ns[p].1 := by
      rw [indexRef_Ring hr p hp'] at ha
      exact (indexRef_ok_inj ha).symm
    subst ea
    obtain ⟨h1, h2, h3, h4, h5⟩ := iter_ops_Ring hr p hp' it hit
    have hi1 : (p + 1) % ns.length < ns.length := Nat.mod_lt _ hn
    have hi2 : (p + ns.length - 1) % ns.length < ns.length := Nat.mod_lt _ hn
    refine ⟨h1, by simpa using h2, h3, ?_, ?_⟩
    · intro e it1
      by_cases ht : it.total = 0
      · obtain ⟨hi, hd⟩ := h5 ht
        refine ⟨by rw [hi]; simp, ?_, by rw [hd]; simp, ?_⟩
        · unfold Iterator.postInc; simp only [hi]; simp
        · unfold Iterator.postDec; simp only [hd]; simp
      · obtain ⟨hi, hd⟩ := h4 ht
        refine ⟨by rw [hi]; simp, ?_, by rw [hd]; simp, ?_⟩
        · unfold Iterator.postInc; simp only [hi]; simp
        · unfold Iterator.postDec; simp only [hd]; simp
    · intro ht
      obtain ⟨hi, hd⟩ := h4 ht
      rw [getElem?_fst ns _ hi1] at hi
      rw [getElem?_fst ns _ hi2] at hd
      simp only [List.length_map]
      refine ⟨_, _, indexRef_Ring hr _ hi1, indexRef_Ring hr _ hi2, hi, ?_, hd, ?_⟩
      · unfold Iterator.postInc; simp only [hi]
      · unfold Iterator.postDec; simp only [hd]
  · intro h0
    have hn : 0 < ns.length := by rw [← hr.1]; omega
    refine ⟨rfl, rfl, ns[0].1, indexRef_Ring hr 0 hn, ?_, ?_⟩
    · show l.head = _
      rw [Ring_head_eq hr, getElem?_fst ns 0 hn]
    · show l.head = _
      rw [Ring_head_eq hr, getElem?_fst ns 0 hn]

/-- On an iterator that references the node of index `p` of a well-formed list
and has `total = 0`, the increments and decrements take a remainder by zero:
they fault. -/
theorem iterator_zero_total_faults {T : Type} (m : Mem T) (l : TList) (xs : List T)
    (it : Iterator) (h : Holds m l xs) (p a : Nat) (hp : p < xs.length)
    (ha : indexRef m l (p : Int) = Res.ok a m l) (hit : it.GetNode = some a)
    (ht : it.total = 0) :
    it.preInc m = ItRes.fault ∧ it.postInc m = ItRes.fault ∧
      it.preDec m = ItRes.fault ∧ it.postDec m = ItRes.fault := by
  obtain ⟨ns, hr, rfl⟩ := h
  have hp' : p < ns.length := by simpa using hp
  have ea : a = ns[p].1 := by
    rw [indexRef_Ring hr p hp'] at ha
    exact (indexRef_ok_inj ha).symm
  subst ea
  obtain ⟨hi, hd⟩ := (iter_ops_Ring hr p hp' it hit).2.2.2.2 ht
  refine ⟨hi, ?_, hd, ?_⟩
  · unfold Iterator.postInc; simp only [hi]
  · unfold Iterator.postDec; simp only [hd]

/-- C21, the defect: on the list `[1, 2, 3]` the iterator
`Iterator(list.begin().GetNode())`, whose `total` is the default 0, references
the node of index 0, and its prefix and postfix `++` and `--` fault (a
remainder by zero) instead of returning; the const `operator*` of `begin()`
returns a reference bound to a temporary copy of 1, an object that is
destroyed before the caller can read it, while the mutable `operator*` returns
the node, through which 1 is read.  On `begin()` of `[1, 2, 3]` the prefix `++`
returns, and on `begin()` of the empty list `++` and `*` throw
`runtime_error` and leave the iterator as it was. -/
theorem C21_iterator_ops_fault :
    Holds mem123 list123 [1, 2, 3] ∧
      indexRef mem123 list123 0 = Res.ok 0 mem123 list123 ∧
      (Iterator.ctor (some 0) 0 0).GetNode = some 0 ∧
      Iterator.preInc mem123 (Iterator.ctor (some 0) 0 0) = ItRes.fault ∧
      Iterator.postInc mem123 (Iterator.ctor (some 0) 0 0) = ItRes.fault ∧
      Iterator.preDec mem123 (Iterator.ctor (some 0) 0 0) = ItRes.fault ∧
      Iterator.postDec mem123 (Iterator.ctor (some 0) 0 0) = ItRes.fault ∧
      Iterator.opStarConst mem123 list123.begin =
        ItRes.ok (ConstRef.temporary 1) list123.begin ∧
      ConstRef.get mem123 (ConstRef.temporary 1) = none ∧
      Iterator.opStar mem123 list123.begin = ItRes.ok 0 list123.begin ∧
      ConstRef.get mem123 (ConstRef.node 0) = some 1 ∧
      Iterator.preInc mem123 list123.begin = ItRes.ok () ⟨some 1, some 0, 1, 3⟩ ∧
      Iterator.preInc ([] : Mem Nat) empty.begin =
        ItRes.throw Exc.runtime_error empty.begin ∧
      Iterator.opStar ([] : Mem Nat) empty.begin =
        ItRes.throw Exc.runtime_error empty.begin :=
  ⟨⟨nodes123, by decide, rfl⟩, by decide, by decide, by decide, by decide, by decide,
    by decide, by decide, by decide, by decide, by decide, by decide, by decide, by decide⟩

/-! ## C22: the capacity invariant -/

theorem ofOption_eq_ok {T α : Type} {o : Option (α × Mem T × TList)} {a : α}
    {m1 : Mem T} {l1 : TList} (h : Res.ofOption o = Res.ok a m1 l1) :
    o = some (a, m1, l1) := by
  cases o with
  | none => exact Res.noConfusion h
  | some t =>
    obtain ⟨b, m, l⟩ := t
    simp only [Res.ofOption, Res.ok.injEq] at h
    obtain ⟨rfl, rfl, rfl⟩ := h
    rfl

theorem IsFull_false_lt {l : TList} (h : ¬ (IsFull l = true)) : l.size < MAX_SIZE := by
  simpa [IsFull] using h

theorem IsEmpty_false_pos {l : TList} (h : ¬ (IsEmpty l = true)) : 0 < l.size := by
  have : l.size ≠ 0 := by simpa [IsEmpty] using h
  omega

theorem AddStart_ok_size {T : Type} {m m1 : Mem T} {l l1 : TList} {v : T}
    (h : AddStart m l v = Res.ok () m1 l1) :
    l.size < MAX_SIZE ∧ l1.size = l.size + 1 := by
  unfold AddStart at h
  split at h
  · exact Res.noConfusion h
  · rename_i hf
    have hlt := IsFull_false_lt hf
    refine ⟨hlt, ?_⟩
    rw [← incSize_eq (Nat.le_of_lt hlt)]
    split at h
    · have := ofOption_eq_ok h
      simp [Option.bind_eq_some] at this
      repeat (obtain ⟨_, this⟩ := this)
      rfl
    · have := ofOption_eq_ok h
      simp [Option.bind_eq_some] at this
      repeat (obtain ⟨_, this⟩ := this)
      rfl

theorem AddEnd_ok_size {T : Type} {m m1 : Mem T} {l l1 : TList} {v : T}
    (h : AddEnd m l v = Res.ok () m1 l1) :
    l.size < MAX_SIZE ∧ l1.size = l.size + 1 := by
  unfold AddEnd at h
  split at h
  · exact Res.noConfusion h
  · rename_i hf
    have hlt := IsFull_false_lt hf
    split at h
    · exact AddStart_ok_size h
    · refine ⟨hlt, ?_⟩
      rw [← incSize_eq (Nat.le_of_lt hlt)]
      have := ofOption_eq_ok h
      simp [Option.bind_eq_some] at this
      repeat (obtain ⟨_, this⟩ := this)
      rfl

theorem Add_ok_size {T : Type} {m m1 : Mem T} {l l1 : TList} {v : T} {i : Int}
    (h : Add m l v i = Res.ok () m1 l1) :
    l.size < MAX_SIZE ∧ l1.size = l.size + 1 := by
  unfold Add at h
  split at h
  · exact Res.noConfusion h
  · split at h
    · exact Res.noConfusion h
    · rename_i hf
      have hlt := IsFull_false_lt hf
      split at h
      · exact AddStart_ok_size h
      · split at h
        · exact AddEnd_ok_size h
        · refine ⟨hlt, ?_⟩
          rw [← incSize_eq (Nat.le_of_lt hlt)]
          have := ofOption_eq_ok h
          simp [Option.bind_eq_some] at this
          repeat (obtain ⟨_, this⟩ := this)
          rfl

theorem insertAfter_ok_size {T : Type} {m m1 : Mem T} {l l1 : TList} {v : T}
    {it : Iterator} (h : insertAfter m l it v = Res.ok () m1 l1) :
    l.size < MAX_SIZE ∧ l1.size = l.size + 1 := by
  unfold insertAfter at h
  split at h
  · exact Res.noConfusion h
  · rename_i hf
    have hlt := IsFull_false_lt hf
    split at h
    · exact AddEnd_ok_size h
    · refine ⟨hlt, ?_⟩
      rw [← incSize_eq (Nat.le_of_lt hlt)]
      have := ofOption_eq_ok h
      simp [Option.bind_eq_some] at this
      repeat (obtain ⟨_, this⟩ := this)
      rfl

theorem RemoveEnd_size_lt {T : Type} {m m1 : Mem T} {l l1 : TList} {v : T}
    (h : RemoveEnd m l = Res.ok v m1 l1) : l1.size < l.size := by
  unfold RemoveEnd at h
  split at h
  · exact Res.noConfusion h
  · rename_i he
    have hpos := IsEmpty_false_pos he
    split at h
    · exact RemoveStart_size_lt h
    · have := ofOption_eq_ok h
      simp [Option.bind_eq_some] at this
      repeat (obtain ⟨_, this⟩ := this)
      exact decSize_lt hpos

theorem castInt_pos_size {n : Nat} {i : Int} (h : ¬ (i < 0 ∨ i ≥ castInt n)) : 0 < n := by
  by_contra h0
  have : n = 0 := by omega
  subst this
  apply h
  simp [castInt]
  omega

theorem Remove_size_lt {T : Type} {m m1 : Mem T} {l l1 : TList} {v : T} {i : Int}
    (h : Remove m l i = Res.ok v m1 l1) : l1.size < l.size := by
  unfold Remove at h
  split at h
  · exact Res.noConfusion h
  · rename_i hr
    have hpos := castInt_pos_size hr
    split at h
    · exact RemoveStart_size_lt h
    · split at h
      · exact RemoveEnd_size_lt h
      · have := ofOption_eq_ok h
        simp [Option.bind_eq_some] at this
        repeat (obtain ⟨_, this⟩ := this)
        exact decSize_lt hpos

theorem remove_size_lt {T : Type} {m m1 : Mem T} {l l1 : TList} {it : Iterator}
    (h : remove m l it = Res.ok () m1 l1) : l1.size < l.size := by
  unfold remove at h
  split at h
  · exact Res.noConfusion h
  · rename_i he
    have hpos := IsEmpty_false_pos he
    split at h
    · exact Res.noConfusion h
    · split at h
      · have := ofOption_eq_ok h
        simp [Option.bind_eq_some] at this
        repeat (obtain ⟨_, this⟩ := this)
        exact decSize_lt hpos
      · have := ofOption_eq_ok h
        simp [Option.bind_eq_some] at this
        repeat (obtain ⟨_, this⟩ := this)
        exact decSize_lt hpos

theorem clearLoop_size_le {T : Type} (fuel : Nat) (m : Mem T) (l : TList)
    (r : Res T Unit) (h : clearLoop fuel m l = some r) :
    ∀ l1, r.obj? = some l1 → l1.size ≤ l.size := by
  induction fuel generalizing m l with
  | zero =>
    unfold clearLoop at h
    split at h
    · exact Option.noConfusion h
    · injection h with h
      subst h
      intro l1 h1
      injection h1 with h1
      rw [h1]
  | succ fuel ih =>
    unfold clearLoop at h
    split at h
    · split at h
      · rename_i a m1 l1 hrs
        intro l2 h2
        have := ih m1 l1 h l2 h2
        have := RemoveStart_size_lt hrs
        omega
      · rename_i e m1 l1 hrs
        injection h with h
        subst h
        intro l2 h2
        injection h2 with h2
        rw [← h2, (RemoveStart_throw hrs).2]
      · injection h with h
        subst h
        intro l2 h2
        exact Option.noConfusion h2
    · injection h with h
      subst h
      intro l1 h1
      injection h1 with h1
      rw [h1]

theorem clear_size_le {T : Type} (m : Mem T) (l : TList) :
    ∀ l1, (clear m l).obj? = some l1 → l1.size ≤ l.size := by
  unfold clear
  cases hc : clearLoop l.size m l with
  | none =>
    intro l1 h1
    exact Option.noConfusion h1
  | some r => exact clearLoop_size_le l.size m l r hc

theorem AddEnd_bounded {T : Type} (m : Mem T) (l : TList) (v : T)
    (hb : l.size ≤ MAX_SIZE) :
    ∀ l1, (AddEnd m l v).obj? = some l1 → l1.size ≤ MAX_SIZE := by
  intro l1 h1
  cases hr : AddEnd m l v with
  | ok a m2 l2 =>
    rw [hr] at h1
    injection h1 with h1
    rw [← h1]
    have := AddEnd_ok_size hr
    omega
  | throw e m2 l2 =>
    rw [hr] at h1
    injection h1 with h1
    rw [← h1, (AddEnd_throw hr).2]
    exact hb
  | fault =>
    rw [hr] at h1
    exact Option.noConfusion h1

theorem copyLoop_bounded {T : Type} (k : Nat) (m : Mem T) (self : TList) (cur : Ptr)
    (hb : self.size ≤ MAX_SIZE) :
    ∀ l1, (copyLoop k m self cur).obj? = some l1 → l1.size ≤ MAX_SIZE := by
  induction k generalizing m self cur with
  | zero =>
    intro l1 h1
    injection h1 with h1
    rw [← h1]; exact hb
  | succ k ih =>
    intro l1 h1
    unfold copyLoop at h1
    split at h1
    · exact Option.noConfusion h1
    · split at h1
      · rename_i a m1 self1 hA
        have hb1 : self1.size ≤ MAX_SIZE := AddEnd_bounded m self _ hb self1 (by rw [hA]; rfl)
        split at h1
        · exact Option.noConfusion h1
        · exact ih m1 self1 _ hb1 l1 h1
      · rename_i e m1 self1 hA
        exact AddEnd_bounded m self _ hb l1 (by rw [hA]; exact h1)
      · exact Option.noConfusion h1

theorem fillLoop_bounded {T : Type} [Inhabited T] (k : Nat) (m : Mem T) (self : TList)
    (hb : self.size ≤ MAX_SIZE) :
    ∀ l1, (fillLoop k m self).obj? = some l1 → l1.size ≤ MAX_SIZE := by
  induction k generalizing m self with
  | zero =>
    intro l1 h1
    injection h1 with h1
    rw [← h1]; exact hb
  | succ k ih =>
    intro l1 h1
    unfold fillLoop at h1
    split at h1
    · rename_i a m1 self1 hA
      have hb1 : self1.size ≤ MAX_SIZE := AddEnd_bounded m self _ hb self1 (by rw [hA]; rfl)
      exact ih m1 self1 hb1 l1 h1
    · rename_i e m1 self1 hA
      exact AddEnd_bounded m self _ hb l1 (by rw [hA]; exact h1)
    · exact Option.noConfusion h1

theorem readLoop_bounded {T : Type} (input : List (Option T)) (m : Mem T) (l : TList)
    (hb : l.size ≤ MAX_SIZE) :
    ∀ l1, (readLoop input m l).obj? = some l1 → l1.size ≤ MAX_SIZE := by
  induction input generalizing m l with
  | nil =>
    intro l1 h1
    injection h1 with h1
    rw [← h1]; exact hb
  | cons t rest ih =>
    intro l1 h1
    cases t with
    | none =>
      injection h1 with h1
      rw [← h1]; exact hb
    | some v =>
      unfold readLoop at h1
      split at h1
      · injection h1 with h1
        rw [← h1]; exact hb
      · split at h1
        · rename_i a m1 self1 hA
          have hb1 : self1.size ≤ MAX_SIZE :=
            AddEnd_bounded m l _ hb self1 (by rw [hA]; rfl)
          exact ih m1 self1 hb1 l1 h1
        · rename_i e m1 self1 hA
          exact AddEnd_bounded m l _ hb l1 (by rw [hA]; exact h1)
        · exact Option.noConfusion h1

theorem obj_bounded_of {T α : Type} {r : Res T α} {b : Nat}
    (hok : ∀ a m1 l1, r = Res.ok a m1 l1 → l1.size ≤ b)
    (hth : ∀ e m1 l1, r = Res.throw e m1 l1 → l1.size ≤ b) :
    ∀ l1, r.obj? = some l1 → l1.size ≤ b := by
  intro l1 h1
  cases r with
  | ok a m2 l2 =>
    injection h1 with h1
    rw [← h1]
    exact hok a m2 l2 rfl
  | throw e m2 l2 =>
    injection h1 with h1
    rw [← h1]
    exact hth e m2 l2 rfl
  | fault => exact Option.noConfusion h1

theorem zero_le_MAX_SIZE : (0 : Nat) ≤ MAX_SIZE := Nat.zero_le _

theorem copyCtor_bounded {T : Type} (m : Mem T) (other : TList) :
    ∀ l1, (copyCtor m other).obj? = some l1 → l1.size ≤ MAX_SIZE := by
  intro l1 h1
  unfold copyCtor at h1
  split at h1
  · exact copyLoop_bounded _ m ⟨none, 0⟩ _ zero_le_MAX_SIZE l1 h1
  · injection h1 with h1
    rw [← h1]
    exact zero_le_MAX_SIZE

theorem copyAssign_bounded {T : Type} (m : Mem T) (l other : TList)
    (hb : l.size ≤ MAX_SIZE) :
    ∀ l1, (copyAssign m l other).obj? = some l1 → l1.size ≤ MAX_SIZE := by
  intro l1 h1
  unfold copyAssign at h1
  split at h1
  · rename_i a m1 l2 hc
    have hb2 : l2.size ≤ MAX_SIZE :=
      Nat.le_trans (clear_size_le m l l2 (by rw [hc]; rfl)) hb
    split at h1
    · exact copyLoop_bounded _ m1 l2 _ hb2 l1 h1
    · injection h1 with h1
      rw [← h1]
      exact hb2
  · rename_i e m1 l2 hc
    injection h1 with h1
    rw [← h1]
    exact Nat.le_trans (clear_size_le m l l2 (by rw [hc]; rfl)) hb
  · exact Option.noConfusion h1

theorem sizedCtor_bounded {T : Type} [Inhabited T] (m : Mem T) (count : Nat) :
    ∀ l1, (sizedCtor m count).obj? = some l1 → l1.size ≤ MAX_SIZE := by
  intro l1 h1
  unfold sizedCtor at h1
  split at h1
  · injection h1 with h1
    rw [← h1]
    exact zero_le_MAX_SIZE
  · exact fillLoop_bounded _ m ⟨none, 0⟩ zero_le_MAX_SIZE l1 h1

theorem opIn_bounded {T : Type} (m : Mem T) (l : TList) (input : List (Option T))
    (hb : l.size ≤ MAX_SIZE) :
    ∀ l1, (opIn m l input).obj? = some l1 → l1.size ≤ MAX_SIZE := by
  intro l1 h1
  unfold opIn at h1
  split at h1
  · rename_i a m1 l2 hc
    have hb2 : l2.size ≤ MAX_SIZE :=
      Nat.le_trans (clear_size_le m l l2 (by rw [hc]; rfl)) hb
    exact readLoop_bounded input m1 l2 hb2 l1 h1
  · rename_i e m1 l2 hc
    injection h1 with h1
    rw [← h1]
    exact Nat.le_trans (clear_size_le m l l2 (by rw [hc]; rfl)) hb
  · exact Option.noConfusion h1

theorem opPlus_obj {T : Type} (m : Mem T) (l other : TList) :
    ∀ l1, (opPlus m l other).obj? = some l1 → l1 = l := by
  intro l1 h1
  unfold opPlus at h1
  split at h1
  · split at h1
    · split at h1
      · injection h1 with h1
        exact h1.symm
      · exact Option.noConfusion h1
    · split at h1
      · split at h1
        · injection h1 with h1
          exact h1.symm
        · split at h1
          · injection h1 with h1
            exact h1.symm
          · exact Option.noConfusion h1
        · exact Option.noConfusion h1
      · injection h1 with h1
        exact h1.symm
  · injection h1 with h1
    exact h1.symm
  · exact Option.noConfusion h1

theorem opPlus_result_bounded {T : Type} {m m1 : Mem T} {l l1 other r : TList}
    (h : opPlus m l other = Res.ok r m1 l1) : r.size ≤ MAX_SIZE := by
  unfold opPlus at h
  split at h
  · rename_i a m2 result hc
    have hb : result.size ≤ MAX_SIZE := copyCtor_bounded m l result (by rw [hc]; rfl)
    split at h
    · split at h
      · exact Res.noConfusion h
      · exact Res.noConfusion h
    · split at h
      · split at h
        · rename_i a2 m3 result2 hl
          injection h with h _ _
          rw [← h]
          exact copyLoop_bounded _ m2 result _ hb result2 (by rw [hl]; rfl)
        · split at h
          · exact Res.noConfusion h
          · exact Res.noConfusion h
        · exact Res.noConfusion h
      · injection h with h _ _
        rw [← h]
        exact hb
  · exact Res.noConfusion h
  · exact Res.noConfusion h

theorem moveAssign_sizes {T : Type} {m m1 : Mem T} {l l1 other o1 : TList}
    (h : moveAssign m l other = Res.ok o1 m1 l1) :
    l1.size = other.size ∧ o1.size = 0 := by
  unfold moveAssign at h
  split at h
  · injection h with h1 _ h3
    rw [← h1, ← h3]
    exact ⟨rfl, rfl⟩
  · exact Res.noConfusion h
  · exact Res.noConfusion h

theorem member_bounded {T α : Type} (w w1 : World T) (i : Nat) (r : Res T α)
    (hw : ∀ l ∈ w.lists, l.size ≤ MAX_SIZE)
    (hr : ∀ l1, r.obj? = some l1 → l1.size ≤ MAX_SIZE)
    (h : w.member i r = some w1) : ∀ l ∈ w1.lists, l.size ≤ MAX_SIZE := by
  cases r with
  | ok a m2 l2 =>
    injection h with h
    subst h
    intro l hl
    rcases List.mem_or_eq_of_mem_set hl with hm | he
    · exact hw l hm
    · rw [he]; exact hr l2 rfl
  | throw e m2 l2 =>
    injection h with h
    subst h
    intro l hl
    rcases List.mem_or_eq_of_mem_set hl with hm | he
    · exact hw l hm
    · rw [he]; exact hr l2 rfl
  | fault => exact Option.noConfusion h

theorem construct_bounded {T : Type} (w w1 : World T) (r : Res T Unit)
    (hw : ∀ l ∈ w.lists, l.size ≤ MAX_SIZE)
    (hr : ∀ l1, r.obj? = some l1 → l1.size ≤ MAX_SIZE)
    (h : w.construct r = some w1) : ∀ l ∈ w1.lists, l.size ≤ MAX_SIZE := by
  cases r with
  | ok a m2 l2 =>
    injection h with h
    subst h
    intro l hl
    rcases List.mem_append.mp hl with hm | he
    · exact hw l hm
    · rw [List.mem_singleton.mp he]; exact hr l2 rfl
  | throw e m2 l2 =>
    injection h with h
    subst h
    exact hw
  | fault => exact Option.noConfusion h

theorem mem_of_getElem?_eq {α : Type} {xs : List α} {i : Nat} {a : α}
    (h : xs[i]? = some a) : a ∈ xs := by
  obtain ⟨hi, rfl⟩ := List.getElem?_eq_some.mp h
  exact List.getElem_mem _

theorem stepCall_bounded {T : Type} [Inhabited T] (w w1 : World T) (c : Call T)
    (hw : ∀ l ∈ w.lists, l.size ≤ MAX_SIZE) (h : stepCall w c = some w1) :
    ∀ l ∈ w1.lists, l.size ≤ MAX_SIZE := by
  cases c with
  | defaultCtor =>
    injection h with h
    subst h
    intro l hl
    rcases List.mem_append.mp hl with hm | he
    · exact hw l hm
    · rw [List.mem_singleton.mp he]; exact zero_le_MAX_SIZE
  | sizedCtor count => exact construct_bounded w w1 _ hw (sizedCtor_bounded _ _) h
  | copyCtor src =>
    simp only [stepCall] at h
    split at h
    · exact construct_bounded w w1 _ hw (copyCtor_bounded _ _) h
    · exact Option.noConfusion h
  | moveCtor src =>
    simp only [stepCall] at h
    split at h
    · rename_i o ho
      injection h with h
      subst h
      intro l hl
      rcases List.mem_append.mp hl with hm | he
      · rcases List.mem_or_eq_of_mem_set hm with hm | he
        · exact hw l hm
        · rw [he]; exact zero_le_MAX_SIZE
      · rw [List.mem_singleton.mp he]
        exact hw o (mem_of_getElem?_eq ho)
    · exact Option.noConfusion h
  | copyAssign dst src =>
    simp only [stepCall] at h
    split at h
    · rename_i l o hl ho
      split at h
      · injection h with h
        subst h
        exact hw
      · exact member_bounded w w1 _ _ hw
          (copyAssign_bounded _ _ _ (hw l (mem_of_getElem?_eq hl))) h
    · exact Option.noConfusion h
  | moveAssign dst src =>
    simp only [stepCall] at h
    split at h
    · rename_i l o hl ho
      split at h
      · injection h with h
        subst h
        exact hw
      · split at h
        · rename_i o1 m1 l1 hm
          injection h with h
          subst h
          obtain ⟨e1, e2⟩ := moveAssign_sizes hm
          intro x hx
          rcases List.mem_or_eq_of_mem_set hx with hx | he
          · rcases List.mem_or_eq_of_mem_set hx with hx | he
            · exact hw x hx
            · rw [he, e1]; exact hw o (mem_of_getElem?_eq ho)
          · rw [he, e2]; exact zero_le_MAX_SIZE
        · exact Option.noConfusion h
        · exact Option.noConfusion h
    · exact Option.noConfusion h
  | addStart i v =>
    simp only [stepCall] at h
    split at h
    · rename_i l hl
      have hb := hw l (mem_of_getElem?_eq hl)
      exact member_bounded w w1 _ _ hw (obj_bounded_of
        (fun a m1 l1 hr => by have := AddStart_ok_size hr; omega)
        (fun e m1 l1 hr => by rw [(AddStart_throw hr).2]; exact hb)) h
    · exact Option.noConfusion h
  | addEnd i v =>
    simp only [stepCall] at h
    split at h
    · rename_i l hl
      exact member_bounded w w1 _ _ hw
        (AddEnd_bounded _ _ _ (hw l (mem_of_getElem?_eq hl))) h
    · exact Option.noConfusion h
  | add i v index =>
    simp only [stepCall] at h
    split at h
    · rename_i l hl
      have hb := hw l (mem_of_getElem?_eq hl)
      exact member_bounded w w1 _ _ hw (obj_bounded_of
        (fun a m1 l1 hr => by have := Add_ok_size hr; omega)
        (fun e m1 l1 hr => by rw [(Add_throw hr).2]; exact hb)) h
    · exact Option.noConfusion h
  | removeStart i =>
    simp only [stepCall] at h
    split at h
    · rename_i l hl
      have hb := hw l (mem_of_getElem?_eq hl)
      exact member_bounded w w1 _ _ hw (obj_bounded_of
        (fun a m1 l1 hr => by have := RemoveStart_size_lt hr; omega)
        (fun e m1 l1 hr => by rw [(RemoveStart_throw hr).2]; exact hb)) h
    · exact Option.noConfusion h
  | removeEnd i =>
    simp only [stepCall] at h
    split at h
    · rename_i l hl
      have hb := hw l (mem_of_getElem?_eq hl)
      exact member_bounded w w1 _ _ hw (obj_bounded_of
        (fun a m1 l1 hr => by have := RemoveEnd_size_lt hr; omega)
        (fun e m1 l1 hr => by rw [(RemoveEnd_throw hr).2]; exact hb)) h
    · exact Option.noConfusion h
  | removeAt i index =>
    simp only [stepCall] at h
    split at h
    · rename_i l hl
      have hb := hw l (mem_of_getElem?_eq hl)
      exact member_bounded w w1 _ _ hw (obj_bounded_of
        (fun a m1 l1 hr => by have := Remove_size_lt hr; omega)
        (fun e m1 l1 hr => by rw [(Remove_throw hr).2]; exact hb)) h
    · exact Option.noConfusion h
  | insertAfter i it v =>
    simp only [stepCall] at h
    split at h
    · rename_i l hl
      have hb := hw l (mem_of_getElem?_eq hl)
      exact member_bounded w w1 _ _ hw (obj_bounded_of
        (fun a m1 l1 hr => by have := insertAfter_ok_size hr; omega)
        (fun e m1 l1 hr => by rw [(insertAfter_throw hr).2]; exact hb)) h
    · exact Option.noConfusion h
  | removeIt i it =>
    simp only [stepCall] at h
    split at h
    · rename_i l hl
      have hb := hw l (mem_of_getElem?_eq hl)
      exact member_bounded w w1 _ _ hw (obj_bounded_of
        (fun a m1 l1 hr => by have := remove_size_lt hr; omega)
        (fun e m1 l1 hr => by rw [(remove_throw hr).2]; exact hb)) h
    · exact Option.noConfusion h
  | plus i j =>
    simp only [stepCall] at h
    split at h
    · rename_i l o hl ho
      have hb := hw l (mem_of_getElem?_eq hl)
      split at h
      · rename_i r m1 l1 hp
        injection h with h
        subst h
        have e1 : l1 = l := opPlus_obj _ l o l1 (by rw [hp]; rfl)
        intro x hx
        rcases List.mem_append.mp hx with hm | he
        · rcases List.mem_or_eq_of_mem_set hm with hm | he
          · exact hw x hm
          · rw [he, e1]; exact hb
        · rw [List.mem_singleton.mp he]
          exact opPlus_result_bounded hp
      · rename_i e m1 l1 hp
        injection h with h
        subst h
        have e1 : l1 = l := opPlus_obj _ l o l1 (by rw [hp]; rfl)
        intro x hx
        rcases List.mem_or_eq_of_mem_set hx with hm | he
        · exact hw x hm
        · rw [he, e1]; exact hb
      · exact Option.noConfusion h
    · exact Option.noConfusion h
  | parse i input =>
    simp only [stepCall] at h
    split at h
    · rename_i l hl
      exact member_bounded w w1 _ _ hw
        (opIn_bounded _ _ _ (hw l (mem_of_getElem?_eq hl))) h
    · exact Option.noConfusion h

theorem runCalls_bounded {T : Type} [Inhabited T] (calls : List (Call T)) (w w1 : World T)
    (hw : ∀ l ∈ w.lists, l.size ≤ MAX_SIZE) (h : runCalls calls w = some w1) :
    ∀ l ∈ w1.lists, l.size ≤ MAX_SIZE := by
  induction calls generalizing w with
  | nil =>
    injection h with h
    subst h
    exact hw
  | cons c cs ih =>
    unfold runCalls at h
    split at h
    · rename_i w2 hs
      exact ih w2 (stepCall_bounded w w2 c hw hs) h
    · exact Option.noConfusion h

/-- C22: `MAX_SIZE` is 10,000, and in every world reached from a world without
list objects by a sequence of calls of the constructors (default, sized, copy,
move), the copy and move assignments, `AddStart`, `AddEnd`, `Add`,
`RemoveStart`, `RemoveEnd`, `Remove`, `insertAfter`, `remove`, `operator+` and
`operator>>`, on any objects, with any arguments and any iterators, each call
returning or throwing (the exception caught), every list object has
`size <= MAX_SIZE`. -/
theorem C22_capacity_invariant {T : Type} [Inhabited T] (m0 : Mem T)
    (calls : List (Call T)) (w : World T) (h : runCalls calls ⟨m0, []⟩ = some w) :
    MAX_SIZE = 10000 ∧ ∀ l ∈ w.lists, GetSize l ≤ MAX_SIZE :=
  ⟨rfl, runCalls_bounded calls ⟨m0, []⟩ w (fun _ hl => absurd hl (List.not_mem_nil _)) h⟩

/-- C22 on a program with a throwing `RemoveStart`, a throwing sized
construction, a copy, a concatenation, a move and an `insertAfter` through an
iterator of another list: the four lists it leaves have sizes 3, 2, 0 and 4. -/
theorem C22_capacity_invariant_witness :
    ∃ w : World Nat,
      runCalls [Call.defaultCtor, Call.removeStart 0, Call.addEnd 0 1, Call.addEnd 0 2,
        Call.sizedCtor 10001, Call.copyCtor 0, Call.plus 0 1, Call.moveCtor 2,
        Call.insertAfter 0 ⟨some 3, some 3, 0, 2⟩ 7] ⟨[], []⟩ = some w ∧
      w.lists = [⟨some 0, 3⟩, ⟨some 2, 2⟩, ⟨none, 0⟩, ⟨some 4, 4⟩] ∧
      ∀ l ∈ w.lists, GetSize l ≤ MAX_SIZE :=
  have hrun : runCalls [Call.defaultCtor, Call.removeStart 0, Call.addEnd 0 1,
      Call.addEnd 0 2, Call.sizedCtor 10001, Call.copyCtor 0, Call.plus 0 1,
      Call.moveCtor 2, Call.insertAfter 0 ⟨some 3, some 3, 0, 2⟩ 7]
      (⟨[], []⟩ : World Nat) =
      some ⟨[some ⟨1, some 1, some 1⟩, some ⟨2, some 0, some 0⟩, some ⟨1, some 8, some 3⟩,
        some ⟨2, some 2, some 8⟩, some ⟨1, some 7, some 5⟩, some ⟨2, some 4, some 6⟩,
        some ⟨1, some 5, some 7⟩, some ⟨2, some 6, some 4⟩, some ⟨7, some 3, some 2⟩],
        [⟨some 0, 3⟩, ⟨some 2, 2⟩, ⟨none, 0⟩, ⟨some 4, 4⟩]⟩ := rfl
  ⟨_, hrun, rfl, (C22_capacity_invariant [] _ _ hrun).2⟩

/-! ## C23: the ring invariant on the links -/

theorem walkNext_snoc {T : Type} (m : Mem T) (k : Nat) (p : Ptr) :
    walkNext m (k + 1) p = (walkNext m k p).bind (GetNext m) := by
  induction k generalizing p with
  | zero =>
    simp only [walkNext, Option.some_bind]
    cases GetNext m p <;> rfl
  | succ k ih =>
    rw [walkNext]
    cases h : GetNext m p with
    | none => simp [walkNext, h]
    | some nx =>
      simp only []
      rw [ih nx]
      conv_rhs => rw [walkNext]
      simp only [h]

theorem walkNext_add {T : Type} (m : Mem T) (a b : Nat) (p : Ptr) :
    walkNext m (a + b) p = (walkNext m a p).bind (walkNext m b) := by
  induction a generalizing p with
  | zero => simp [walkNext]
  | succ a ih =>
    rw [Nat.add_right_comm, walkNext]
    conv_rhs => rw [walkNext]
    cases h : GetNext m p with
    | none => rfl
    | some nx => exact ih nx

theorem Ring_walk {T : Type} {m : Mem T} {l : TList} {ns : List (Nat × T)}
    (h : Ring m l ns) (p : Nat) (hp : p < ns.length) (d : Nat) :
    walkNext m d ((ns[p]?).map Prod.fst) =
      some ((ns[(p + d) % ns.length]?).map Prod.fst) := by
  induction d with
  | zero =>
    rw [Nat.add_zero, Nat.mod_eq_of_lt hp]
    rfl
  | succ d ih =>
    rw [walkNext_snoc, ih]
    simp only [Option.some_bind]
    rw [Ring_next h _ (Nat.mod_lt _ (by omega)), Nat.mod_add_mod]
    rfl

theorem ring_index_arith (p n : Nat) (hp : p < n) :
    ((p + 1) % n + n - 1) % n = p ∧ ((p + n - 1) % n + 1) % n = p := by
  constructor
  · rcases mod_succ_cases p n hp with ⟨h1, h2⟩ | ⟨h1, h2⟩
    · rw [h2]
      have : p + 1 + n - 1 = p + n := by omega
      rw [this, Nat.add_mod_right, Nat.mod_eq_of_lt hp]
    · rw [h2]
      have : 0 + n - 1 = p := by omega
      rw [this, Nat.mod_eq_of_lt hp]
  · by_cases h0 : p = 0
    · subst h0
      have : (0 + n - 1) % n = n - 1 := by
        rw [Nat.zero_add]; exact Nat.mod_eq_of_lt (by omega)
      rw [this]
      have : n - 1 + 1 = n := by omega
      rw [this, Nat.mod_self]
    · have e : (p + n - 1) % n = p - 1 := by
        have : p + n - 1 = (p - 1) + n := by omega
        rw [this, Nat.add_mod_right]
        exact Nat.mod_eq_of_lt (by omega)
      rw [e]
      have : p - 1 + 1 = p := by omega
      rw [this, Nat.mod_eq_of_lt hp]

/-- A ring in the sense of `Ring` satisfies the invariant on the links. -/
theorem Ring_RingInv {T : Type} {m : Mem T} {l : TList} {ns : List (Nat × T)}
    (h : Ring m l ns) : RingInv m l := by
  refine ⟨?_, ?_, ?_⟩
  · rw [h.2.2.1, h.1]
    cases ns <;> simp
  · intro p hp
    rw [h.1] at hp ⊢
    have hn : 0 < ns.length := by omega
    have h1 : (p + 1) % ns.length < ns.length := Nat.mod_lt _ hn
    have h2 : (p + ns.length - 1) % ns.length < ns.length := Nat.mod_lt _ hn
    obtain ⟨a1, a2⟩ := ring_index_arith p ns.length hp
    refine ⟨ns[p].1, ns[(p + 1) % ns.length].1, ns[(p + ns.length - 1) % ns.length].1,
      (Ring_read h p hp).1, ?_, ?_, ?_, ?_, ?_, ?_⟩
    · have := Ring_walk h p hp ns.length
      rw [Nat.add_mod_right, Nat.mod_eq_of_lt hp, getElem?_fst ns p hp] at this
      exact this
    · intro k hk0 hkn hw
      have := Ring_walk h p hp k
      rw [getElem?_fst ns p hp, hw, getElem?_fst ns _ (Nat.mod_lt _ hn)] at this
      injection this with this
      injection this with this
      have e := fst_getElem_inj h.2.2.2.1 p ((p + k) % ns.length) hp (Nat.mod_lt _ hn) this
      by_cases hlt : p + k < ns.length
      · rw [Nat.mod_eq_of_lt hlt] at e
        omega
      · have : (p + k) % ns.length = p + k - ns.length := by
          rw [Nat.mod_eq_sub_mod (by omega)]
          exact Nat.mod_eq_of_lt (by omega)
        omega
    · have := Ring_next h p hp
      rw [getElem?_fst ns p hp, getElem?_fst ns _ h1] at this
      exact this
    · have := Ring_prev h _ h1
      rw [getElem?_fst ns _ h1, a1, getElem?_fst ns p hp] at this
      exact this
    · have := Ring_prev h p hp
      rw [getElem?_fst ns p hp, getElem?_fst ns _ h2] at this
      exact this
    · have := Ring_next h _ h2
      rw [getElem?_fst ns _ h2, a2, getElem?_fst ns p hp] at this
      exact this
  · intro h1
    rw [h.1] at h1 ⊢
    have hn : 0 < ns.length := by omega
    have hl : ns.length - 1 < ns.length := by omega
    refine ⟨ns[ns.length - 1].1, ?_, (Ring_read h _ hl).1⟩
    have := Ring_prev h 0 hn
    rw [← Ring_head_eq h, Nat.zero_add, Nat.mod_eq_of_lt hl, getElem?_fst ns _ hl] at this
    exact this

theorem GetNext_some_read {T : Type} {m : Mem T} {a : Nat} {q : Ptr}
    (h : GetNext m (some a) = some q) : ∃ nd, m.read a = some nd ∧ nd.next = q := by
  unfold GetNext at h
  simp only [] at h
  cases hr : m.read a with
  | none => rw [hr] at h; exact Option.noConfusion h
  | some nd =>
    rw [hr] at h
    injection h with h
    exact ⟨nd, rfl, h⟩

theorem GetPrev_some_read {T : Type} {m : Mem T} {a : Nat} {q : Ptr}
    (h : GetPrev m (some a) = some q) : ∃ nd, m.read a = some nd ∧ nd.prev = q := by
  unfold GetPrev at h
  simp only [] at h
  cases hr : m.read a with
  | none => rw [hr] at h; exact Option.noConfusion h
  | some nd =>
    rw [hr] at h
    injection h with h
    exact ⟨nd, rfl, h⟩

theorem RingInv_build {T : Type} {m : Mem T} {l : TList} (h : RingInv m l) (a0 c0 : Nat)
    (hh : l.head = some a0) (hc0 : GetPrev m (some a0) = some (some c0)) :
    ∀ k, k ≤ l.size → ∃ (ns : List (Nat × T)) (q : Nat), ns.length = k ∧
      walkNext m k l.head = some (some q) ∧ seg m c0 ns q ∧
      GetPrev m (some q) = some (some (lastAddr ns c0)) ∧
      ∀ (i : Nat) (hi : i < ns.length), walkNext m i l.head = some (some ns[i].1) := by
  intro k
  induction k with
  | zero =>
    intro _
    exact ⟨[], a0, rfl, by rw [hh]; rfl, trivial, hc0, fun i hi => absurd hi (by simp)⟩
  | succ k ih =>
    intro hk
    obtain ⟨ns, q, hlen, hw, hs, hp, hidx⟩ := ih (by omega)
    obtain ⟨a, b, c, w1, _, _, n1, n2, _, _⟩ := h.2.1 k (by omega)
    have eq : a = q := by
      rw [hw] at w1
      injection w1 with w1
      injection w1 with w1
      exact w1.symm
    subst eq
    obtain ⟨nd, hr, hnx⟩ := GetNext_some_read n1
    obtain ⟨nd2, hr2, hpv⟩ := GetPrev_some_read hp
    rw [hr] at hr2
    injection hr2 with hr2
    subst hr2
    have hcell : m.read a = some ⟨nd.value, some (lastAddr ns c0), some b⟩ := by
      rw [hr, ← hnx, ← hpv]
    refine ⟨ns ++ [(a, nd.value)], b, by simp [hlen], ?_, ?_, ?_, ?_⟩
    · rw [walkNext_snoc, hw]
      exact n1
    · rw [seg_append]
      exact ⟨hs, hcell, trivial⟩
    · rw [lastAddr_concat]
      exact n2
    · intro i hi
      by_cases hik : i < ns.length
      · rw [List.getElem_append_left hik]
        exact hidx i hik
      · have : i = ns.length := by
          simp at hi
          omega
        subst this
        rw [List.getElem_append_right (by omega)]
        simp only [Nat.sub_self, List.getElem_cons_zero]
        rw [hlen]
        exact hw

/-- A list that satisfies the invariant on the links and is within capacity is
a ring in the sense of `Ring`. -/
theorem RingInv_Ring {T : Type} {m : Mem T} {l : TList} (h : RingInv m l)
    (hcap : l.size ≤ MAX_SIZE) : ∃ ns : List (Nat × T), Ring m l ns := by
  by_cases h0 : l.size = 0
  · refine ⟨[], (Ring_nil_iff m l).mpr ?_⟩
    have hh := h.1.mpr h0
    cases l with
    | mk head size =>
      simp only at h0 hh
      subst h0 hh
      rfl
  · obtain ⟨t, ht, _⟩ := h.2.2 (by omega)
    cases hh : l.head with
    | none => exact absurd (h.1.mp hh) h0
    | some a0 =>
      rw [hh] at ht
      obtain ⟨ns, q, hlen, hw, hs, hp, hidx⟩ := RingInv_build h a0 t hh ht l.size (Nat.le_refl _)
      have hpos : 0 < ns.length := by omega
      have hne : ns ≠ [] := by
        intro e; rw [e] at hpos; exact absurd hpos (by simp)
      have hfirst : ns[0].1 = a0 := by
        have := hidx 0 hpos
        rw [hh] at this
        injection this with this
        injection this with this
        exact this.symm
      obtain ⟨a, _, _, w1, w2, _⟩ := h.2.1 0 (by omega)
      have ea : a = a0 := by
        rw [hh] at w1
        injection w1 with w1
        injection w1 with w1
        exact w1.symm
      subst ea
      have eq : q = a := by
        rw [hh, w2] at hw
        injection hw with hw
        injection hw with hw
        exact hw.symm
      subst eq
      have hlast : lastAddr ns t = t := by
        rw [ht] at hp
        injection hp with hp
        injection hp with hp
        exact hp.symm
      refine ⟨ns, hlen.symm, by rw [hlen]; exact hcap, ?_, ?_, ?_⟩
      · rw [hh, ← hfirst]
        cases ns with
        | nil => exact absurd rfl hne
        | cons c rest => rfl
      · rw [List.nodup_iff_getElem?_ne_getElem?]
        intro i j hij hj he
        have hj' : j < ns.length := by simpa using hj
        have hi' : i < ns.length := by omega
        rw [List.getElem?_map, List.getElem?_map, List.getElem?_eq_getElem hi',
          List.getElem?_eq_getElem hj'] at he
        simp only [Option.map_some'] at he
        injection he with he
        have hwj : walkNext m (i + (j - i)) l.head = some (some ns[j].1) := by
          rw [show i + (j - i) = j by omega]
          exact hidx j hj'
        rw [walkNext_add, hidx i hi'] at hwj
        simp only [Option.some_bind] at hwj
        obtain ⟨a', _, _, v1, _, v3, _⟩ := h.2.1 i (by omega)
        have ea' : a' = ns[i].1 := by
          rw [hidx i hi'] at v1
          injection v1 with v1
          injection v1 with v1
          exact v1.symm
        subst ea'
        apply v3 (j - i) (by omega) (by omega)
        rw [hwj, he]
      · have e1 : lastAddr ns 0 = t := by
          rw [lastAddr_indep ns 0 t hne]; exact hlast
        have e2 : firstAddr ns 0 = q := by
          rw [← hfirst]
          cases ns with
          | nil => exact absurd rfl hne
          | cons c rest => rfl
        rw [e1, e2]
        exact hs

theorem Preserved_of_Ring {T : Type} {m : Mem T} {l : TList} {ns : List (Nat × T)}
    (h : Ring m l ns) : Preserved (some (m, l)) :=
  ⟨m, l, rfl, Ring_RingInv h, by rw [h.1]; exact h.2.1⟩

theorem IsFull_of_not_lt {T : Type} {m : Mem T} {l : TList} {ns : List (Nat × T)}
    (h : Ring m l ns) (hlt : ¬ ns.length < MAX_SIZE) : IsFull l = true := by
  have : MAX_SIZE ≤ l.size := by rw [h.1]; omega
  simpa [IsFull] using this

theorem AddStart_preserved {T : Type} {m : Mem T} {l : TList} {ns : List (Nat × T)}
    (h : Ring m l ns) (v : T) : Preserved (AddStart m l v).state? := by
  by_cases hlt : ns.length < MAX_SIZE
  · obtain ⟨m1, h1, h2, _⟩ := AddStart_Ring h hlt v
    rw [h1]
    exact Preserved_of_Ring h2
  · have hf := IsFull_of_not_lt h hlt
    unfold AddStart
    simp only [hf, if_true]
    exact Preserved_of_Ring h

theorem AddEnd_preserved {T : Type} {m : Mem T} {l : TList} {ns : List (Nat × T)}
    (h : Ring m l ns) (v : T) : Preserved (AddEnd m l v).state? := by
  by_cases hlt : ns.length < MAX_SIZE
  · obtain ⟨m1, l1, h1, _, h2, _⟩ := AddEnd_Ring h hlt v
    rw [h1]
    exact Preserved_of_Ring h2
  · have hf := IsFull_of_not_lt h hlt
    unfold AddEnd
    simp only [hf, if_true]
    exact Preserved_of_Ring h

theorem Add_preserved {T : Type} {m : Mem T} {l : TList} {ns : List (Nat × T)}
    (h : Ring m l ns) (v : T) (i : Int) : Preserved (Add m l v i).state? := by
  have hc : castInt l.size = (ns.length : Int) := by
    rw [h.1]; exact castInt_eq h.2.1
  by_cases hr : i < 0 ∨ i > castInt l.size
  · unfold Add
    rw [if_pos hr]
    exact Preserved_of_Ring h
  · by_cases hlt : ns.length < MAX_SIZE
    · rw [hc] at hr
      obtain ⟨m1, l1, h1, _, h2, _⟩ := Add_Ring h hlt v i.toNat (by omega)
      have e : ((i.toNat : Nat) : Int) = i := Int.toNat_of_nonneg (by omega)
      rw [e] at h1
      rw [h1]
      exact Preserved_of_Ring h2
    · have hf := IsFull_of_not_lt h hlt
      unfold Add
      rw [if_neg hr]
      simp only [hf, if_true]
      exact Preserved_of_Ring h

theorem IsEmpty_of_nil {T : Type} {m : Mem T} {l : TList}
    (h : Ring m l ([] : List (Nat × T))) : IsEmpty l = true := by
  have : l.size = 0 := h.1
  simp [IsEmpty, this]

theorem RemoveStart_preserved {T : Type} {m : Mem T} {l : TList} {ns : List (Nat × T)}
    (h : Ring m l ns) : Preserved (RemoveStart m l).state? := by
  cases ns with
  | nil =>
    have he := IsEmpty_of_nil h
    unfold RemoveStart
    simp only [he, if_true]
    exact Preserved_of_Ring h
  | cons c rest =>
    obtain ⟨m1, l1, h1, _, h2, _⟩ := RemoveStart_Ring h
    rw [h1]
    exact Preserved_of_Ring h2

theorem RemoveEnd_preserved {T : Type} {m : Mem T} {l : TList} {ns : List (Nat × T)}
    (h : Ring m l ns) : Preserved (RemoveEnd m l).state? := by
  rcases List.eq_nil_or_concat ns with h0 | ⟨ns0, c, hc⟩
  · subst h0
    have he := IsEmpty_of_nil h
    unfold RemoveEnd
    simp only [he, if_true]
    exact Preserved_of_Ring h
  · rw [List.concat_eq_append] at hc
    subst hc
    obtain ⟨m1, l1, h1, _, h2, _⟩ := RemoveEnd_Ring h
    rw [h1]
    exact Preserved_of_Ring h2

theorem Remove_preserved {T : Type} {m : Mem T} {l : TList} {ns : List (Nat × T)}
    (h : Ring m l ns) (i : Int) : Preserved (Remove m l i).state? := by
  have hc : castInt l.size = (ns.length : Int) := by
    rw [h.1]; exact castInt_eq h.2.1
  by_cases hr : i < 0 ∨ i ≥ castInt l.size
  · unfold Remove
    rw [if_pos hr]
    exact Preserved_of_Ring h
  · rw [hc] at hr
    obtain ⟨m1, l1, h1, _, h2, _⟩ := Remove_Ring h i.toNat (by omega)
    have e : ((i.toNat : Nat) : Int) = i := Int.toNat_of_nonneg (by omega)
    have e2 : Remove m l i = Remove m l ((i.toNat : Nat) : Int) := by rw [e]
    rw [e2, h1]
    exact Preserved_of_Ring h2

theorem walk_node_eq {T : Type} {m : Mem T} {l : TList} {ns : List (Nat × T)}
    (h : Ring m l ns) (p : Nat) (hp : p < ns.length) (q : Ptr)
    (hq : walkNext m p l.head = some q) : q = some ns[p].1 := by
  rw [(Ring_read h p hp).1] at hq
  injection hq with hq
  exact hq.symm

theorem insertAfter_preserved {T : Type} {m : Mem T} {l : TList} {ns : List (Nat × T)}
    (h : Ring m l ns) (v : T) (it : Iterator) (p : Nat) (hp : p < ns.length)
    (hit : walkNext m p l.head = some it.GetNode) :
    Preserved (insertAfter m l it v).state? := by
  have hn := walk_node_eq h p hp _ hit
  by_cases hlt : ns.length < MAX_SIZE
  · obtain ⟨m1, h1, h2, _⟩ := insertAfter_Ring h hlt v p hp it hn
    rw [h1]
    exact Preserved_of_Ring h2
  · have hf := IsFull_of_not_lt h hlt
    unfold insertAfter
    simp only [hf, if_true]
    exact Preserved_of_Ring h

theorem remove_preserved {T : Type} {m : Mem T} {l : TList} {ns : List (Nat × T)}
    (h : Ring m l ns) (it : Iterator) (p : Nat) (hp : p < ns.length)
    (hit : walkNext m p l.head = some it.GetNode) :
    Preserved (remove m l it).state? := by
  have hn := walk_node_eq h p hp _ hit
  obtain ⟨m1, l1, h1, _, h2, _⟩ := remove_Ring h p hp it hn
  rw [h1]
  exact Preserved_of_Ring h2

/-- C23: each of `AddStart`, `AddEnd`, `Add`, `RemoveStart`, `RemoveEnd` and
`Remove`, with any arguments, and each of `insertAfter` and `remove` with an
iterator referencing a node of the list, called on a list that satisfies the
ring invariant (`head` null iff `size = 0`; from every node `size` steps of
`next` and no fewer positive number lead back to it; `prev` and `next` inverse
of each other; `head.prev` the node of index `size - 1`) and is within
capacity, returns or throws without following a null or dead link, and leaves
a list that satisfies the invariant and is within capacity; such a list is a
well-formed list holding some values. -/
theorem C23_ring_preserved {T : Type} (m : Mem T) (l : TList) (v : T) (i : Int)
    (it : Iterator) (h : RingInv m l) (hcap : GetSize l ≤ MAX_SIZE) :
    (∃ xs, Holds m l xs) ∧
    Preserved (AddStart m l v).state? ∧ Preserved (AddEnd m l v).state? ∧
    Preserved (Add m l v i).state? ∧ Preserved (RemoveStart m l).state? ∧
    Preserved (RemoveEnd m l).state? ∧ Preserved (Remove m l i).state? ∧
    (∀ p, p < GetSize l → walkNext m p l.head = some it.GetNode →
      Preserved (insertAfter m l it v).state? ∧ Preserved (remove m l it).state?) := by
  obtain ⟨ns, hr⟩ := RingInv_Ring h hcap
  refine ⟨⟨_, ns, hr, rfl⟩, AddStart_preserved hr v, AddEnd_preserved hr v,
    Add_preserved hr v i, RemoveStart_preserved hr, RemoveEnd_preserved hr,
    Remove_preserved hr i, ?_⟩
  intro p hp hit
  have hp' : p < ns.length := by rw [← hr.1]; exact hp
  exact ⟨insertAfter_preserved hr v it p hp' hit, remove_preserved hr it p hp' hit⟩

/-- C23 at the list `[1, 2, 3]`: it satisfies the ring invariant, and after
`Add(9, 1)`, after `RemoveEnd()` and after `remove(begin())` the list
satisfies it again. -/
theorem C23_ring_preserved_witness :
    RingInv mem123 list123 ∧ GetSize list123 ≤ MAX_SIZE ∧
      Preserved (Add mem123 list123 9 1).state? ∧
      Preserved (RemoveEnd mem123 list123).state? ∧
      Preserved (remove mem123 list123 list123.begin).state? :=
  have hR : Ring mem123 list123 nodes123 := by decide
  have hI : RingInv mem123 list123 := Ring_RingInv hR
  have hC : GetSize list123 ≤ MAX_SIZE := by decide
  have hT := C23_ring_preserved mem123 list123 9 1 list123.begin hI hC
  ⟨hI, hC, hT.2.2.2.1, hT.2.2.2.2.2.1, (hT.2.2.2.2.2.2.2 0 (by decide) rfl).2⟩

/-! ## C24: `insertAfter` at `end()` -/

theorem insertAfter_end_Ring {T : Type} {m : Mem T} {l : TList} {ns : List (Nat × T)}
    (h : Ring m l ns) (hpos : 0 < ns.length) (hlt : ns.length < MAX_SIZE) (v : T) :
    ∃ m1, insertAfter m l l.«end» v = Res.ok () m1 ⟨l.head, l.size + 1⟩ ∧
      Ring m1 ⟨l.head, l.size + 1⟩ (ns.take 1 ++ (m.length, v) :: ns.drop 1) ∧
      (insertAfter m l l.«end» v = AddEnd m l v ↔ ns.length = 1) := by
  have hnode : l.«end».GetNode = some ns[0].1 := by
    show l.head = _
    rw [Ring_head_eq h, getElem?_fst ns 0 hpos]
  obtain ⟨m1, h1, h2, _⟩ := insertAfter_Ring h hlt v 0 hpos l.«end» hnode
  refine ⟨m1, h1, h2, ?_, ?_⟩
  · intro he
    by_contra hn1
    have h2n : 1 < ns.length := by omega
    obtain ⟨m2, l2, a1, _, a2, _⟩ := AddEnd_Ring h hlt v
    rw [h1, a1] at he
    injection he with _ hm hl
    subst hm hl
    have hlen1 : 1 < (ns.take 1 ++ (m.length, v) :: ns.drop 1).length := by
      simp
      omega
    have hlen2 : 1 < (ns ++ [(m.length, v)]).length := by
      simp
      omega
    have i1 := indexRef_Ring h2 1 hlen1
    have i2 := indexRef_Ring a2 1 hlen2
    rw [i1] at i2
    have e := indexRef_ok_inj i2
    have e1 : (ns.take 1 ++ (m.length, v) :: ns.drop 1)[1].1 = m.length := by
      have := getElem?_insert_eq ns (m.length, v) 1 (by omega)
      rw [List.getElem?_eq_getElem hlen1] at this
      injection this with this
      rw [this]
    have e2 : (ns ++ [(m.length, v)])[1].1 = ns[1].1 := by
      rw [List.getElem_append_left h2n]
    rw [e1, e2] at e
    have hlive := Ring_live h ns[1].1 (List.mem_map.mpr ⟨ns[1], List.getElem_mem _, rfl⟩)
    omega
  · intro hn1
    cases ns with
    | nil => simp at hpos
    | cons c rest =>
      have hrest : rest = [] := by
        simp at hn1
        exact hn1
      subst hrest
      obtain ⟨hsz, hhd, hrc, _⟩ := Ring_cons_facts h
      have hfull : IsFull l = false := by
        simp [IsFull, h.1]; exact hlt
      have hempty : IsEmpty l = false := by simp [IsEmpty, hsz]
      have hnn : ¬ (l.«end».GetNode = none) := by rw [hnode]; simp
      have hcell : m.read c.1 = some ⟨c.2, some c.1, some c.1⟩ := hrc
      unfold insertAfter AddEnd
      simp only [hfull, hempty, Bool.false_eq_true, if_false]
      rw [if_neg hnn]
      simp [TList.«end», Iterator.ctor, Iterator.GetNode, hhd, GetNext, GetPrev, hcell]

/-- C24: on a well-formed non-empty list of size `n < MAX_SIZE`, `end()`
references the head, the node of index 0, and `insertAfter(end(), v)` returns
and leaves a well-formed list of size `n + 1` with `v` at index 1, index 0
unchanged and the elements formerly at indices `1 .. n-1` one index higher; the
outcome of the call (memory and list object) is that of `AddEnd(v)` exactly
when `n = 1`. -/
theorem C24_insertAfter_end {T : Type} (m : Mem T) (l : TList) (xs : List T) (v : T)
    (h : Holds m l xs) (hne : GetSize l ≠ 0) (hlt : GetSize l < MAX_SIZE) :
    (l.«end».GetNode = l.head ∧
      ∃ a, indexRef m l 0 = Res.ok a m l ∧ l.«end».GetNode = some a) ∧
    (∃ m1 l1, insertAfter m l l.«end» v = Res.ok () m1 l1 ∧
      Holds m1 l1 (xs.take 1 ++ v :: xs.drop 1) ∧
      GetSize l1 = GetSize l + 1 ∧
      readAt m1 l1 1 = Res.ok v m1 l1 ∧
      (∀ (h0 : 0 < xs.length),
        readAt m l 0 = Res.ok xs[0] m l ∧ readAt m1 l1 0 = Res.ok xs[0] m1 l1) ∧
      (∀ (j : Nat) (hj : j < xs.length), 1 ≤ j →
        readAt m l (j : Int) = Res.ok xs[j] m l ∧
        readAt m1 l1 ((j : Int) + 1) = Res.ok xs[j] m1 l1)) ∧
    (insertAfter m l l.«end» v = AddEnd m l v ↔ GetSize l = 1) := by
  have hH := h
  obtain ⟨ns, hr, hx⟩ := h
  simp only [GetSize] at hne hlt ⊢
  have hpos : 0 < ns.length := by rw [← hr.1]; omega
  have hxl : xs.length = ns.length := by rw [← hx]; simp
  obtain ⟨m1, h1, h2, h3⟩ := insertAfter_end_Ring hr hpos (by rw [← hr.1]; exact hlt) v
  have hH2 : Holds m1 ⟨l.head, l.size + 1⟩ (xs.take 1 ++ v :: xs.drop 1) :=
    ⟨_, h2, by rw [← hx]; simp [List.map_take, List.map_drop]⟩
  have hk : 1 ≤ xs.length := by omega
  refine ⟨⟨rfl, ns[0].1, indexRef_Ring hr 0 hpos, ?_⟩, ⟨m1, _, h1, hH2, rfl, ?_, ?_, ?_⟩, ?_⟩
  · show l.head = _
    rw [Ring_head_eq hr, getElem?_fst ns 0 hpos]
  · have := Holds_index_of_getElem? hH2 1 v (getElem?_insert_eq xs v 1 hk)
    simpa using this
  · intro h0
    refine ⟨Holds_index hH 0 h0, ?_⟩
    have := Holds_index_of_getElem? hH2 0 xs[0] (by
      rw [getElem?_insert_lt xs v 1 0 (by omega) hk]
      exact List.getElem?_eq_getElem h0)
    simpa using this
  · intro j hj hj1
    refine ⟨Holds_index hH j hj, ?_⟩
    have := Holds_index_of_getElem? hH2 (j + 1) xs[j] (by
      rw [getElem?_insert_ge xs v 1 j hj1 hk]
      exact List.getElem?_eq_getElem hj)
    simpa using this
  · rw [h3, hr.1]

/-- C24 at the lists `[1, 2, 3]` and `[7]`: `insertAfter(end(), 9)` on
`[1, 2, 3]` gives `[1, 9, 2, 3]` and differs from `AddEnd(9)`; on `[7]` it is
`AddEnd(9)`. -/
theorem C24_insertAfter_end_witness :
    Holds mem123 list123 [1, 2, 3] ∧ GetSize list123 ≠ 0 ∧ GetSize list123 < MAX_SIZE ∧
      (∃ m1 l1, insertAfter mem123 list123 list123.«end» 9 = Res.ok () m1 l1 ∧
        Holds m1 l1 [1, 9, 2, 3]) ∧
      insertAfter mem123 list123 list123.«end» 9 ≠ AddEnd mem123 list123 9 ∧
      insertAfter mem123and7 list7 list7.«end» 9 = AddEnd mem123and7 list7 9 :=
  have hH : Holds mem123 list123 [1, 2, 3] := ⟨nodes123, by decide, rfl⟩
  have h7 : Holds mem123and7 list7 [7] := ⟨[(3, 7)], by decide, rfl⟩
  have hT := C24_insertAfter_end mem123 list123 [1, 2, 3] 9 hH (by decide) (by decide)
  have hS := C24_insertAfter_end mem123and7 list7 [7] 9 h7 (by decide) (by decide)
  ⟨hH, by decide, by decide,
    hT.2.1.elim fun m1 e => e.elim fun l1 e => ⟨m1, l1, e.1, e.2.1⟩,
    fun e => absurd (hT.2.2.mp e) (by decide),
    hS.2.2.mpr rfl⟩

end TListImpl
